import Mathlib

/-!
Verification of a fixed-capacity, allocation-free LRU cache.

The development shallowly embeds three C++ components:
* `iumap` — an in-place open-addressing hash table with tombstone deletion
  (src/iumap.hpp): slots become an inductive `Slot`, the slot array becomes a
  `List`, pointers/iterators become slot indices (`Option Nat`, `none` = end).
* `lru_list` — an intrusive doubly linked recency list over a fixed node array
  (src/lru_list.hpp): `prev`/`next` pointers become `Option Nat` indices into
  the node array, the raw payload storage becomes `Option V` (`none` models a
  never-constructed payload).
* `cache` — the bounded LRU cache combining the two (src/main.cpp).

Partial behaviour of the C++ (failing assertions, dereferencing a null
pointer, reading a never-constructed payload) is modelled by returning `none`
from the corresponding operation.
-/

/-- Slot of the open-addressing table.  The C++ `member` struct keeps an
`enum state` tag next to raw storage that holds a constructed key/value pair
exactly when the tag is `occupied`; the inductive folds the two together. -/
inductive Slot (K M : Type) where
  | unused : Slot K M
  | tombstone : Slot K M
  | occupied (key : K) (val : M) : Slot K M
  deriving DecidableEq

/-- Is this slot in the `occupied` state? -/
def Slot.isOccupied {K M : Type} : Slot K M → Bool
  | .occupied _ _ => true
  | _ => false

/-- The hash table `iumap<Key, Mapped, Size>`: a fixed array `v_` of slots
plus the live count `size_` and tombstone count `tombstones_`. -/
structure iumap (K M : Type) where
  size_ : Nat
  tombstones_ : Nat
  v_ : List (Slot K M)
  deriving DecidableEq

/-- Number of occupied slots of a slot array. -/
def countOccupied {K M : Type} (v : List (Slot K M)) : Nat :=
  v.countP Slot.isOccupied

/-- `is_power_of_two` from src/iumap.hpp: `n > 0U && !(n & (n - 1U))`. -/
def is_power_of_two (n : Nat) : Bool :=
  decide (0 < n) && ((n &&& (n - 1)) == 0)

/-- A default, all-unused table of `n` slots (the default-constructed map). -/
def iumap.empty (K M : Type) (n : Nat) : iumap K M :=
  { size_ := 0, tombstones_ := 0, v_ := List.replicate n .unused }

section TableOps

variable {K M : Type} [DecidableEq K]

/-- Probe loop of `iumap::lookup_slot`: starting from position `pos` at
1-based iteration `iter`, probe at most `fuel` more slots, advancing by
`pos = (pos + iteration) % size` after each probe.  Stops at an unused slot
or at an occupied slot whose key equals `key`; tombstones are skipped.
`none` models the C++ null-pointer result after `Size` fruitless probes. -/
def iumap.lookup_slot_go (v : List (Slot K M)) (key : K) :
    Nat → Nat → Nat → Option Nat
  | _pos, _iter, 0 => none
  | pos, iter, fuel + 1 =>
    match v.getD pos .unused with
    | .unused => some pos
    | .tombstone => iumap.lookup_slot_go v key ((pos + iter) % v.length) (iter + 1) fuel
    | .occupied k _ =>
      if k = key then some pos
      else iumap.lookup_slot_go v key ((pos + iter) % v.length) (iter + 1) fuel

/-- `iumap::lookup_slot`: probe from `hash(key) % size` for up to `size`
iterations. -/
def iumap.lookup_slot (hash : K → Nat) (m : iumap K M) (key : K) : Option Nat :=
  iumap.lookup_slot_go m.v_ key (hash key % m.v_.length) 1 m.v_.length

/-- `iumap::find`: a successful lookup that lands on an occupied slot yields
that slot (the C++ iterator); a null result or a non-occupied slot yields
`none` (the C++ `end()`). -/
def iumap.find (hash : K → Nat) (m : iumap K M) (key : K) : Option Nat :=
  match iumap.lookup_slot hash m key with
  | none => none
  | some i =>
    match m.v_.getD i .unused with
    | .occupied _ _ => some i
    | _ => none

/-- The mapped value at the slot returned by `iumap::find` (the C++
`pos->second` read, done by the cache after comparing `pos` with `end()`). -/
def iumap.findVal (hash : K → Nat) (m : iumap K M) (key : K) : Option M :=
  match iumap.find hash m key with
  | none => none
  | some i =>
    match m.v_.getD i .unused with
    | .occupied _ w => some w
    | _ => none

/-- Probe loop of `iumap::find_insert_slot`, carrying the first tombstone
slot encountered (`ft`).  Stops at an occupied slot with an equal key or at
an unused slot (preferring the remembered tombstone); after `Size`
iterations returns the remembered tombstone, or `none` (the null pointer). -/
def iumap.find_insert_slot_go (v : List (Slot K M)) (key : K) :
    Nat → Nat → Option Nat → Nat → Option Nat
  | _pos, _iter, ft, 0 => ft
  | pos, iter, ft, fuel + 1 =>
    match v.getD pos .unused with
    | .tombstone =>
      iumap.find_insert_slot_go v key ((pos + iter) % v.length) (iter + 1)
        (match ft with | none => some pos | some t => some t) fuel
    | .occupied k _ =>
      if k = key then some pos
      else iumap.find_insert_slot_go v key ((pos + iter) % v.length) (iter + 1) ft fuel
    | .unused =>
      match ft with
      | none => some pos
      | some t => some t

/-- `iumap::find_insert_slot`. -/
def iumap.find_insert_slot (hash : K → Nat) (m : iumap K M) (key : K) : Option Nat :=
  iumap.find_insert_slot_go m.v_ key (hash key % m.v_.length) 1 none m.v_.length

/-- `iumap::try_emplace`: returns the pair (iterator, inserted) together with
the updated table.  `none` as iterator is the C++ `end()`. -/
def iumap.try_emplace (hash : K → Nat) (m : iumap K M) (key : K) (val : M) :
    (Option Nat × Bool) × iumap K M :=
  match iumap.find_insert_slot hash m key with
  | none => ((none, false), m)
  | some i =>
    match m.v_.getD i .unused with
    | .occupied _ _ => ((some i, false), m)
    | .tombstone =>
      ((some i, true),
       { size_ := m.size_ + 1, tombstones_ := m.tombstones_ - 1,
         v_ := m.v_.set i (.occupied key val) })
    | .unused =>
      ((some i, true),
       { size_ := m.size_ + 1, tombstones_ := m.tombstones_,
         v_ := m.v_.set i (.occupied key val) })

/-- `iumap::insert`: forwards to `try_emplace(value.first, value.second)`. -/
def iumap.insert (hash : K → Nat) (m : iumap K M) (kv : K × M) :
    (Option Nat × Bool) × iumap K M :=
  iumap.try_emplace hash m kv.1 kv.2

/-- `iumap::insert_or_assign`: like `try_emplace`, but overwrites the mapped
value (keeping the stored key object) when the key already exists. -/
def iumap.insert_or_assign (hash : K → Nat) (m : iumap K M) (key : K) (val : M) :
    (Option Nat × Bool) × iumap K M :=
  match iumap.find_insert_slot hash m key with
  | none => ((none, false), m)
  | some i =>
    match m.v_.getD i .unused with
    | .occupied k0 _ => ((some i, false), { m with v_ := m.v_.set i (.occupied k0 val) })
    | .tombstone =>
      ((some i, true),
       { size_ := m.size_ + 1, tombstones_ := m.tombstones_ - 1,
         v_ := m.v_.set i (.occupied key val) })
    | .unused =>
      ((some i, true),
       { size_ := m.size_ + 1, tombstones_ := m.tombstones_,
         v_ := m.v_.set i (.occupied key val) })

/-- `iumap::clear`: destroy every live pair, reset all slots to unused and
both counts to zero. -/
def iumap.clear {K M : Type} (m : iumap K M) : iumap K M :=
  { size_ := 0, tombstones_ := 0, v_ := m.v_.map fun _ => .unused }

/-- `iumap::erase(pos)` on a dereferenceable iterator, with the iterator
replaced by the slot index it points at.  When the slot is occupied: destroy
the pair, mark the slot a tombstone, decrement `size_`, increment
`tombstones_`, and eagerly `clear` the whole table when it became empty.
Otherwise the table is untouched.  (The C++ asserts `size_ > 0` in the
occupied case; the returned `pos + 1` iterator is not modelled, no caller of
the cache uses it.)  This function captures the behaviour only for indices
inside the slot array — every use below is at an index returned by a
successful lookup, hence in range; for the one-past-the-end `end()` handle
of a failed lookup the very first read `slot->state` is out of bounds, which
`iumap.eraseTr` below models as undefined behaviour. -/
def iumap.erase {K M : Type} (m : iumap K M) (i : Nat) : iumap K M :=
  match m.v_.getD i .unused with
  | .occupied _ _ =>
    let m1 : iumap K M :=
      { size_ := m.size_ - 1, tombstones_ := m.tombstones_ + 1,
        v_ := m.v_.set i .tombstone }
    if m1.size_ = 0 then m1.clear else m1
  | _ => m

/-- `iumap::erase(pos)` as a transition that is faithful at the array
boundary.  The C++ body first reads `slot->state` through the iterator; for
an index inside the slot array this is the defined behaviour of
`iumap.erase`, while the `end()` iterator of a failed lookup points one past
the array, so that read is out of bounds: undefined behaviour, `none`. -/
def iumap.eraseTr {K M : Type} (m : iumap K M) (i : Nat) : Option (iumap K M) :=
  match m.v_[i]? with
  | none => none
  | some (.occupied _ _) =>
    let m1 : iumap K M :=
      { size_ := m.size_ - 1, tombstones_ := m.tombstones_ + 1,
        v_ := m.v_.set i .tombstone }
    some (if m1.size_ = 0 then m1.clear else m1)
  | some _ => some m

end TableOps

/-- Operations of the table used when stating the `live_count` invariant:
insertions via `try_emplace` / `insert_or_assign`, `erase` at a slot, and
`clear`. -/
inductive TableOp (K M : Type) where
  | tryEmplace (key : K) (val : M)
  | insertOrAssign (key : K) (val : M)
  | eraseAt (i : Nat)
  | clearAll

section TableRun

variable {K M : Type} [DecidableEq K]

/-- Apply one table operation. -/
def iumap.applyOp (hash : K → Nat) (m : iumap K M) : TableOp K M → iumap K M
  | .tryEmplace k v => (iumap.try_emplace hash m k v).2
  | .insertOrAssign k v => (iumap.insert_or_assign hash m k v).2
  | .eraseAt i => iumap.erase m i
  | .clearAll => iumap.clear m

/-- Run a sequence of table operations. -/
def iumap.runOps (hash : K → Nat) (m : iumap K M) : List (TableOp K M) → iumap K M
  | [] => m
  | op :: rest => iumap.runOps hash (iumap.applyOp hash m op) rest

end TableRun

/-! ### Spec-level description of the probe algorithm

The spec describes probing as a walk over an explicit sequence of positions:
start at `hash(k) mod Size` and on 1-based iteration `i` advance by
`pos = (pos + i) mod Size`, for at most `Size` iterations.  The following
definitions render that description literally: the list of probed positions,
and first-match scans over it. -/

/-- The list of the next `fuel` probe positions starting at `pos` with
1-based iteration counter `iter`, advancing by `(pos + iter) % n`. -/
def probeFrom (n : Nat) : Nat → Nat → Nat → List Nat
  | _pos, _iter, 0 => []
  | pos, iter, fuel + 1 => pos :: probeFrom n ((pos + iter) % n) (iter + 1) fuel

/-- The full probe sequence for a table of `n` slots beginning at `start`:
`n` positions, triangular increments. -/
def probePositions (n start : Nat) : List Nat :=
  probeFrom n start 1 n

section Scans

variable {K M : Type} [DecidableEq K]

/-- Spec-level lookup: scan the probed positions in order; report not-found
at the first unused slot, found at the first occupied slot with an equal
key, skip tombstones, and report not-found when the positions run out. -/
def scanFind (v : List (Slot K M)) (key : K) : List Nat → Option Nat
  | [] => none
  | p :: rest =>
    match v.getD p .unused with
    | .unused => none
    | .tombstone => scanFind v key rest
    | .occupied k _ => if k = key then some p else scanFind v key rest

/-- Spec-level insertion-slot search: scan the probed positions remembering
the first tombstone; stop at an equal occupied key, or at an unused slot
(preferring the remembered tombstone); when the positions run out, the
remembered tombstone if any, else failure. -/
def scanInsertGo (v : List (Slot K M)) (key : K) : List Nat → Option Nat → Option Nat
  | [], ft => ft
  | p :: rest, ft =>
    match v.getD p .unused with
    | .tombstone =>
      scanInsertGo v key rest (match ft with | none => some p | some t => some t)
    | .occupied k _ => if k = key then some p else scanInsertGo v key rest ft
    | .unused =>
      match ft with
      | none => some p
      | some t => some t

/-- Spec-level insertion-slot search over a probe list. -/
def scanInsert (v : List (Slot K M)) (key : K) (ps : List Nat) : Option Nat :=
  scanInsertGo v key ps none

/-- Position `p` does not stop a lookup scan for `key`: it holds a tombstone
or a pair with a different key. -/
def skipsKey (v : List (Slot K M)) (key : K) (p : Nat) : Prop :=
  v.getD p .unused = .tombstone ∨
  ∃ k2 w, v.getD p .unused = .occupied k2 w ∧ k2 ≠ key

/-- Position `p` holds a pair with a key different from `key`. -/
def occNonmatch (v : List (Slot K M)) (key : K) (p : Nat) : Prop :=
  ∃ k2 w, v.getD p .unused = .occupied k2 w ∧ k2 ≠ key

/-- The spec's description of `find`, as a scan of the explicit probe
sequence. -/
def iumap.spec_find (hash : K → Nat) (m : iumap K M) (key : K) : Option Nat :=
  scanFind m.v_ key (probePositions m.v_.length (hash key % m.v_.length))

/-- The spec's description of the insertion-slot search, as a scan of the
explicit probe sequence. -/
def iumap.spec_insert_slot (hash : K → Nat) (m : iumap K M) (key : K) : Option Nat :=
  scanInsert m.v_ key (probePositions m.v_.length (hash key % m.v_.length))

/-- The spec's description of `try_emplace`, built on the spec-level
insertion-slot search: in particular, when no slot is available the
operation fails softly, returning the not-found handle with
`inserted = false` and the table unchanged. -/
def iumap.spec_try_emplace (hash : K → Nat) (m : iumap K M) (key : K) (val : M) :
    (Option Nat × Bool) × iumap K M :=
  match iumap.spec_insert_slot hash m key with
  | none => ((none, false), m)
  | some i =>
    match m.v_.getD i .unused with
    | .occupied _ _ => ((some i, false), m)
    | .tombstone =>
      ((some i, true),
       { size_ := m.size_ + 1, tombstones_ := m.tombstones_ - 1,
         v_ := m.v_.set i (.occupied key val) })
    | .unused =>
      ((some i, true),
       { size_ := m.size_ + 1, tombstones_ := m.tombstones_,
         v_ := m.v_.set i (.occupied key val) })

/-- The spec's description of `insert_or_assign`, built on the spec-level
insertion-slot search. -/
def iumap.spec_insert_or_assign (hash : K → Nat) (m : iumap K M) (key : K) (val : M) :
    (Option Nat × Bool) × iumap K M :=
  match iumap.spec_insert_slot hash m key with
  | none => ((none, false), m)
  | some i =>
    match m.v_.getD i .unused with
    | .occupied k0 _ => ((some i, false), { m with v_ := m.v_.set i (.occupied k0 val) })
    | .tombstone =>
      ((some i, true),
       { size_ := m.size_ + 1, tombstones_ := m.tombstones_ - 1,
         v_ := m.v_.set i (.occupied key val) })
    | .unused =>
      ((some i, true),
       { size_ := m.size_ + 1, tombstones_ := m.tombstones_,
         v_ := m.v_.set i (.occupied key val) })

end Scans

/-! ### The recency list -/

/-- Node of `lru_list`: raw payload storage (`none` = never constructed)
plus `prev`/`next` links, which are indices into the node array (`none` is
the null pointer). -/
structure LruNode (V : Type) where
  payload : Option V
  prev : Option Nat
  next : Option Nat
  deriving DecidableEq

/-- A default-initialized node (zeroed storage, null links). -/
def dn {V : Type} : LruNode V := ⟨none, none, none⟩

/-- `lru_list<ValueType, Size>`: head (MRU) and tail (LRU) pointers, live
count, and the fixed node array. -/
structure lru_list (V : Type) where
  first_ : Option Nat
  last_ : Option Nat
  size_ : Nat
  v_ : List (LruNode V)
  deriving DecidableEq

/-- `lru_list::touch`: promote node `n` to the front.  Mirrors the C++
statement by statement; `none` models the failing
`assert(first_ && last_)`. -/
def lru_list.touch {V : Type} (l : lru_list V) (n : Nat) : Option (lru_list V) :=
  match l.first_, l.last_ with
  | some f, some _t =>
    if f = n then some l
    else
      let nd := l.v_.getD n dn
      let last1 := if l.last_ = some n then nd.prev else l.last_
      let v1 :=
        match nd.next with
        | some nx => l.v_.set nx { l.v_.getD nx dn with prev := nd.prev }
        | none => l.v_
      let v2 :=
        match (v1.getD n dn).prev with
        | some pv => v1.set pv { v1.getD pv dn with next := (v1.getD n dn).next }
        | none => v1
      let v3 := v2.set n { v2.getD n dn with prev := none, next := some f }
      let v4 := v3.set f { v3.getD f dn with prev := some n }
      some { first_ := some n, last_ := last1, size_ := l.size_, v_ := v4 }
  | _, _ => none

/-- Common tail of `lru_list::add`: `result->prev = nullptr;
result->next = first_; if (first_) first_->prev = result; first_ = result`. -/
def lru_list.add_finish {V : Type} (l : lru_list V) (result : Nat) : lru_list V :=
  let v1 := l.v_.set result { l.v_.getD result dn with prev := none, next := l.first_ }
  let v2 :=
    match l.first_ with
    | some f => v1.set f { v1.getD f dn with prev := some result }
    | none => v1
  { first_ := some result, last_ := l.last_, size_ := l.size_, v_ := v2 }

/-- `lru_list::add`.  Below capacity: claim the node at index `size_`,
construct the payload there, link it at the head.  At capacity: read the
tail's payload (the evictor's argument, returned as the third component),
move-assign the new payload over it, unlink the tail and relink it at the
head.  `none` models the failing assertion when `first_`/`last_` are null,
reading a never-constructed payload, and the null dereference of
`last_->next = nullptr` when the tail's `prev` is null. -/
def lru_list.add {V : Type} (l : lru_list V) (payload : V) :
    Option (lru_list V × Nat × Option V) :=
  if l.size_ < l.v_.length then
    let result := l.size_
    let v1 := l.v_.set result { l.v_.getD result dn with payload := some payload }
    let last1 :=
      match l.last_ with
      | none => some result
      | some t => some t
    some (lru_list.add_finish
            { first_ := l.first_, last_ := last1, size_ := l.size_ + 1, v_ := v1 }
            result,
          result, none)
  else
    match l.first_, l.last_ with
    | some _f, some t =>
      match (l.v_.getD t dn).payload with
      | none => none
      | some old =>
        let v1 := l.v_.set t { l.v_.getD t dn with payload := some payload }
        match (v1.getD t dn).prev with
        | none => none
        | some p =>
          let v2 := v1.set p { v1.getD p dn with next := none }
          some (lru_list.add_finish
                  { first_ := l.first_, last_ := some p, size_ := l.size_, v_ := v2 }
                  t,
                t, some old)
    | _, _ => none

/-! ### The bounded cache -/

/-- `cache<Key, Value, Size>` from src/main.cpp: the recency list of
key/value pairs and the hash table mapping keys to node indices (the C++
maps to `lru_container::node *`). -/
structure cache (K V : Type) where
  lru : lru_list (K × V)
  h : iumap K Nat
  deriving DecidableEq

/-- A default-constructed cache of capacity `n`. -/
def emptyCache (K V : Type) (n : Nat) : cache K V :=
  { lru := { first_ := none, last_ := none, size_ := 0, v_ := List.replicate n dn },
    h := iumap.empty K Nat n }

section CacheOps

variable {K V : Type} [DecidableEq K] [DecidableEq V]

/-- `cache::find`: look the key up in the table; on a miss return null (and
an unchanged cache), on a hit touch the node and return its value field. -/
def cache.find (hash : K → Nat) (c : cache K V) (k : K) :
    Option (Option V × cache K V) :=
  match iumap.findVal hash c.h k with
  | none => some (none, c)
  | some nd =>
    match lru_list.touch c.lru nd with
    | none => none
    | some lru1 =>
      match (lru1.v_.getD nd dn).payload with
      | none => none
      | some kv => some (some kv.2, { lru := lru1, h := c.h })

/-- `cache::set`, instrumented with the key handed to the eviction callback
(`none` when no eviction happened).  Miss: `lru.add` with an evictor that
erases the evicted pair's key from the table, then insert the new key with
the returned node handle; returns `false`.  Hit: touch the node; if the
cached value equals `v` return `true` without mutating, else overwrite the
value field and return `false`. -/
def cache.setTr (hash : K → Nat) (c : cache K V) (k : K) (v : V) :
    Option (Bool × cache K V × Option K) :=
  match iumap.findVal hash c.h k with
  | none =>
    match lru_list.add c.lru (k, v) with
    | none => none
    | some (lru1, nd, ev) =>
      let h1 :=
        match ev with
        | some oldkv =>
          match iumap.find hash c.h oldkv.1 with
          | some pos => iumap.erase c.h pos
          | none => c.h
        | none => c.h
      some (false, { lru := lru1, h := (iumap.insert hash h1 (k, nd)).2 },
            ev.map Prod.fst)
  | some nd =>
    match lru_list.touch c.lru nd with
    | none => none
    | some lru1 =>
      match (lru1.v_.getD nd dn).payload with
      | none => none
      | some kv =>
        if v = kv.2 then some (true, { lru := lru1, h := c.h }, none)
        else
          some (false,
                { lru := { lru1 with
                           v_ := lru1.v_.set nd
                             { lru1.v_.getD nd dn with payload := some (kv.1, v) } },
                  h := c.h },
                none)

/-- `cache::set` as the caller sees it (the evictor instrumentation
dropped). -/
def cache.set (hash : K → Nat) (c : cache K V) (k : K) (v : V) :
    Option (Bool × cache K V) :=
  (cache.setTr hash c k v).map fun r => (r.1, r.2.1)

/-- The value currently cached for `k`: the table lookup composed with the
payload of the referenced node. -/
def cachedVal (hash : K → Nat) (c : cache K V) (k : K) : Option V :=
  match iumap.findVal hash c.h k with
  | none => none
  | some nd =>
    match (c.lru.v_.getD nd dn).payload with
    | some kv => some kv.2
    | none => none

end CacheOps

/-- Public cache operations, for stating properties of interleavings. -/
inductive cacheOp (K V : Type) where
  | set (k : K) (v : V)
  | find (k : K)

section CacheRun

variable {K V : Type} [DecidableEq K] [DecidableEq V]

/-- One cache call, reporting the key evicted by the call (if any). -/
def cache.stepTr (hash : K → Nat) (c : cache K V) :
    cacheOp K V → Option (cache K V × Option K)
  | .set k v => (cache.setTr hash c k v).map fun r => (r.2.1, r.2.2)
  | .find k => (cache.find hash c k).map fun r => (r.2, none)

/-- Run a sequence of cache calls, collecting the evicted keys in order.
`none` propagates undefined behaviour of any call. -/
def runTr (hash : K → Nat) (c : cache K V) :
    List (cacheOp K V) → Option (cache K V × List K)
  | [] => some (c, [])
  | op :: rest =>
    match cache.stepTr hash c op with
    | none => none
    | some (c1, ev) =>
      match runTr hash c1 rest with
      | none => none
      | some (c2, evs) => some (c2, ev.toList ++ evs)

end CacheRun

/-! ### Abstract model used in the refinement proofs

An abstract LRU cache is the association list of its key/value pairs in
most-recently-used-first order. -/

section Abs

variable {K V : Type} [DecidableEq K] [DecidableEq V]

/-- First value stored for `k`, scanning MRU-first. -/
def absLookup : List (K × V) → K → Option V
  | [], _ => none
  | p :: rest, k => if p.1 = k then some p.2 else absLookup rest k

/-- Remove the first pair whose key is `k`. -/
def absEraseKey : List (K × V) → K → List (K × V)
  | [], _ => []
  | p :: rest, k => if p.1 = k then rest else p :: absEraseKey rest k

/-- Abstract `find`: a hit moves the pair to the front. -/
def absFind (l : List (K × V)) (k : K) : Option V × List (K × V) :=
  match absLookup l k with
  | none => (none, l)
  | some v => (some v, (k, v) :: absEraseKey l k)

/-- Abstract `set` of capacity `n`: returns (already-cached-unchanged,
new list, evicted key). -/
def absSet (n : Nat) (l : List (K × V)) (k : K) (v : V) :
    Bool × List (K × V) × Option K :=
  match absLookup l k with
  | none =>
    if l.length < n then (false, (k, v) :: l, none)
    else (false, (k, v) :: l.dropLast, (l.getLast?).map Prod.fst)
  | some w =>
    if v = w then (true, (k, w) :: absEraseKey l k, none)
    else (false, (k, v) :: absEraseKey l k, none)

end Abs

/-! ### Invariants -/

/-- First node of `xs`, or the fallback `nx` when `xs` is empty. -/
def headOr (xs : List Nat) (nx : Option Nat) : Option Nat :=
  match xs with
  | [] => nx
  | j :: _ => some j

/-- Last node of `xs`, or the fallback `p` when `xs` is empty. -/
def endOr (p : Option Nat) (xs : List Nat) : Option Nat :=
  match xs.getLast? with
  | none => p
  | some x => some x

/-- A doubly linked chain segment: `seg v p xs nx` says that the nodes
listed in `xs` are linked consecutively by their `prev`/`next` fields, the
first node's `prev` is `p`, and the last node's `next` is `nx`. -/
def seg {V : Type} (v : List (LruNode V)) : Option Nat → List Nat → Option Nat → Prop
  | _, [], _ => True
  | p, i :: rest, nx =>
    (v.getD i dn).prev = p ∧
    (v.getD i dn).next = headOr rest nx ∧
    seg v (some i) rest nx

/-- Well-formedness of a recency list, relative to `order`, the list of live
node indices in MRU→LRU order. -/
structure LruInv {V : Type} (l : lru_list V) (order : List Nat) : Prop where
  size_eq : l.size_ = order.length
  size_le : l.size_ ≤ l.v_.length
  mem_iff : ∀ i, i ∈ order ↔ i < l.size_
  nodup : order.Nodup
  first : l.first_ = order.head?
  last : l.last_ = order.getLast?
  chain : seg l.v_ none order none
  payload : ∀ i ∈ order, ∃ kv, (l.v_.getD i dn).payload = some kv

/-- Well-formedness of a hash table: the capacity is a power of two, the
live count matches the occupied slots, and every stored key is findable at
its slot. -/
structure TableInv {K M : Type} [DecidableEq K] (hash : K → Nat) (m : iumap K M) : Prop where
  pow : ∃ e, m.v_.length = 2 ^ e
  size : m.size_ = countOccupied m.v_
  findable : ∀ i k nd, m.v_.getD i .unused = .occupied k nd →
    iumap.find hash m k = some i

/-- Cross-structure well-formedness of a cache of capacity `n`. -/
structure CacheInv {K V : Type} [DecidableEq K] (hash : K → Nat) (n : Nat)
    (c : cache K V) (order : List Nat) : Prop where
  hlen : c.h.v_.length = n
  llen : c.lru.v_.length = n
  tinv : TableInv hash c.h
  linv : LruInv c.lru order
  sizes : c.h.size_ = c.lru.size_
  slot_node : ∀ i k nd, c.h.v_.getD i .unused = .occupied k nd →
    nd ∈ order ∧ ∃ v, (c.lru.v_.getD nd dn).payload = some (k, v)
  node_slot : ∀ nd ∈ order, ∃ k v,
    (c.lru.v_.getD nd dn).payload = some (k, v) ∧
    iumap.findVal hash c.h k = some nd

/-- The key/value pairs of a cache read off along `order` (MRU first). -/
def absOf {K V : Type} (c : cache K V) (order : List Nat) : List (K × V) :=
  order.filterMap fun i => (c.lru.v_.getD i dn).payload

/-- The identity hash used by the concrete witnesses (`std::hash<int>` on
small non-negative ints). -/
def idHash : Nat → Nat := fun k => k

/-- Triangular numbers: `tri j = 0 + 1 + ⋯ + j`. -/
def tri : Nat → Nat
  | 0 => 0
  | j + 1 => tri j + (j + 1)

/-- `sumFrom iter a = iter + (iter+1) + ⋯ + (iter+a-1)`: the total probe
advance after `a` further iterations starting at iteration number `iter`. -/
def sumFrom : Nat → Nat → Nat
  | _iter, 0 => 0
  | iter, a + 1 => iter + sumFrom (iter + 1) a

/-! ### Helper lemmas about list access -/

theorem getD_of_length_le {α : Type _} {l : List α} {i : Nat} (d : α)
    (h : l.length ≤ i) : l.getD i d = d := by
  induction l generalizing i with
  | nil => simp [List.getD]
  | cons a t ih =>
    cases i with
    | zero => simp at h
    | succ j => simpa [List.getD] using ih (Nat.le_of_succ_le_succ h)

theorem getD_set_self {α : Type _} {l : List α} {i : Nat} (a d : α)
    (h : i < l.length) : (l.set i a).getD i d = a := by
  induction l generalizing i with
  | nil => simp at h
  | cons b t ih =>
    cases i with
    | zero => simp [List.getD]
    | succ j => simpa [List.getD] using ih (by simpa using h)

theorem getD_set_ne {α : Type _} {l : List α} {i j : Nat} (a d : α)
    (h : i ≠ j) : (l.set i a).getD j d = l.getD j d := by
  induction l generalizing i j with
  | nil => simp [List.getD]
  | cons b t ih =>
    cases i with
    | zero =>
      cases j with
      | zero => exact absurd rfl h
      | succ j' => simp [List.getD]
    | succ i' =>
      cases j with
      | zero => simp [List.getD]
      | succ j' => simpa [List.getD] using ih fun hh => h (by rw [hh])

theorem getD_replicate {α : Type _} {n i : Nat} (d a : α) :
    (List.replicate n a).getD i d = if i < n then a else d := by
  induction n generalizing i with
  | zero => simp [List.getD]
  | succ m ih =>
    cases i with
    | zero => simp [List.replicate, List.getD]
    | succ j =>
      simp only [List.replicate, List.getD_cons_succ, ih]
      by_cases h : j < m <;> simp [h, Nat.succ_lt_succ_iff]

theorem countP_set {α : Type _} (p : α → Bool) (l : List α) (i : Nat) (a d : α)
    (h : i < l.length) :
    (l.set i a).countP p + (if p (l.getD i d) then 1 else 0) =
      l.countP p + (if p a then 1 else 0) := by
  induction l generalizing i with
  | nil => simp at h
  | cons b t ih =>
    cases i with
    | zero =>
      simp only [List.set, List.getD_cons_zero, List.countP_cons]
      omega
    | succ j =>
      have hj : j < t.length := by simpa using h
      have := ih j hj
      simp only [List.set, List.getD_cons_succ, List.countP_cons]
      omega

/-! ### Probe positions -/

theorem probeFrom_length (n : Nat) : ∀ fuel pos iter,
    (probeFrom n pos iter fuel).length = fuel := by
  intro fuel
  induction fuel with
  | zero => intro pos iter; rfl
  | succ f ih => intro pos iter; simp [probeFrom, ih]

theorem probeFrom_mem_lt {n : Nat} (hn : 0 < n) : ∀ fuel pos iter,
    pos < n → ∀ p ∈ probeFrom n pos iter fuel, p < n := by
  intro fuel
  induction fuel with
  | zero => intro pos iter _ p hp; simp [probeFrom] at hp
  | succ f ih =>
    intro pos iter hpos p hp
    simp only [probeFrom, List.mem_cons] at hp
    rcases hp with rfl | hp
    · exact hpos
    · exact ih _ _ (Nat.mod_lt _ hn) p hp

theorem probePositions_mem_lt {n : Nat} (hn : 0 < n) {start : Nat}
    (hs : start < n) : ∀ p ∈ probePositions n start, p < n :=
  probeFrom_mem_lt hn n start 1 hs

/-! ### C5: lookup follows the spec's probe description -/

section C5Proof

variable {K M : Type} [DecidableEq K]

theorem lookup_go_eq_scanFind (v : List (Slot K M)) (key : K) :
    ∀ fuel pos iter,
      (match iumap.lookup_slot_go v key pos iter fuel with
       | none => none
       | some i =>
         match v.getD i .unused with
         | .occupied _ _ => some i
         | _ => none) =
      scanFind v key (probeFrom v.length pos iter fuel) := by
  intro fuel
  induction fuel with
  | zero => intro pos iter; rfl
  | succ f ih =>
    intro pos iter
    simp only [iumap.lookup_slot_go, probeFrom, scanFind]
    cases hslot : v.getD pos .unused with
    | unused => simp only [hslot]
    | tombstone => simpa only [hslot] using ih ((pos + iter) % v.length) (iter + 1)
    | occupied k w =>
      by_cases hk : k = key
      · subst hk
        have hslot2 : v[pos]?.getD Slot.unused = Slot.occupied k w := by
          simpa [List.getD] using hslot
        simp [hslot, hslot2]
      · simp only [hslot, if_neg hk]
        exact ih ((pos + iter) % v.length) (iter + 1)

/-- C5: `SlotTable.find` probes positions starting at `hash(k) mod Size`,
advancing by triangular increments (`pos = (pos + i) mod Size` on 1-based
iteration `i`) for at most `Size` iterations; it reports not-found at the
first Empty slot, found at the first Occupied slot with an equal key, skips
Tombstones, and reports not-found when all `Size` iterations complete.
Stated as: `iumap.find` equals `iumap.spec_find`, the literal rendering of
the spec's probe walk.  (`find` consumes the table by value and returns only
the slot index, so the embedding makes "find never modifies the table"
structural.) -/
theorem c5_find_follows_probe_spec (hash : K → Nat) (m : iumap K M) (key : K) :
    iumap.find hash m key = iumap.spec_find hash m key := by
  have h := lookup_go_eq_scanFind m.v_ key m.v_.length
    (hash key % m.v_.length) 1
  simpa [iumap.find, iumap.lookup_slot, iumap.spec_find, probePositions] using h

end C5Proof

/-! ### C6: insertion-slot search and soft failure -/

section C6Proof

variable {K M : Type} [DecidableEq K]

theorem insert_go_eq_scanInsert (v : List (Slot K M)) (key : K) :
    ∀ fuel pos iter ft,
      iumap.find_insert_slot_go v key pos iter ft fuel =
        scanInsertGo v key (probeFrom v.length pos iter fuel) ft := by
  intro fuel
  induction fuel with
  | zero => intro pos iter ft; rfl
  | succ f ih =>
    intro pos iter ft
    simp only [iumap.find_insert_slot_go, probeFrom, scanInsertGo]
    cases hslot : v.getD pos .unused with
    | unused => simp only [hslot]
    | tombstone => simpa only [hslot] using ih ((pos + iter) % v.length) (iter + 1) _
    | occupied k w =>
      by_cases hk : k = key
      · subst hk
        simp [hslot]
      · simp only [hslot, if_neg hk]
        exact ih ((pos + iter) % v.length) (iter + 1) ft

theorem find_insert_slot_eq_spec (hash : K → Nat) (m : iumap K M) (key : K) :
    iumap.find_insert_slot hash m key = iumap.spec_insert_slot hash m key := by
  have h := insert_go_eq_scanInsert m.v_ key m.v_.length
    (hash key % m.v_.length) 1 none
  simpa [iumap.find_insert_slot, iumap.spec_insert_slot, probePositions,
    scanInsert] using h

/-- C6: insertion (`try_emplace` / `insert_or_assign`) chooses its slot by
probing the key's sequence while remembering the first Tombstone: the probe
equals the spec's scan (tombstone preferred over the terminating Empty slot),
and when no slot is available the operation returns the not-found handle
with `inserted = false` and the table completely unchanged — visible in the
`none` branch of `spec_try_emplace`/`spec_insert_or_assign`. -/
theorem c6_insert_slot_spec (hash : K → Nat) (m : iumap K M) (key : K) (val : M) :
    iumap.find_insert_slot hash m key = iumap.spec_insert_slot hash m key ∧
    iumap.try_emplace hash m key val = iumap.spec_try_emplace hash m key val ∧
    iumap.insert_or_assign hash m key val = iumap.spec_insert_or_assign hash m key val := by
  refine ⟨find_insert_slot_eq_spec hash m key, ?_, ?_⟩
  · simp only [iumap.try_emplace, iumap.spec_try_emplace,
      find_insert_slot_eq_spec hash m key]
  · simp only [iumap.insert_or_assign, iumap.spec_insert_or_assign,
      find_insert_slot_eq_spec hash m key]

end C6Proof

/-! ### C7 and C10: erase -/

theorem mem_of_getD {α : Type _} {l : List α} {i : Nat} {d : α}
    (h : i < l.length) : l.getD i d ∈ l := by
  induction l generalizing i with
  | nil => simp at h
  | cons a t ih =>
    cases i with
    | zero => simp [List.getD]
    | succ j =>
      have := ih (i := j) (by simpa using h)
      simp only [List.getD] at this ⊢
      exact List.mem_cons_of_mem _ this

theorem getD_lt_length {K M : Type} {v : List (Slot K M)} {i : Nat} {k : K} {nd : M}
    (h : v.getD i .unused = .occupied k nd) : i < v.length := by
  by_contra hge
  rw [getD_of_length_le _ (Nat.le_of_not_lt hge)] at h
  exact Slot.noConfusion h

theorem getD_map_unused {K M : Type} :
    ∀ (l : List (Slot K M)) (j : Nat),
      (l.map fun _ => (Slot.unused : Slot K M)).getD j .unused = Slot.unused := by
  intro l
  induction l with
  | nil => intro j; simp [List.getD]
  | cons a t ih =>
    intro j
    cases j with
    | zero => simp [List.getD]
    | succ j' =>
      simp only [List.map, List.getD_cons_succ]
      exact ih j'

/-- C7: erasing an occupied slot destroys the pair, marks the slot Tombstone,
decrements `live_count` and increments `tombstone_count`; whenever this
leaves `live_count` zero, every slot is reset to Empty and `tombstone_count`
is reset to zero.  (The hypothesis `0 < m.size_` is the C++
`assert(size_ > 0)` at the top of the occupied branch of `iumap::erase`.) -/
theorem c7_erase_occupied {K M : Type} (m : iumap K M) (i : Nat) (k : K) (nd : M)
    (hocc : m.v_.getD i .unused = .occupied k nd) (hpos : 0 < m.size_) :
    ((iumap.erase m i).size_ = m.size_ - 1 ∧
     (iumap.erase m i).v_.length = m.v_.length) ∧
    (m.size_ - 1 ≠ 0 →
      (iumap.erase m i).tombstones_ = m.tombstones_ + 1 ∧
      (iumap.erase m i).v_ = m.v_.set i .tombstone) ∧
    (m.size_ - 1 = 0 →
      (iumap.erase m i).tombstones_ = 0 ∧
      ∀ j, (iumap.erase m i).v_.getD j .unused = .unused) := by
  simp only [iumap.erase, hocc]
  by_cases hz : m.size_ - 1 = 0
  · rw [if_pos hz]
    refine ⟨⟨by simp only [iumap.clear]; omega, by simp [iumap.clear]⟩,
      fun h => absurd hz h, fun _ => ⟨rfl, fun j => ?_⟩⟩
    simp only [iumap.clear]
    exact getD_map_unused _ j
  · rw [if_neg hz]
    exact ⟨⟨rfl, by simp⟩, fun _ => ⟨rfl, rfl⟩, fun h => absurd h hz⟩

/-- Witness for C7 at a concrete two-element table. -/
theorem c7_erase_occupied_witness :
    (iumap.erase (⟨2, 0, [Slot.occupied 1 10, Slot.occupied 2 20]⟩ : iumap Nat Nat) 0).size_ = 1 ∧
    (iumap.erase (⟨2, 0, [Slot.occupied 1 10, Slot.occupied 2 20]⟩ : iumap Nat Nat) 0).tombstones_ = 1 ∧
    (iumap.erase (⟨2, 0, [Slot.occupied 1 10, Slot.occupied 2 20]⟩ : iumap Nat Nat) 0).v_ =
      [Slot.tombstone, Slot.occupied 2 20] := by
  have h := c7_erase_occupied (⟨2, 0, [Slot.occupied 1 10, Slot.occupied 2 20]⟩ : iumap Nat Nat)
    0 1 10 (by decide) (by decide)
  refine ⟨h.1.1, (h.2.1 (by decide)).1, ?_⟩
  have h2 := (h.2.1 (by decide)).2
  rw [h2]
  rfl

/-- `eraseTr` agrees with `erase` on every index inside the slot array:
`erase` is exactly the in-range (defined-behaviour) restriction of the
boundary-faithful transition. -/
theorem eraseTr_eq_erase_of_lt {K M : Type} (m : iumap K M) (i : Nat)
    (hlt : i < m.v_.length) :
    iumap.eraseTr m i = some (iumap.erase m i) := by
  have hsome : m.v_[i]? = some (m.v_.getD i .unused) := by
    rw [List.getElem?_eq_getElem hlt, List.getD_eq_getElem m.v_ _ hlt]
  unfold iumap.eraseTr iumap.erase
  rw [hsome]
  cases m.v_.getD i .unused with
  | unused => rfl
  | tombstone => rfl
  | occupied k nd => rfl

/-- C10 (corrected): erasing through a dereferenceable handle — an index
inside the slot array — whose slot is not Occupied (Tombstone or Empty)
leaves the table completely unchanged, so erase only mutates the table when
such a handle's slot is Occupied; but the handle produced by a failed lookup
is the `end()` iterator, one past the slot array, and erase on it reads the
slot state out of bounds: undefined behaviour, not a guaranteed no-op. -/
theorem c10_erase_valid_non_occupied_noop {K M : Type} (m : iumap K M) (i : Nat)
    (hlt : i < m.v_.length)
    (h : (m.v_.getD i .unused).isOccupied = false) :
    iumap.eraseTr m i = some m ∧ iumap.eraseTr m m.v_.length = none := by
  constructor
  · have hsome : m.v_[i]? = some (m.v_.getD i .unused) := by
      rw [List.getElem?_eq_getElem hlt, List.getD_eq_getElem m.v_ _ hlt]
    unfold iumap.eraseTr
    rw [hsome]
    cases hslot : m.v_.getD i .unused with
    | unused => rfl
    | tombstone => rfl
    | occupied k nd => rw [hslot] at h; exact absurd h (by simp [Slot.isOccupied])
  · have hnone : m.v_[m.v_.length]? = none :=
      List.getElem?_eq_none (Nat.le_refl _)
    unfold iumap.eraseTr
    rw [hnone]

/-- Witness for C10: erasing a tombstone slot of a concrete two-slot table
is a no-op, while erasing through the one-past-the-end handle of the same
table is undefined. -/
theorem c10_erase_valid_non_occupied_noop_witness :
    0 < ([Slot.tombstone, Slot.occupied 2 20] : List (Slot Nat Nat)).length ∧
    (([Slot.tombstone, Slot.occupied 2 20] : List (Slot Nat Nat)).getD 0
        .unused).isOccupied = false ∧
    (iumap.eraseTr (⟨1, 1, [Slot.tombstone, Slot.occupied 2 20]⟩ : iumap Nat Nat) 0 =
        some (⟨1, 1, [Slot.tombstone, Slot.occupied 2 20]⟩ : iumap Nat Nat) ∧
      iumap.eraseTr (⟨1, 1, [Slot.tombstone, Slot.occupied 2 20]⟩ : iumap Nat Nat)
        (⟨1, 1, [Slot.tombstone, Slot.occupied 2 20]⟩ : iumap Nat Nat).v_.length = none) :=
  ⟨by decide, by decide,
   c10_erase_valid_non_occupied_noop
     (⟨1, 1, [Slot.tombstone, Slot.occupied 2 20]⟩ : iumap Nat Nat) 0
     (by decide) (by decide)⟩

/-- Counterexample to C10 as stated: in the two-slot table holding only the
key `0`, looking up the key `1` fails, so its handle is the `end()` iterator
one past the slot array (index 2); erase through that handle reads the slot
state out of bounds — the transition is undefined (`none`), not the
"completely unchanged" table the claim promises. -/
theorem c10_failed_lookup_erase_counterexample :
    iumap.find idHash (⟨1, 0, [Slot.occupied 0 5, Slot.unused]⟩ : iumap Nat Nat) 1 = none ∧
    iumap.eraseTr (⟨1, 0, [Slot.occupied 0 5, Slot.unused]⟩ : iumap Nat Nat) 2 ≠
      some (⟨1, 0, [Slot.occupied 0 5, Slot.unused]⟩ : iumap Nat Nat) ∧
    iumap.eraseTr (⟨1, 0, [Slot.occupied 0 5, Slot.unused]⟩ : iumap Nat Nat) 2 = none := by
  exact ⟨rfl, by decide, rfl⟩

/-! ### C9: the live count always equals the number of occupied slots -/

section C9Proof

variable {K M : Type} [DecidableEq K]

theorem scanInsertGo_some_mem (v : List (Slot K M)) (key : K) :
    ∀ (ps : List Nat) (ft : Option Nat) (i : Nat),
      scanInsertGo v key ps ft = some i → i ∈ ps ∨ ft = some i := by
  intro ps
  induction ps with
  | nil => intro ft i h; exact Or.inr h
  | cons p rest ih =>
    intro ft i h
    simp only [scanInsertGo] at h
    cases hslot : v.getD p .unused with
    | unused =>
      simp only [hslot] at h
      cases ft with
      | none => simp only [Option.some.injEq] at h; simp [h]
      | some t => simp only [Option.some.injEq] at h; simp [h]
    | tombstone =>
      simp only [hslot] at h
      cases ft with
      | none =>
        rcases ih _ _ h with hm | hm
        · exact Or.inl (List.mem_cons_of_mem _ hm)
        · simp only [Option.some.injEq] at hm; simp [hm]
      | some t =>
        rcases ih _ _ h with hm | hm
        · exact Or.inl (List.mem_cons_of_mem _ hm)
        · exact Or.inr hm
    | occupied k w =>
      simp only [hslot] at h
      by_cases hk : k = key
      · rw [if_pos hk] at h
        simp only [Option.some.injEq] at h
        simp [h]
      · rw [if_neg hk] at h
        rcases ih _ _ h with hm | hm
        · exact Or.inl (List.mem_cons_of_mem _ hm)
        · exact Or.inr hm

theorem find_insert_slot_lt (hash : K → Nat) (m : iumap K M) (key : K) (i : Nat)
    (h : iumap.find_insert_slot hash m key = some i) : i < m.v_.length := by
  rw [find_insert_slot_eq_spec] at h
  unfold iumap.spec_insert_slot scanInsert at h
  rcases scanInsertGo_some_mem m.v_ key _ none i h with hm | hm
  · rcases Nat.eq_zero_or_pos m.v_.length with hn | hn
    · rw [hn] at hm
      simp [probePositions, probeFrom] at hm
    · exact probePositions_mem_lt hn (Nat.mod_lt _ hn) i hm
  · exact Option.noConfusion hm

theorem countOccupied_set_insert {K M : Type} (v : List (Slot K M)) (i : Nat)
    (k : K) (nd : M) (hlt : i < v.length)
    (hold : (v.getD i .unused).isOccupied = false) :
    countOccupied (v.set i (.occupied k nd)) = countOccupied v + 1 := by
  have h := countP_set Slot.isOccupied v i (.occupied k nd) .unused hlt
  rw [hold] at h
  simp only [Bool.false_eq_true, if_false, Slot.isOccupied, if_true] at h
  unfold countOccupied
  omega

theorem countOccupied_set_occupied {K M : Type} (v : List (Slot K M)) (i : Nat)
    (k : K) (nd : M) (hlt : i < v.length)
    (hold : (v.getD i .unused).isOccupied = true) :
    countOccupied (v.set i (.occupied k nd)) = countOccupied v := by
  have h := countP_set Slot.isOccupied v i (.occupied k nd) .unused hlt
  rw [hold] at h
  simp only [Slot.isOccupied, if_true] at h
  unfold countOccupied
  omega

theorem countOccupied_set_tombstone {K M : Type} (v : List (Slot K M)) (i : Nat)
    (hlt : i < v.length) (hold : (v.getD i .unused).isOccupied = true) :
    countOccupied (v.set i .tombstone) + 1 = countOccupied v := by
  have h := countP_set Slot.isOccupied v i .tombstone .unused hlt
  rw [hold] at h
  simp only [Slot.isOccupied, if_true, Bool.false_eq_true, if_false] at h
  unfold countOccupied
  omega

theorem countOccupied_map_unused {K M : Type} (v : List (Slot K M)) :
    countOccupied (v.map fun _ => (Slot.unused : Slot K M)) = 0 := by
  induction v with
  | nil => rfl
  | cons a t ih => simpa [countOccupied, List.countP_cons, Slot.isOccupied] using ih

theorem countOccupied_replicate {K M : Type} (n : Nat) :
    countOccupied (List.replicate n (Slot.unused : Slot K M)) = 0 := by
  induction n with
  | zero => rfl
  | succ m ih =>
    simpa [countOccupied, List.replicate, List.countP_cons, Slot.isOccupied] using ih

theorem countOccupied_clear {K M : Type} (m : iumap K M) :
    countOccupied (iumap.clear m).v_ = 0 := by
  simp only [iumap.clear]
  exact countOccupied_map_unused m.v_

theorem countOccupied_pos {K M : Type} {v : List (Slot K M)} {i : Nat} {k : K} {nd : M}
    (h : v.getD i .unused = .occupied k nd) : 0 < countOccupied v := by
  have hlt : i < v.length := getD_lt_length h
  have hmem : Slot.occupied k nd ∈ v := by
    have := mem_of_getD (d := Slot.unused) hlt
    rwa [h] at this
  unfold countOccupied
  rw [List.countP_pos]
  exact ⟨_, hmem, by simp [Slot.isOccupied]⟩

theorem applyOp_sizeOk (hash : K → Nat) (m : iumap K M) (op : TableOp K M)
    (h : m.size_ = countOccupied m.v_) :
    (iumap.applyOp hash m op).size_ = countOccupied (iumap.applyOp hash m op).v_ := by
  cases op with
  | tryEmplace k v =>
    cases hfis : iumap.find_insert_slot hash m k with
    | none => simpa only [iumap.applyOp, iumap.try_emplace, hfis] using h
    | some i =>
      have hlt : i < m.v_.length := find_insert_slot_lt hash m k i hfis
      cases hslot : m.v_.getD i .unused with
      | unused =>
        simp only [iumap.applyOp, iumap.try_emplace, hfis, hslot]
        rw [countOccupied_set_insert m.v_ i k v hlt (by rw [hslot]; rfl), h]
      | tombstone =>
        simp only [iumap.applyOp, iumap.try_emplace, hfis, hslot]
        rw [countOccupied_set_insert m.v_ i k v hlt (by rw [hslot]; rfl), h]
      | occupied k0 w0 =>
        simpa only [iumap.applyOp, iumap.try_emplace, hfis, hslot] using h
  | insertOrAssign k v =>
    cases hfis : iumap.find_insert_slot hash m k with
    | none => simpa only [iumap.applyOp, iumap.insert_or_assign, hfis] using h
    | some i =>
      have hlt : i < m.v_.length := find_insert_slot_lt hash m k i hfis
      cases hslot : m.v_.getD i .unused with
      | unused =>
        simp only [iumap.applyOp, iumap.insert_or_assign, hfis, hslot]
        rw [countOccupied_set_insert m.v_ i k v hlt (by rw [hslot]; rfl), h]
      | tombstone =>
        simp only [iumap.applyOp, iumap.insert_or_assign, hfis, hslot]
        rw [countOccupied_set_insert m.v_ i k v hlt (by rw [hslot]; rfl), h]
      | occupied k0 w0 =>
        simp only [iumap.applyOp, iumap.insert_or_assign, hfis, hslot]
        rw [countOccupied_set_occupied m.v_ i k0 v hlt (by rw [hslot]; rfl)]
        exact h
  | eraseAt i =>
    cases hslot : m.v_.getD i .unused with
    | unused => simpa only [iumap.applyOp, iumap.erase, hslot] using h
    | tombstone => simpa only [iumap.applyOp, iumap.erase, hslot] using h
    | occupied k0 w0 =>
      have hlt : i < m.v_.length := getD_lt_length hslot
      have hcnt := countOccupied_set_tombstone m.v_ i hlt (by rw [hslot]; rfl)
      simp only [iumap.applyOp, iumap.erase, hslot]
      by_cases hz : m.size_ - 1 = 0
      · rw [if_pos hz]
        rw [countOccupied_clear]
        exact rfl
      · rw [if_neg hz]
        show m.size_ - 1 = countOccupied (m.v_.set i Slot.tombstone)
        omega
  | clearAll =>
    simp only [iumap.applyOp]
    rw [countOccupied_clear]
    exact rfl

theorem runOps_sizeOk (hash : K → Nat) :
    ∀ (ops : List (TableOp K M)) (m : iumap K M),
      m.size_ = countOccupied m.v_ →
      (iumap.runOps hash m ops).size_ = countOccupied (iumap.runOps hash m ops).v_ := by
  intro ops
  induction ops with
  | nil => intro m h; exact h
  | cons op rest ih =>
    intro m h
    exact ih _ (applyOp_sizeOk hash m op h)

/-- C9: for every sequence of `try_emplace`, `insert_or_assign`, `erase` and
`clear` operations starting from an empty table, `live_count` equals the
number of Occupied slots after every operation (every prefix of operations
is itself such a sequence, so the statement covers every intermediate
state). -/
theorem c9_live_count_matches_occupied {K M : Type} [DecidableEq K]
    (hash : K → Nat) (n : Nat) (ops : List (TableOp K M)) :
    (iumap.runOps hash (iumap.empty K M n) ops).size_ =
      countOccupied (iumap.runOps hash (iumap.empty K M n) ops).v_ := by
  refine runOps_sizeOk hash ops _ ?_
  simp only [iumap.empty]
  rw [countOccupied_replicate]

end C9Proof

/-! ### C8: `lru_list::add` -/

theorem payload_getD_lt_length {V : Type} {v : List (LruNode V)} {t : Nat} {old : V}
    (h : (v.getD t dn).payload = some old) : t < v.length := by
  by_contra hge
  rw [getD_of_length_le _ (Nat.le_of_not_lt hge)] at h
  simp [dn] at h


theorem add_finish_facts {V : Type} (L : lru_list V) (s : Nat) (hs : s < L.v_.length) :
    (lru_list.add_finish L s).first_ = some s ∧
    (lru_list.add_finish L s).last_ = L.last_ ∧
    (lru_list.add_finish L s).size_ = L.size_ ∧
    (lru_list.add_finish L s).v_.length = L.v_.length ∧
    (L.first_ ≠ some s →
      ((lru_list.add_finish L s).v_.getD s dn).payload = (L.v_.getD s dn).payload ∧
      ((lru_list.add_finish L s).v_.getD s dn).prev = none ∧
      ((lru_list.add_finish L s).v_.getD s dn).next = L.first_) ∧
    (∀ f, L.first_ = some f → f < L.v_.length → f ≠ s →
      (lru_list.add_finish L s).v_.getD f dn = { L.v_.getD f dn with prev := some s }) ∧
    (∀ j, j ≠ s → L.first_ ≠ some j →
      (lru_list.add_finish L s).v_.getD j dn = L.v_.getD j dn) := by
  unfold lru_list.add_finish
  cases hfst : L.first_ with
  | none =>
    refine ⟨rfl, rfl, rfl, by simp, fun _ => ?_, ?_, ?_⟩
    · rw [getD_set_self _ _ hs]
      exact ⟨rfl, rfl, rfl⟩
    · intro f hf; exact absurd hf (by simp)
    · intro j hjs _
      exact getD_set_ne _ _ (Ne.symm hjs)
  | some f =>
    refine ⟨rfl, rfl, rfl, by simp, fun hne => ?_, ?_, ?_⟩
    · have hfs : f ≠ s := fun hh => hne (by rw [hh])
      rw [getD_set_ne _ _ hfs, getD_set_self _ _ hs]
      exact ⟨rfl, rfl, rfl⟩
    · intro f' hf' hflt hfs
      have hff : f = f' := by injection hf'
      subst hff
      rw [getD_set_self _ _ (by simpa using hflt), getD_set_ne _ _ (Ne.symm hfs)]
    · intro j hjs hjf
      have hfj : f ≠ j := fun hh => hjf (by rw [hh])
      rw [getD_set_ne _ _ hfj, getD_set_ne _ _ (Ne.symm hjs)]

theorem add_under_spec {V : Type} (l : lru_list V) (x : V)
    (hlt : l.size_ < l.v_.length) :
    ∃ l1, lru_list.add l x = some (l1, l.size_, none) ∧
      l1.size_ = l.size_ + 1 ∧
      l1.v_.length = l.v_.length ∧
      l1.first_ = some l.size_ ∧
      l1.last_ = (match l.last_ with | none => some l.size_ | some t => some t) ∧
      (l.first_ ≠ some l.size_ →
        (l1.v_.getD l.size_ dn).payload = some x ∧
        (l1.v_.getD l.size_ dn).prev = none ∧
        (l1.v_.getD l.size_ dn).next = l.first_) ∧
      (∀ f, l.first_ = some f → f < l.v_.length → f ≠ l.size_ →
        (l1.v_.getD f dn).prev = some l.size_ ∧
        (l1.v_.getD f dn).next = (l.v_.getD f dn).next ∧
        (l1.v_.getD f dn).payload = (l.v_.getD f dn).payload) ∧
      (∀ j, j ≠ l.size_ → l.first_ ≠ some j → l1.v_.getD j dn = l.v_.getD j dn) := by
  have hadd : lru_list.add l x =
      some (lru_list.add_finish
        { first_ := l.first_,
          last_ := match l.last_ with | none => some l.size_ | some t => some t,
          size_ := l.size_ + 1,
          v_ := l.v_.set l.size_ { l.v_.getD l.size_ dn with payload := some x } }
        l.size_, l.size_, none) := by
    unfold lru_list.add
    simp only [if_pos hlt]
  refine ⟨_, hadd, ?_⟩
  have hfacts := add_finish_facts
    { first_ := l.first_,
      last_ := match l.last_ with | none => some l.size_ | some t => some t,
      size_ := l.size_ + 1,
      v_ := l.v_.set l.size_ { l.v_.getD l.size_ dn with payload := some x } }
    l.size_ (by simpa using hlt)
  obtain ⟨hf1, hf2, hf3, hf4, hf5, hf6, hf7⟩ := hfacts
  refine ⟨hf3, by simpa using hf4, hf1, hf2, ?_, ?_, ?_⟩
  · intro hne
    obtain ⟨hp, hpr, hnx⟩ := hf5 hne
    refine ⟨?_, hpr, hnx⟩
    rw [hp, getD_set_self _ _ hlt]
  · intro f hfst hflt hfs
    have := hf6 f hfst (by simpa using hflt) hfs
    rw [this, getD_set_ne _ _ (Ne.symm hfs)]
    exact ⟨rfl, rfl, rfl⟩
  · intro j hjs hjf
    rw [hf7 j hjs hjf, getD_set_ne _ _ (Ne.symm hjs)]

theorem add_full_spec {V : Type} (l : lru_list V) (x : V) {f t p : Nat} {old : V}
    (hge : l.v_.length ≤ l.size_)
    (hf : l.first_ = some f) (ht : l.last_ = some t)
    (hpay : (l.v_.getD t dn).payload = some old)
    (hprev : (l.v_.getD t dn).prev = some p)
    (htf : t ≠ f) (htp : t ≠ p)
    (hflt : f < l.v_.length) (hplt : p < l.v_.length) :
    ∃ l1, lru_list.add l x = some (l1, t, some old) ∧
      l1.size_ = l.size_ ∧
      l1.v_.length = l.v_.length ∧
      l1.first_ = some t ∧
      l1.last_ = some p ∧
      (l1.v_.getD t dn).payload = some x ∧
      (l1.v_.getD t dn).prev = none ∧
      (l1.v_.getD t dn).next = some f ∧
      (l1.v_.getD p dn).next = none ∧
      (l1.v_.getD p dn).payload = (l.v_.getD p dn).payload ∧
      (f ≠ p → (l1.v_.getD p dn).prev = (l.v_.getD p dn).prev) ∧
      (l1.v_.getD f dn).prev = some t ∧
      (l1.v_.getD f dn).payload = (l.v_.getD f dn).payload ∧
      (f ≠ p → (l1.v_.getD f dn).next = (l.v_.getD f dn).next) ∧
      (∀ j, j ≠ t → j ≠ p → j ≠ f → l1.v_.getD j dn = l.v_.getD j dn) := by
  have ht_lt : t < l.v_.length := payload_getD_lt_length hpay
  have hv1t : ((l.v_.set t { l.v_.getD t dn with payload := some x }).getD t dn).prev
      = some p := by
    rw [getD_set_self _ _ ht_lt]
    exact hprev
  have hadd : lru_list.add l x =
      some (lru_list.add_finish
        { first_ := l.first_, last_ := some p, size_ := l.size_,
          v_ := (l.v_.set t { l.v_.getD t dn with payload := some x }).set p
                { (l.v_.set t { l.v_.getD t dn with payload := some x }).getD p dn
                  with next := none } }
        t, t, some old) := by
    unfold lru_list.add
    simp only [if_neg (Nat.not_lt.mpr hge), hf, ht, hpay, hv1t]
  refine ⟨_, hadd, ?_⟩
  have hL0len : ((l.v_.set t { l.v_.getD t dn with payload := some x }).set p
      { (l.v_.set t { l.v_.getD t dn with payload := some x }).getD p dn
        with next := none }).length = l.v_.length := by simp
  have hfacts := add_finish_facts
    { first_ := l.first_, last_ := some p, size_ := l.size_,
      v_ := (l.v_.set t { l.v_.getD t dn with payload := some x }).set p
            { (l.v_.set t { l.v_.getD t dn with payload := some x }).getD p dn
              with next := none } }
    t (by simpa using ht_lt)
  obtain ⟨hf1, hf2, hf3, hf4, hf5, hf6, hf7⟩ := hfacts
  have hL0t : ((l.v_.set t { l.v_.getD t dn with payload := some x }).set p
      { (l.v_.set t { l.v_.getD t dn with payload := some x }).getD p dn
        with next := none }).getD t dn = { l.v_.getD t dn with payload := some x } := by
    rw [getD_set_ne _ _ (Ne.symm htp), getD_set_self _ _ ht_lt]
  have hL0p : ((l.v_.set t { l.v_.getD t dn with payload := some x }).set p
      { (l.v_.set t { l.v_.getD t dn with payload := some x }).getD p dn
        with next := none }).getD p dn =
      { l.v_.getD p dn with next := none } := by
    rw [getD_set_self _ _ (by simpa using hplt), getD_set_ne _ _ htp]
  obtain ⟨hst_pay, hst_prev, hst_next⟩ := hf5 (by
    simp only [hf, ne_eq, Option.some.injEq]
    omega)
  refine ⟨hf3, by rw [hf4]; exact hL0len, hf1, hf2, ?_, hst_prev, ?_, ?_, ?_, ?_, ?_, ?_, ?_, ?_⟩
  · rw [hst_pay, hL0t]
  · rw [hst_next]; exact hf
  · by_cases hfp : f = p
    · subst hfp
      have := hf6 f (by simpa using hf) (by simpa using hflt) (Ne.symm htf)
      rw [this, hL0p]
    · have := hf7 p (Ne.symm htp) (by simp only [hf, ne_eq, Option.some.injEq]; omega)
      rw [this, hL0p]
  · by_cases hfp : f = p
    · subst hfp
      have := hf6 f (by simpa using hf) (by simpa using hflt) (Ne.symm htf)
      rw [this, hL0p]
    · have := hf7 p (Ne.symm htp) (by simp only [hf, ne_eq, Option.some.injEq]; omega)
      rw [this, hL0p]
  · intro hfp
    have := hf7 p (Ne.symm htp) (by simp only [hf, ne_eq, Option.some.injEq]; omega)
    rw [this, hL0p]
  · have := hf6 f (by simpa using hf) (by simpa using hflt) (Ne.symm htf)
    rw [this]
  · have := hf6 f (by simpa using hf) (by simpa using hflt) (Ne.symm htf)
    rw [this]
    by_cases hfp : f = p
    · subst hfp; rw [hL0p]
    · rw [getD_set_ne _ _ (fun hh => hfp hh.symm), getD_set_ne _ _ htf]
  · intro hfp
    have := hf6 f (by simpa using hf) (by simpa using hflt) (Ne.symm htf)
    rw [this, getD_set_ne _ _ (fun hh => hfp hh.symm), getD_set_ne _ _ htf]
  · intro j hjt hjp hjf
    have := hf7 j hjt (by simp only [hf, ne_eq, Option.some.injEq]; omega)
    rw [this, getD_set_ne _ _ (Ne.symm hjp), getD_set_ne _ _ (Ne.symm hjt)]

theorem add_fail_no_ends {V : Type} (l : lru_list V) (x : V)
    (hge : l.v_.length ≤ l.size_) (h : l.first_ = none ∨ l.last_ = none) :
    lru_list.add l x = none := by
  unfold lru_list.add
  rw [if_neg (Nat.not_lt.mpr hge)]
  rcases h with h | h
  · rw [h]
  · rw [h]
    cases l.first_ <;> rfl

theorem add_fail_payload_none {V : Type} (l : lru_list V) (x : V) {f t : Nat}
    (hge : l.v_.length ≤ l.size_) (hf : l.first_ = some f) (ht : l.last_ = some t)
    (hp : (l.v_.getD t dn).payload = none) :
    lru_list.add l x = none := by
  unfold lru_list.add
  simp only [if_neg (Nat.not_lt.mpr hge), hf, ht, hp]

theorem add_fail_prev_none {V : Type} (l : lru_list V) (x : V) {f t : Nat} {old : V}
    (hge : l.v_.length ≤ l.size_) (hf : l.first_ = some f) (ht : l.last_ = some t)
    (hpay : (l.v_.getD t dn).payload = some old)
    (hprev : (l.v_.getD t dn).prev = none) :
    lru_list.add l x = none := by
  have ht_lt : t < l.v_.length := payload_getD_lt_length hpay
  have hv1t : ((l.v_.set t { l.v_.getD t dn with payload := some x }).getD t dn).prev
      = none := by
    rw [getD_set_self _ _ ht_lt]
    exact hprev
  unfold lru_list.add
  simp only [if_neg (Nat.not_lt.mpr hge), hf, ht, hpay, hv1t]

/-- C8: `RecencyList.add`.  Below capacity it claims the next never-yet-used
array slot (the node at index `live_count`), constructs the payload there,
links it at the head and increments the live count without calling the
evictor (the returned eviction component is `none`).  At capacity it hands
the current tail's payload to the evictor, move-assigns the new payload over
it in the same node, unlinks that node from the tail position (the tail
pointer moves to the tail's predecessor, whose `next` becomes null) and
relinks it at the head, leaving the live count unchanged.  In both cases the
returned handle is the node now at the head, holding the new payload.  The
hypotheses of the at-capacity part (head/tail non-null, constructed tail
payload, non-null tail predecessor distinct from head and tail) are exactly
the conditions under which the C++ avoids undefined behaviour; they hold in
every well-formed list of capacity at least two. -/
theorem c8_add_characterization {V : Type} (l : lru_list V) (x : V) :
    (l.size_ < l.v_.length →
      ∃ l1, lru_list.add l x = some (l1, l.size_, none) ∧
        l1.size_ = l.size_ + 1 ∧
        l1.v_.length = l.v_.length ∧
        l1.first_ = some l.size_ ∧
        l1.last_ = (match l.last_ with | none => some l.size_ | some t => some t) ∧
        (l.first_ ≠ some l.size_ →
          (l1.v_.getD l.size_ dn).payload = some x ∧
          (l1.v_.getD l.size_ dn).prev = none ∧
          (l1.v_.getD l.size_ dn).next = l.first_) ∧
        (∀ f, l.first_ = some f → f < l.v_.length → f ≠ l.size_ →
          (l1.v_.getD f dn).prev = some l.size_ ∧
          (l1.v_.getD f dn).next = (l.v_.getD f dn).next ∧
          (l1.v_.getD f dn).payload = (l.v_.getD f dn).payload) ∧
        (∀ j, j ≠ l.size_ → l.first_ ≠ some j → l1.v_.getD j dn = l.v_.getD j dn)) ∧
    (∀ f t p old, l.v_.length ≤ l.size_ →
      l.first_ = some f → l.last_ = some t →
      (l.v_.getD t dn).payload = some old →
      (l.v_.getD t dn).prev = some p →
      t ≠ f → t ≠ p → f < l.v_.length → p < l.v_.length →
      ∃ l1, lru_list.add l x = some (l1, t, some old) ∧
        l1.size_ = l.size_ ∧
        l1.v_.length = l.v_.length ∧
        l1.first_ = some t ∧
        l1.last_ = some p ∧
        (l1.v_.getD t dn).payload = some x ∧
        (l1.v_.getD t dn).prev = none ∧
        (l1.v_.getD t dn).next = some f ∧
        (l1.v_.getD p dn).next = none ∧
        (∀ j, j ≠ t → j ≠ p → j ≠ f → l1.v_.getD j dn = l.v_.getD j dn)) := by
  constructor
  · intro hlt
    exact add_under_spec l x hlt
  · intro f t p old hge hf ht hpay hprev htf htp hflt hplt
    obtain ⟨l1, ha, h1, h2, h3, h4, h5, h6, h7, h8, _, _, _, _, _, hframe⟩ :=
      add_full_spec l x hge hf ht hpay hprev htf htp hflt hplt
    exact ⟨l1, ha, h1, h2, h3, h4, h5, h6, h7, h8, hframe⟩

/-- Witness for C8: a below-capacity add on a one-element list of capacity
two, and an at-capacity add on a full two-element list (evicting the tail's
payload 10). -/
theorem c8_add_characterization_witness :
    (lru_list.add
        ({ first_ := some 0, last_ := some 0, size_ := 1,
           v_ := [⟨some 5, none, none⟩, dn] } : lru_list Nat) 7).map
      (fun r => (r.2.1, r.2.2)) = some (1, none) ∧
    (lru_list.add
        ({ first_ := some 1, last_ := some 0, size_ := 2,
           v_ := [⟨some 10, some 1, none⟩, ⟨some 20, none, some 0⟩] } : lru_list Nat) 9).map
      (fun r => (r.2.1, r.2.2)) = some (0, some 10) := by
  constructor
  · obtain ⟨l1, h1, -⟩ := (c8_add_characterization
      ({ first_ := some 0, last_ := some 0, size_ := 1,
         v_ := [⟨some 5, none, none⟩, dn] } : lru_list Nat) 7).1 (by decide)
    rw [h1]
    rfl
  · obtain ⟨l2, h2, -⟩ := (c8_add_characterization
      ({ first_ := some 1, last_ := some 0, size_ := 2,
         v_ := [⟨some 10, some 1, none⟩, ⟨some 20, none, some 0⟩] } : lru_list Nat) 9).2
      1 0 1 10 (by decide) (by decide) (by decide) (by decide) (by decide)
      (by decide) (by decide) (by decide) (by decide)
    rw [h2]
    rfl

/-! ### C1: the return contract of `cache::set` -/

theorem set_of_length_le {α : Type _} {l : List α} {j : Nat} (a : α)
    (h : l.length ≤ j) : l.set j a = l := by
  induction l generalizing j with
  | nil => rfl
  | cons b t ih =>
    cases j with
    | zero => simp at h
    | succ j' => simpa [List.set] using ih (by simpa using h)

theorem getD_payload_set_link {V : Type} (v : List (LruNode V)) (j : Nat)
    (nd : LruNode V) (hpay : nd.payload = (v.getD j dn).payload) (i : Nat) :
    ((v.set j nd).getD i dn).payload = (v.getD i dn).payload := by
  by_cases hij : i = j
  · subst hij
    by_cases hlt : i < v.length
    · rw [getD_set_self _ _ hlt, hpay]
    · rw [set_of_length_le _ (Nat.le_of_not_lt hlt)]
  · rw [getD_set_ne _ _ (Ne.symm hij)]

theorem getD_payload_set_links {V : Type} (v : List (LruNode V)) (j : Nat)
    (pr nx : Option Nat) (i : Nat) :
    ((v.set j { payload := (v.getD j dn).payload, prev := pr, next := nx }).getD i dn).payload
      = (v.getD i dn).payload :=
  getD_payload_set_link v j { payload := (v.getD j dn).payload, prev := pr, next := nx } rfl i

theorem touch_payload {V : Type} {l l1 : lru_list V} {n : Nat}
    (h : lru_list.touch l n = some l1) :
    l1.size_ = l.size_ ∧ l1.v_.length = l.v_.length ∧
    ∀ i, (l1.v_.getD i dn).payload = (l.v_.getD i dn).payload := by
  unfold lru_list.touch at h
  cases hf : l.first_ with
  | none => rw [hf] at h; exact Option.noConfusion h
  | some f =>
    cases hl : l.last_ with
    | none => rw [hf, hl] at h; exact Option.noConfusion h
    | some t =>
      rw [hf, hl] at h
      simp only at h
      by_cases hfn : f = n
      · rw [if_pos hfn] at h
        injection h with h
        subst h
        exact ⟨rfl, rfl, fun _ => rfl⟩
      · rw [if_neg hfn] at h
        split at h <;> split at h <;> split at h <;>
          (injection h with h; subst h;
           refine ⟨rfl, by simp, fun i => ?_⟩;
           dsimp only;
           repeat rw [getD_payload_set_links])

/-- C1: `cache::set(k, v)` returns `true` iff `k` is already cached with a
value equal to `v`, in which case no stored key/value mapping changes; it
returns `false` when `k` was newly inserted or its stored value was
overwritten. -/
theorem c1_set_return_contract {K V : Type} [DecidableEq K] [DecidableEq V]
    (hash : K → Nat) (c : cache K V) (k : K) (v : V) (b : Bool) (c' : cache K V)
    (h : cache.set hash c k v = some (b, c')) :
    (b = true ↔ cachedVal hash c k = some v) ∧
    (b = true → ∀ k2, cachedVal hash c' k2 = cachedVal hash c k2) := by
  unfold cache.set cache.setTr at h
  cases hfv : iumap.findVal hash c.h k with
  | none =>
    simp only [hfv] at h
    cases hadd : lru_list.add c.lru (k, v) with
    | none =>
      rw [hadd] at h
      exact Option.noConfusion h
    | some r =>
      obtain ⟨lru1, nd, ev⟩ := r
      simp only [hadd, Option.map_some', Option.some.injEq, Prod.mk.injEq] at h
      obtain ⟨hb, _hc⟩ := h
      have hcv : cachedVal hash c k = none := by
        unfold cachedVal
        rw [hfv]
      constructor
      · rw [← hb, hcv]
        simp
      · intro hbt
        rw [← hb] at hbt
        exact absurd hbt (by simp)
  | some nd =>
    simp only [hfv] at h
    cases ht : lru_list.touch c.lru nd with
    | none =>
      rw [ht] at h
      exact Option.noConfusion h
    | some lru1 =>
      simp only [ht] at h
      cases hp : (lru1.v_.getD nd dn).payload with
      | none =>
        rw [hp] at h
        exact Option.noConfusion h
      | some kv =>
        simp only [hp] at h
        obtain ⟨hsz, hlen, hpay⟩ := touch_payload ht
        have hcv : cachedVal hash c k = some kv.2 := by
          have hnd : (c.lru.v_.getD nd dn).payload = some kv := by
            rw [← hpay nd]
            exact hp
          unfold cachedVal
          simp only [hfv, hnd]
        by_cases hv : v = kv.2
        · rw [if_pos hv] at h
          simp only [Option.map_some', Option.some.injEq, Prod.mk.injEq] at h
          obtain ⟨hb, hc⟩ := h
          constructor
          · rw [← hb, hcv, hv]
            simp
          · intro _ k2
            rw [← hc]
            unfold cachedVal
            cases hfv2 : iumap.findVal hash c.h k2 with
            | none => rfl
            | some nd2 =>
              simp only [hpay nd2]
        · rw [if_neg hv] at h
          simp only [Option.map_some', Option.some.injEq, Prod.mk.injEq] at h
          obtain ⟨hb, _hc⟩ := h
          constructor
          · rw [← hb, hcv]
            simp only [Bool.false_eq_true, false_iff, ne_eq, Option.some.injEq]
            exact fun hh => hv hh.symm
          · intro hbt
            rw [← hb] at hbt
            exact absurd hbt (by simp)

/-- Witness for C1: on a capacity-4 cache holding (1 ↦ 10), re-setting
(1, 10) returns `true`, setting (1, 11) returns `false`, and setting a fresh
key returns `false`. -/
theorem c1_set_return_contract_witness :
    ((cache.set idHash ((cache.set idHash (emptyCache Nat Nat 4) 1 10).getD
        (false, emptyCache Nat Nat 4)).2 1 10).map Prod.fst = some true) ∧
    ((cache.set idHash ((cache.set idHash (emptyCache Nat Nat 4) 1 10).getD
        (false, emptyCache Nat Nat 4)).2 1 11).map Prod.fst = some false) ∧
    (cachedVal idHash ((cache.set idHash (emptyCache Nat Nat 4) 1 10).getD
        (false, emptyCache Nat Nat 4)).2 1 = some 10) := by
  have h1 := c1_set_return_contract idHash
    ((cache.set idHash (emptyCache Nat Nat 4) 1 10).getD (false, emptyCache Nat Nat 4)).2
    1 10
    ((cache.set idHash ((cache.set idHash (emptyCache Nat Nat 4) 1 10).getD
        (false, emptyCache Nat Nat 4)).2 1 10).getD (false, emptyCache Nat Nat 4)).1
    ((cache.set idHash ((cache.set idHash (emptyCache Nat Nat 4) 1 10).getD
        (false, emptyCache Nat Nat 4)).2 1 10).getD (false, emptyCache Nat Nat 4)).2
    (by decide)
  refine ⟨?_, by decide, by decide⟩
  have hb := h1.1.mpr (by decide)
  rw [show (cache.set idHash ((cache.set idHash (emptyCache Nat Nat 4) 1 10).getD
      (false, emptyCache Nat Nat 4)).2 1 10) = some
      (((cache.set idHash ((cache.set idHash (emptyCache Nat Nat 4) 1 10).getD
        (false, emptyCache Nat Nat 4)).2 1 10).getD (false, emptyCache Nat Nat 4)).1,
       ((cache.set idHash ((cache.set idHash (emptyCache Nat Nat 4) 1 10).getD
        (false, emptyCache Nat Nat 4)).2 1 10).getD (false, emptyCache Nat Nat 4)).2)
    from by decide]
  rw [hb]
  rfl

/-! ### The triangular probe sequence visits every slot exactly once -/

theorem tri_twice (j : Nat) : 2 * tri j = j * (j + 1) := by
  induction j with
  | zero => rfl
  | succ m ih =>
    show 2 * (tri m + (m + 1)) = (m + 1) * (m + 2)
    have : 2 * (tri m + (m + 1)) = 2 * tri m + 2 * (m + 1) := by ring
    rw [this, ih]
    ring

theorem tri_add (j d : Nat) : 2 * tri (j + d) = 2 * tri j + d * (2 * j + d + 1) := by
  induction d with
  | zero => simp
  | succ e ih =>
    have hstep : tri (j + (e + 1)) = tri (j + e) + (j + e + 1) := by
      show tri ((j + e) + 1) = _
      rfl
    have hpoly : e * (2 * j + e + 1) + 2 * (j + e + 1) = (e + 1) * (2 * j + (e + 1) + 1) := by
      ring
    calc 2 * tri (j + (e + 1)) = 2 * tri (j + e) + 2 * (j + e + 1) := by rw [hstep]; ring
    _ = 2 * tri j + e * (2 * j + e + 1) + 2 * (j + e + 1) := by rw [ih]
    _ = 2 * tri j + (e + 1) * (2 * j + (e + 1) + 1) := by rw [Nat.add_assoc, hpoly]

theorem tri_le_of_le {i j : Nat} (h : i ≤ j) : tri i ≤ tri j := by
  obtain ⟨d, rfl⟩ := Nat.le.dest h
  have := tri_add i d
  omega

theorem tri_mod_injective (e : Nat) :
    ∀ i j, i < 2 ^ e → j < 2 ^ e → tri i % 2 ^ e = tri j % 2 ^ e → i = j := by
  have main : ∀ i j, j ≤ i → i < 2 ^ e → j < 2 ^ e →
      tri i % 2 ^ e = tri j % 2 ^ e → i = j := by
    intro i j hji hi hj hmod
    obtain ⟨d, rfl⟩ := Nat.le.dest hji
    -- 2^e divides tri (j + d) - tri j, hence 2^(e+1) divides d * (2j + d + 1)
    have hle : tri j ≤ tri (j + d) := tri_le_of_le (Nat.le_add_right _ _)
    have hdvd : 2 ^ e ∣ tri (j + d) - tri j :=
      (Nat.modEq_iff_dvd' hle).mp (Nat.ModEq.symm hmod)
    have h2 : 2 ^ (e + 1) ∣ 2 * (tri (j + d) - tri j) := by
      rw [Nat.pow_succ, Nat.mul_comm (2 ^ e) 2]
      exact Nat.mul_dvd_mul_left 2 hdvd
    have heq : 2 * (tri (j + d) - tri j) = d * (2 * j + d + 1) := by
      have := tri_add j d
      omega
    rw [heq] at h2
    rcases Nat.even_or_odd d with hde | hdo
    · -- d even, so 2j + d + 1 odd, so 2^(e+1) divides d
      have hsodd : Odd (2 * j + d + 1) := by
        rcases hde with ⟨m, hm⟩
        exact ⟨j + m, by omega⟩
      have hcop : Nat.Coprime (2 ^ (e + 1)) (2 * j + d + 1) :=
        Nat.Coprime.pow_left _ (Nat.coprime_two_left.mpr hsodd)
      have hdd : 2 ^ (e + 1) ∣ d := hcop.dvd_of_dvd_mul_right h2
      have : d = 0 := by
        by_contra hne
        have h1 : 2 ^ (e + 1) ≤ d := Nat.le_of_dvd (Nat.pos_of_ne_zero hne) hdd
        have h2e : 2 ^ e < 2 ^ (e + 1) := Nat.pow_lt_pow_succ (by omega)
        omega
      omega
    · -- d odd, so 2^(e+1) divides 2j + d + 1, impossible by size
      have hcop : Nat.Coprime (2 ^ (e + 1)) d :=
        Nat.Coprime.pow_left _ (Nat.coprime_two_left.mpr hdo)
      have hsd : 2 ^ (e + 1) ∣ 2 * j + d + 1 := by
        rw [Nat.mul_comm] at h2
        exact hcop.dvd_of_dvd_mul_right h2
      have h1 : 2 ^ (e + 1) ≤ 2 * j + d + 1 := Nat.le_of_dvd (by omega) hsd
      have h2e : 2 ^ (e + 1) = 2 * 2 ^ e := by rw [Nat.pow_succ]; ring
      omega
  intro i j hi hj hmod
  rcases Nat.le_total j i with hji | hij
  · exact main i j hji hi hj hmod
  · exact (main j i hij hj hi hmod.symm).symm

theorem sumFrom_succ_right (a : Nat) : ∀ iter, sumFrom iter (a + 1) = sumFrom iter a + (iter + a) := by
  induction a with
  | zero => intro iter; simp [sumFrom]
  | succ b ih =>
    intro iter
    show iter + sumFrom (iter + 1) (b + 1) = (iter + sumFrom (iter + 1) b) + (iter + (b + 1))
    rw [ih (iter + 1)]
    omega

theorem sumFrom_one (a : Nat) : sumFrom 1 a = tri a := by
  induction a with
  | zero => rfl
  | succ b ih =>
    rw [sumFrom_succ_right, ih]
    show tri b + (1 + b) = tri b + (b + 1)
    omega

theorem probeFrom_get? (n : Nat) (hn : 0 < n) :
    ∀ fuel pos iter a, pos < n → a < fuel →
      (probeFrom n pos iter fuel).get? a = some ((pos + sumFrom iter a) % n) := by
  intro fuel
  induction fuel with
  | zero => intro pos iter a _ ha; omega
  | succ f ih =>
    intro pos iter a hpos ha
    cases a with
    | zero =>
      simp [probeFrom, sumFrom, Nat.mod_eq_of_lt hpos]
    | succ b =>
      have hb : b < f := by omega
      have := ih ((pos + iter) % n) (iter + 1) b (Nat.mod_lt _ hn) hb
      simp only [probeFrom, List.get?_cons_succ, this]
      congr 1
      show ((pos + iter) % n + sumFrom (iter + 1) b) % n
          = (pos + (iter + sumFrom (iter + 1) b)) % n
      rw [Nat.mod_add_mod, Nat.add_assoc]

theorem probePositions_eq_map (n start : Nat) (hn : 0 < n) (hs : start < n) :
    probePositions n start = (List.range n).map fun a => (start + tri a) % n := by
  apply List.ext_get?
  intro a
  by_cases ha : a < n
  · have h1 := probeFrom_get? n hn n start 1 a hs ha
    rw [probePositions, h1, List.get?_map, List.get?_range ha]
    simp [sumFrom_one]
  · have h1 : (probePositions n start).get? a = none := by
      rw [List.get?_eq_none]
      rw [probePositions, probeFrom_length]
      omega
    have h2 : (((List.range n).map fun a => (start + tri a) % n).get? a) = none := by
      rw [List.get?_eq_none]
      simp only [List.length_map, List.length_range]
      omega
    rw [h1, h2]

theorem probePositions_nodup {e start : Nat} (hs : start < 2 ^ e) :
    (probePositions (2 ^ e) start).Nodup := by
  have hn : 0 < 2 ^ e := Nat.pos_pow_of_pos e (by omega)
  rw [probePositions_eq_map _ _ hn hs]
  refine List.Nodup.map_on ?_ (List.nodup_range _)
  intro i hi j hj hfij
  rw [List.mem_range] at hi hj
  have : tri i % 2 ^ e = tri j % 2 ^ e := by
    have h1 : (start + tri i) % 2 ^ e = (start + tri j) % 2 ^ e := hfij
    have h2 : (start + tri i) ≡ (start + tri j) [MOD 2 ^ e] := h1
    exact Nat.ModEq.add_left_cancel' start h2
  exact tri_mod_injective e i j hi hj this

theorem probePositions_mem {e start : Nat} (hs : start < 2 ^ e) {j : Nat}
    (hj : j < 2 ^ e) : j ∈ probePositions (2 ^ e) start := by
  have hn : 0 < 2 ^ e := Nat.pos_pow_of_pos e (by omega)
  rw [probePositions_eq_map _ _ hn hs]
  have hinj : Function.Injective
      (fun a : Fin (2 ^ e) => (⟨(start + tri a.1) % 2 ^ e, Nat.mod_lt _ hn⟩ : Fin (2 ^ e))) := by
    intro a b hab
    have h1 : (start + tri a.1) % 2 ^ e = (start + tri b.1) % 2 ^ e := by
      simpa using congrArg Fin.val hab
    have h2 : tri a.1 % 2 ^ e = tri b.1 % 2 ^ e :=
      Nat.ModEq.add_left_cancel' start h1
    exact Fin.ext (tri_mod_injective e a.1 b.1 a.2 b.2 h2)
  have hsurj := Finite.surjective_of_injective hinj
  obtain ⟨a, ha⟩ := hsurj ⟨j, hj⟩
  rw [List.mem_map]
  refine ⟨a.1, List.mem_range.mpr a.2, ?_⟩
  simpa using congrArg Fin.val ha

/-! ### Characterizations of the scans -/

section ScanChar

variable {K M : Type} [DecidableEq K]

theorem scanFind_eq_some_iff (v : List (Slot K M)) (key : K) :
    ∀ (ps : List Nat) (s : Nat),
      scanFind v key ps = some s ↔
      ∃ l1 l2, ps = l1 ++ s :: l2 ∧
        (∃ w, v.getD s .unused = .occupied key w) ∧
        ∀ p ∈ l1, skipsKey v key p := by
  intro ps
  induction ps with
  | nil =>
    intro s
    constructor
    · intro h; exact Option.noConfusion h
    · rintro ⟨l1, l2, habs, -, -⟩
      exact absurd habs (by simp)
  | cons p rest ih =>
    intro s
    constructor
    · intro h
      simp only [scanFind] at h
      cases hslot : v.getD p .unused with
      | unused => rw [hslot] at h; exact Option.noConfusion h
      | tombstone =>
        rw [hslot] at h
        obtain ⟨l1, l2, hsplit, hocc, hskips⟩ := (ih s).mp h
        refine ⟨p :: l1, l2, by rw [hsplit]; rfl, hocc, ?_⟩
        intro q hq
        rcases List.mem_cons.mp hq with rfl | hq
        · exact Or.inl hslot
        · exact hskips q hq
      | occupied k w =>
        simp only [hslot] at h
        by_cases hk : k = key
        · rw [if_pos hk] at h
          injection h with h
          subst h
          exact ⟨[], rest, rfl, ⟨w, by rw [hslot, hk]⟩, by simp⟩
        · rw [if_neg hk] at h
          obtain ⟨l1, l2, hsplit, hocc, hskips⟩ := (ih s).mp h
          refine ⟨p :: l1, l2, by rw [hsplit]; rfl, hocc, ?_⟩
          intro q hq
          rcases List.mem_cons.mp hq with rfl | hq
          · exact Or.inr ⟨k, w, hslot, hk⟩
          · exact hskips q hq
    · rintro ⟨l1, l2, hsplit, ⟨w, hocc⟩, hskips⟩
      cases l1 with
      | nil =>
        simp only [List.nil_append] at hsplit
        injection hsplit with h1 h2
        subst h1
        subst h2
        simp only [scanFind, hocc]
        simp
      | cons q l1' =>
        simp only [List.cons_append] at hsplit
        injection hsplit with h1 h2
        subst h1
        subst h2
        have hq : skipsKey v key p := hskips p (List.mem_cons_self _ _)
        have hrest : scanFind v key (l1' ++ s :: l2) = some s :=
          (ih s).mpr ⟨l1', l2, rfl, ⟨w, hocc⟩, fun r hr => hskips r (List.mem_cons_of_mem _ hr)⟩
        rcases hq with hq | ⟨k2, w2, hq, hk2⟩
        · simp only [scanFind, hq]
          exact hrest
        · simp only [scanFind, hq, if_neg hk2]
          exact hrest

theorem scanFind_none_of_no_occ (v : List (Slot K M)) (key : K) (ps : List Nat)
    (h : ∀ p ∈ ps, ∀ w, v.getD p .unused ≠ .occupied key w) :
    scanFind v key ps = none := by
  cases hsf : scanFind v key ps with
  | none => rfl
  | some s =>
    obtain ⟨l1, l2, hsplit, ⟨w, hocc⟩, -⟩ := (scanFind_eq_some_iff v key ps s).mp hsf
    exact absurd hocc (h s (by rw [hsplit]; simp) w)

theorem scanInsertGo_some_acc (v : List (Slot K M)) (key : K) :
    ∀ (ps : List Nat) (t i : Nat),
      scanInsertGo v key ps (some t) = some i →
      i = t ∨
      ∃ l1 l2, ps = l1 ++ i :: l2 ∧
        (∃ w, v.getD i .unused = .occupied key w) ∧
        ∀ p ∈ l1, skipsKey v key p := by
  intro ps
  induction ps with
  | nil =>
    intro t i h
    injection h with h
    exact Or.inl h.symm
  | cons p rest ih =>
    intro t i h
    simp only [scanInsertGo] at h
    cases hslot : v.getD p .unused with
    | unused =>
      rw [hslot] at h
      injection h with h
      exact Or.inl h.symm
    | tombstone =>
      rw [hslot] at h
      rcases ih t i h with hit | ⟨l1, l2, hsplit, hocc, hskips⟩
      · exact Or.inl hit
      · refine Or.inr ⟨p :: l1, l2, by rw [hsplit]; rfl, hocc, ?_⟩
        intro q hq
        rcases List.mem_cons.mp hq with rfl | hq
        · exact Or.inl hslot
        · exact hskips q hq
    | occupied k w =>
      simp only [hslot] at h
      by_cases hk : k = key
      · rw [if_pos hk] at h
        injection h with h
        subst h
        exact Or.inr ⟨[], rest, rfl, ⟨w, by rw [hslot, hk]⟩, by simp⟩
      · rw [if_neg hk] at h
        rcases ih t i h with hit | ⟨l1, l2, hsplit, hocc, hskips⟩
        · exact Or.inl hit
        · refine Or.inr ⟨p :: l1, l2, by rw [hsplit]; rfl, hocc, ?_⟩
          intro q hq
          rcases List.mem_cons.mp hq with rfl | hq
          · exact Or.inr ⟨k, w, hslot, hk⟩
          · exact hskips q hq

theorem scanInsert_some_spec (v : List (Slot K M)) (key : K) :
    ∀ (ps : List Nat) (i : Nat),
      scanInsertGo v key ps none = some i →
      (∃ l1 l2, ps = l1 ++ i :: l2 ∧
        (∃ w, v.getD i .unused = .occupied key w) ∧
        ∀ p ∈ l1, skipsKey v key p) ∨
      (∃ l1 l2, ps = l1 ++ i :: l2 ∧
        (v.getD i .unused = .unused ∨ v.getD i .unused = .tombstone) ∧
        ∀ p ∈ l1, occNonmatch v key p) := by
  intro ps
  induction ps with
  | nil =>
    intro i h
    exact Option.noConfusion h
  | cons p rest ih =>
    intro i h
    simp only [scanInsertGo] at h
    cases hslot : v.getD p .unused with
    | unused =>
      rw [hslot] at h
      injection h with h
      subst h
      exact Or.inr ⟨[], rest, rfl, Or.inl hslot, by simp⟩
    | tombstone =>
      rw [hslot] at h
      rcases scanInsertGo_some_acc v key rest p i h with rfl | ⟨l1, l2, hsplit, hocc, hskips⟩
      · exact Or.inr ⟨[], rest, rfl, Or.inr hslot, by simp⟩
      · refine Or.inl ⟨p :: l1, l2, by rw [hsplit]; rfl, hocc, ?_⟩
        intro q hq
        rcases List.mem_cons.mp hq with rfl | hq
        · exact Or.inl hslot
        · exact hskips q hq
    | occupied k w =>
      simp only [hslot] at h
      by_cases hk : k = key
      · rw [if_pos hk] at h
        injection h with h
        subst h
        exact Or.inl ⟨[], rest, rfl, ⟨w, by rw [hslot, hk]⟩, by simp⟩
      · rw [if_neg hk] at h
        rcases ih i h with ⟨l1, l2, hsplit, hocc, hskips⟩ | ⟨l1, l2, hsplit, hkind, hnm⟩
        · refine Or.inl ⟨p :: l1, l2, by rw [hsplit]; rfl, hocc, ?_⟩
          intro q hq
          rcases List.mem_cons.mp hq with rfl | hq
          · exact Or.inr ⟨k, w, hslot, hk⟩
          · exact hskips q hq
        · refine Or.inr ⟨p :: l1, l2, by rw [hsplit]; rfl, hkind, ?_⟩
          intro q hq
          rcases List.mem_cons.mp hq with rfl | hq
          · exact ⟨k, w, hslot, hk⟩
          · exact hnm q hq

theorem scanInsertGo_none_spec (v : List (Slot K M)) (key : K) :
    ∀ (ps : List Nat) (ft : Option Nat),
      scanInsertGo v key ps ft = none →
      ft = none ∧ ∀ p ∈ ps, ∃ k2 w2, v.getD p .unused = .occupied k2 w2 := by
  intro ps
  induction ps with
  | nil =>
    intro ft h
    exact ⟨h, by simp⟩
  | cons p rest ih =>
    intro ft h
    simp only [scanInsertGo] at h
    cases hslot : v.getD p .unused with
    | unused =>
      rw [hslot] at h
      cases ft <;> exact Option.noConfusion h
    | tombstone =>
      rw [hslot] at h
      have := ih _ h
      cases ft with
      | none => exact absurd this.1 (by simp)
      | some t => exact absurd this.1 (by simp)
    | occupied k w =>
      simp only [hslot] at h
      by_cases hk : k = key
      · rw [if_pos hk] at h
        exact Option.noConfusion h
      · rw [if_neg hk] at h
        obtain ⟨hft, hall⟩ := ih ft h
        refine ⟨hft, ?_⟩
        intro q hq
        rcases List.mem_cons.mp hq with rfl | hq
        · exact ⟨k, w, hslot⟩
        · exact hall q hq

end ScanChar

/-! ### Table operations under the table invariant -/

theorem getD_eq_getElem {α : Type _} {l : List α} {j : Nat} (d : α)
    (h : j < l.length) : l.getD j d = l[j] := by
  induction l generalizing j with
  | nil => simp at h
  | cons a t ih =>
    cases j with
    | zero => rfl
    | succ j' => simpa [List.getD] using ih (by simpa using h)

section TableLemmas

variable {K M : Type} [DecidableEq K]

theorem find_eq_scanFind (hash : K → Nat) (m : iumap K M) (key : K) :
    iumap.find hash m key =
      scanFind m.v_ key (probePositions m.v_.length (hash key % m.v_.length)) := by
  have h := lookup_go_eq_scanFind m.v_ key m.v_.length (hash key % m.v_.length) 1
  simpa [iumap.find, iumap.lookup_slot, probePositions] using h

theorem find_insert_slot_eq_scan (hash : K → Nat) (m : iumap K M) (key : K) :
    iumap.find_insert_slot hash m key =
      scanInsertGo m.v_ key (probePositions m.v_.length (hash key % m.v_.length)) none := by
  rw [find_insert_slot_eq_spec]
  rfl

theorem find_some_occ (hash : K → Nat) (m : iumap K M) (key : K) (i : Nat)
    (h : iumap.find hash m key = some i) :
    ∃ w, m.v_.getD i .unused = .occupied key w := by
  rw [find_eq_scanFind] at h
  obtain ⟨l1, l2, -, hocc, -⟩ := (scanFind_eq_some_iff m.v_ key _ i).mp h
  exact hocc

theorem find_some_mem_ps (hash : K → Nat) (m : iumap K M) (key : K) (i : Nat)
    (h : iumap.find hash m key = some i) :
    i ∈ probePositions m.v_.length (hash key % m.v_.length) := by
  rw [find_eq_scanFind] at h
  obtain ⟨l1, l2, hsplit, -, -⟩ := (scanFind_eq_some_iff m.v_ key _ i).mp h
  rw [hsplit]
  simp

theorem scanFind_some_set (v : List (Slot K M)) (key : K) (ps : List Nat)
    (s i : Nat) (a : Slot K M)
    (h : scanFind v key ps = some s) (hsi : s ≠ i)
    (hskip : skipsKey (v.set i a) key i) :
    scanFind (v.set i a) key ps = some s := by
  obtain ⟨l1, l2, hsplit, ⟨w, hocc⟩, hskips⟩ := (scanFind_eq_some_iff v key ps s).mp h
  refine (scanFind_eq_some_iff (v.set i a) key ps s).mpr
    ⟨l1, l2, hsplit, ⟨w, by rw [getD_set_ne _ _ (fun hh => hsi hh.symm)]; exact hocc⟩, ?_⟩
  intro p hp
  by_cases hpi : p = i
  · subst hpi
    exact hskip
  · have := hskips p hp
    unfold skipsKey at this ⊢
    rw [getD_set_ne _ _ (fun hh => hpi hh.symm)]
    exact this

theorem scanFind_set_new (v : List (Slot K M)) (key : K) (ps l1 l2 : List Nat)
    (i : Nat) (nd : M)
    (hsplit : ps = l1 ++ i :: l2)
    (hnm : ∀ p ∈ l1, occNonmatch v key p)
    (hil1 : i ∉ l1)
    (hlt : i < v.length) :
    scanFind (v.set i (.occupied key nd)) key ps = some i := by
  refine (scanFind_eq_some_iff _ key ps i).mpr
    ⟨l1, l2, hsplit, ⟨nd, by rw [getD_set_self _ _ hlt]⟩, ?_⟩
  intro p hp
  have hpi : p ≠ i := fun hh => hil1 (hh ▸ hp)
  obtain ⟨k2, w2, hocc2, hne2⟩ := hnm p hp
  exact Or.inr ⟨k2, w2, by rw [getD_set_ne _ _ (Ne.symm hpi)]; exact hocc2, hne2⟩

theorem countOccupied_full (v : List (Slot K M))
    (h : ∀ j, j < v.length → ∃ k2 w2, v.getD j .unused = .occupied k2 w2) :
    countOccupied v = v.length := by
  unfold countOccupied
  rw [List.countP_eq_length]
  intro a ha
  obtain ⟨j, hj, hja⟩ := List.mem_iff_getElem.mp ha
  obtain ⟨k2, w2, hocc⟩ := h j hj
  rw [getD_eq_getElem _ hj, hja] at hocc
  rw [hocc]
  rfl

theorem tryEmplace_insert_spec (hash : K → Nat) (m : iumap K M) (key : K) (nd : M)
    (inv : TableInv hash m)
    (habs : iumap.find hash m key = none)
    (hroom : countOccupied m.v_ < m.v_.length) :
    ∃ i m1, iumap.try_emplace hash m key nd = ((some i, true), m1) ∧
      TableInv hash m1 ∧
      m1.v_.length = m.v_.length ∧
      m1.size_ = m.size_ + 1 ∧
      m1.v_ = m.v_.set i (.occupied key nd) ∧
      iumap.find hash m1 key = some i ∧
      (∀ k2, k2 ≠ key → iumap.find hash m1 k2 = iumap.find hash m k2) := by
  obtain ⟨e, he⟩ := inv.pow
  have hn : 0 < m.v_.length := by omega
  have hstart : hash key % m.v_.length < m.v_.length := Nat.mod_lt _ hn
  have hnodup : (probePositions m.v_.length (hash key % m.v_.length)).Nodup := by
    rw [he] at hstart ⊢
    exact probePositions_nodup hstart
  have hcover : ∀ j, j < m.v_.length →
      j ∈ probePositions m.v_.length (hash key % m.v_.length) := by
    intro j hj
    rw [he] at hstart hj ⊢
    exact probePositions_mem hstart hj
  have hmemlt : ∀ p ∈ probePositions m.v_.length (hash key % m.v_.length),
      p < m.v_.length := probePositions_mem_lt hn hstart
  -- the insertion-slot search succeeds
  cases hfis : iumap.find_insert_slot hash m key with
  | none =>
    exfalso
    rw [find_insert_slot_eq_scan] at hfis
    obtain ⟨-, hall⟩ := scanInsertGo_none_spec m.v_ key _ none hfis
    have : countOccupied m.v_ = m.v_.length :=
      countOccupied_full m.v_ fun j hj => hall j (hcover j hj)
    omega
  | some i =>
    have hscan : scanInsertGo m.v_ key
        (probePositions m.v_.length (hash key % m.v_.length)) none = some i := by
      rw [← find_insert_slot_eq_scan]
      exact hfis
    rcases scanInsert_some_spec m.v_ key _ i hscan with
      ⟨l1, l2, hsplit, hocc, hskips⟩ | ⟨l1, l2, hsplit, hkind, hnm⟩
    · exfalso
      have : scanFind m.v_ key
          (probePositions m.v_.length (hash key % m.v_.length)) = some i :=
        (scanFind_eq_some_iff m.v_ key _ i).mpr ⟨l1, l2, hsplit, hocc, hskips⟩
      rw [← find_eq_scanFind] at this
      rw [habs] at this
      exact Option.noConfusion this
    · have hips : i ∈ probePositions m.v_.length (hash key % m.v_.length) := by
        rw [hsplit]; simp
      have hilt : i < m.v_.length := hmemlt i hips
      have hil1 : i ∉ l1 := by
        rw [hsplit] at hnodup
        have hdis := (List.nodup_append.mp hnodup).2.2
        intro hmem
        exact hdis hmem (List.mem_cons_self i l2)
      have hnotocc : (m.v_.getD i .unused).isOccupied = false := by
        rcases hkind with hk | hk <;> rw [hk] <;> rfl
      have hcntins := countOccupied_set_insert m.v_ i key nd hilt hnotocc
      have hfindnew : scanFind (m.v_.set i (.occupied key nd)) key
          (probePositions m.v_.length (hash key % m.v_.length)) = some i :=
        scanFind_set_new m.v_ key _ l1 l2 i nd hsplit hnm hil1 hilt
      have hlen' : (m.v_.set i (.occupied key nd)).length = m.v_.length := by simp
      have hmain : ∀ tomb : Nat,
          TableInv hash ⟨m.size_ + 1, tomb, m.v_.set i (.occupied key nd)⟩ ∧
          iumap.find hash ⟨m.size_ + 1, tomb, m.v_.set i (.occupied key nd)⟩ key = some i ∧
          (∀ k2, k2 ≠ key →
            iumap.find hash ⟨m.size_ + 1, tomb, m.v_.set i (.occupied key nd)⟩ k2 =
            iumap.find hash m k2) := by
        intro tomb
        have hsize := inv.size
        refine ⟨⟨⟨e, by simpa using he⟩, ?_, ?_⟩, ?_, ?_⟩
        · show m.size_ + 1 = countOccupied (m.v_.set i (.occupied key nd))
          omega
        · intro j k2 nd2 hj
          show iumap.find hash _ k2 = some j
          by_cases hji : j = i
          · subst hji
            rw [getD_set_self _ _ hilt] at hj
            injection hj with hk2 hnd2
            subst hk2
            subst hnd2
            rw [find_eq_scanFind]
            show scanFind (m.v_.set j (.occupied key nd)) key
              (probePositions (m.v_.set j (.occupied key nd)).length
                (hash key % (m.v_.set j (.occupied key nd)).length)) = some j
            rw [hlen']
            exact hfindnew
          · rw [getD_set_ne _ _ (fun hh => hji hh.symm)] at hj
            have hk2ne : k2 ≠ key := by
              intro hh
              subst hh
              have := inv.findable j k2 nd2 hj
              rw [habs] at this
              exact Option.noConfusion this
            have hfm := inv.findable j k2 nd2 hj
            rw [find_eq_scanFind] at hfm
            rw [find_eq_scanFind]
            show scanFind (m.v_.set i (.occupied key nd)) k2
              (probePositions (m.v_.set i (.occupied key nd)).length
                (hash k2 % (m.v_.set i (.occupied key nd)).length)) = some j
            rw [hlen']
            refine scanFind_some_set m.v_ k2 _ j i (.occupied key nd) hfm hji ?_
            exact Or.inr ⟨key, nd, by rw [getD_set_self _ _ hilt], fun hh => hk2ne hh.symm⟩
        · rw [find_eq_scanFind]
          show scanFind (m.v_.set i (.occupied key nd)) key
            (probePositions (m.v_.set i (.occupied key nd)).length
              (hash key % (m.v_.set i (.occupied key nd)).length)) = some i
          rw [hlen']
          exact hfindnew
        · intro k2 hk2
          cases hfm : iumap.find hash m k2 with
          | some j =>
            obtain ⟨w2, hocc2⟩ := find_some_occ hash m k2 j hfm
            have hji : j ≠ i := by
              intro hh
              subst hh
              rcases hkind with hk | hk <;> rw [hk] at hocc2 <;> exact Slot.noConfusion hocc2
            rw [find_eq_scanFind] at hfm
            rw [find_eq_scanFind]
            show scanFind (m.v_.set i (.occupied key nd)) k2
              (probePositions (m.v_.set i (.occupied key nd)).length
                (hash k2 % (m.v_.set i (.occupied key nd)).length)) = some j
            rw [hlen']
            exact scanFind_some_set m.v_ k2 _ j i (.occupied key nd) hfm hji
              (Or.inr ⟨key, nd, by rw [getD_set_self _ _ hilt], Ne.symm hk2⟩)
          | none =>
            rw [find_eq_scanFind]
            show scanFind (m.v_.set i (.occupied key nd)) k2
              (probePositions (m.v_.set i (.occupied key nd)).length
                (hash k2 % (m.v_.set i (.occupied key nd)).length)) = none
            rw [hlen']
            apply scanFind_none_of_no_occ
            intro p hp w2 hocc2
            by_cases hpi : p = i
            · subst hpi
              rw [getD_set_self _ _ hilt] at hocc2
              injection hocc2 with h1 h2
              exact hk2 h1.symm
            · rw [getD_set_ne _ _ (fun hh => hpi hh.symm)] at hocc2
              have := inv.findable p k2 w2 hocc2
              rw [hfm] at this
              exact Option.noConfusion this
      cases hslot : m.v_.getD i .unused with
      | occupied k0 w0 =>
        rw [hslot] at hnotocc
        exact absurd hnotocc (by simp [Slot.isOccupied])
      | unused =>
        refine ⟨i, ⟨m.size_ + 1, m.tombstones_, m.v_.set i (.occupied key nd)⟩, ?_,
          (hmain m.tombstones_).1, by simp, rfl, rfl, (hmain m.tombstones_).2.1,
          (hmain m.tombstones_).2.2⟩
        unfold iumap.try_emplace
        simp only [hfis, hslot]
      | tombstone =>
        refine ⟨i, ⟨m.size_ + 1, m.tombstones_ - 1, m.v_.set i (.occupied key nd)⟩, ?_,
          (hmain (m.tombstones_ - 1)).1, by simp, rfl, rfl, (hmain (m.tombstones_ - 1)).2.1,
          (hmain (m.tombstones_ - 1)).2.2⟩
        unfold iumap.try_emplace
        simp only [hfis, hslot]

theorem find_record_eq (hash : K → Nat) (s t : Nat) (v2 : List (Slot K M)) (k2 : K)
    (n : Nat) (hlen : v2.length = n) :
    iumap.find hash ⟨s, t, v2⟩ k2 = scanFind v2 k2 (probePositions n (hash k2 % n)) := by
  rw [find_eq_scanFind]
  show scanFind v2 k2 (probePositions v2.length (hash k2 % v2.length)) = _
  rw [hlen]

theorem erase_found_spec (hash : K → Nat) (m : iumap K M) (key : K) (i : Nat)
    (inv : TableInv hash m)
    (hfind : iumap.find hash m key = some i) :
    TableInv hash (iumap.erase m i) ∧
    (iumap.erase m i).v_.length = m.v_.length ∧
    (iumap.erase m i).size_ = m.size_ - 1 ∧
    iumap.find hash (iumap.erase m i) key = none ∧
    (∀ k2, k2 ≠ key → iumap.find hash (iumap.erase m i) k2 = iumap.find hash m k2) := by
  obtain ⟨w, hocc⟩ := find_some_occ hash m key i hfind
  have hilt : i < m.v_.length := getD_lt_length hocc
  have hcnt := countOccupied_set_tombstone m.v_ i hilt (by rw [hocc]; rfl)
  have hpos := countOccupied_pos hocc
  have hsize := inv.size
  obtain ⟨e, he⟩ := inv.pow
  by_cases hz : m.size_ - 1 = 0
  · -- the table became empty and is eagerly cleared
    have herase : iumap.erase m i =
        ⟨0, 0, (m.v_.set i .tombstone).map fun _ => .unused⟩ := by
      unfold iumap.erase
      simp only [hocc]
      rw [if_pos hz]
      rfl
    have hlen2 : ((m.v_.set i .tombstone).map fun _ => (Slot.unused : Slot K M)).length
        = m.v_.length := by simp
    rw [herase]
    refine ⟨⟨⟨e, by rw [hlen2, he]⟩, ?_, ?_⟩, hlen2, by simp [hz], ?_, ?_⟩
    · show 0 = countOccupied ((m.v_.set i .tombstone).map fun _ => .unused)
      rw [countOccupied_map_unused]
    · intro j k2 nd2 hj
      rw [getD_map_unused] at hj
      exact Slot.noConfusion hj
    · rw [find_record_eq hash _ _ _ _ m.v_.length hlen2]
      apply scanFind_none_of_no_occ
      intro p _ w2 hocc2
      rw [getD_map_unused] at hocc2
      exact Slot.noConfusion hocc2
    · intro k2 hk2
      have hfm : iumap.find hash m k2 = none := by
        cases hfm : iumap.find hash m k2 with
        | none => rfl
        | some j =>
          exfalso
          obtain ⟨w2, hocc2⟩ := find_some_occ hash m k2 j hfm
          have hji : j ≠ i := by
            intro hh
            subst hh
            rw [hocc] at hocc2
            injection hocc2 with h1 h2
            exact hk2 h1.symm
          have : 0 < countOccupied (m.v_.set i .tombstone) :=
            countOccupied_pos (i := j)
              (by rw [getD_set_ne _ _ (fun hh => hji hh.symm)]; exact hocc2)
          omega
      rw [hfm, find_record_eq hash _ _ _ _ m.v_.length hlen2]
      apply scanFind_none_of_no_occ
      intro p _ w2 hocc2
      rw [getD_map_unused] at hocc2
      exact Slot.noConfusion hocc2
  · -- ordinary tombstoning
    have herase : iumap.erase m i =
        ⟨m.size_ - 1, m.tombstones_ + 1, m.v_.set i .tombstone⟩ := by
      unfold iumap.erase
      simp only [hocc]
      rw [if_neg hz]
    have hlen2 : (m.v_.set i (Slot.tombstone : Slot K M)).length = m.v_.length := by simp
    rw [herase]
    refine ⟨⟨⟨e, by rw [hlen2, he]⟩, ?_, ?_⟩, hlen2, rfl, ?_, ?_⟩
    · show m.size_ - 1 = countOccupied (m.v_.set i .tombstone)
      omega
    · intro j k2 nd2 hj
      have hji : j ≠ i := by
        intro hh
        subst hh
        rw [getD_set_self _ _ hilt] at hj
        exact Slot.noConfusion hj
      rw [getD_set_ne _ _ (fun hh => hji hh.symm)] at hj
      have hfm := inv.findable j k2 nd2 hj
      rw [find_eq_scanFind] at hfm
      rw [find_record_eq hash _ _ _ _ m.v_.length hlen2]
      exact scanFind_some_set m.v_ k2 _ j i .tombstone hfm hji
        (Or.inl (getD_set_self _ _ hilt))
    · rw [find_record_eq hash _ _ _ _ m.v_.length hlen2]
      apply scanFind_none_of_no_occ
      intro p _ w2 hocc2
      by_cases hpi : p = i
      · subst hpi
        rw [getD_set_self _ _ hilt] at hocc2
        exact Slot.noConfusion hocc2
      · rw [getD_set_ne _ _ (fun hh => hpi hh.symm)] at hocc2
        have := inv.findable p key w2 hocc2
        rw [hfind] at this
        injection this with h1
        exact hpi h1.symm
    · intro k2 hk2
      cases hfm : iumap.find hash m k2 with
      | some j =>
        obtain ⟨w2, hocc2⟩ := find_some_occ hash m k2 j hfm
        have hji : j ≠ i := by
          intro hh
          subst hh
          rw [hocc] at hocc2
          injection hocc2 with h1 h2
          exact hk2 h1.symm
        rw [find_eq_scanFind] at hfm
        rw [find_record_eq hash _ _ _ _ m.v_.length hlen2]
        exact scanFind_some_set m.v_ k2 _ j i .tombstone hfm hji
          (Or.inl (getD_set_self _ _ hilt))
      | none =>
        rw [find_record_eq hash _ _ _ _ m.v_.length hlen2]
        apply scanFind_none_of_no_occ
        intro p _ w2 hocc2
        by_cases hpi : p = i
        · subst hpi
          rw [getD_set_self _ _ hilt] at hocc2
          exact Slot.noConfusion hocc2
        · rw [getD_set_ne _ _ (fun hh => hpi hh.symm)] at hocc2
          have := inv.findable p k2 w2 hocc2
          rw [hfm] at this
          exact Option.noConfusion this

end TableLemmas

/-! ### Chain segment lemmas -/

section SegLemmas

variable {V : Type}

theorem headOr_nil (nx : Option Nat) : headOr [] nx = nx := rfl

theorem headOr_cons (j : Nat) (xs : List Nat) (nx : Option Nat) :
    headOr (j :: xs) nx = some j := rfl

theorem endOr_nil (p : Option Nat) : endOr p [] = p := rfl

theorem endOr_cons (p : Option Nat) (x : Nat) (xs : List Nat) :
    endOr p (x :: xs) = endOr (some x) xs := by
  cases xs with
  | nil => rfl
  | cons y t =>
    show endOr p (x :: y :: t) = _
    unfold endOr
    rw [List.getLast?_cons_cons]
    rfl

theorem endOr_concat (p : Option Nat) (xs : List Nat) (x : Nat) :
    endOr p (xs ++ [x]) = some x := by
  unfold endOr
  rw [List.getLast?_concat]

theorem seg_nil (v : List (LruNode V)) (p nx : Option Nat) : seg v p [] nx := trivial

theorem seg_cons_iff (v : List (LruNode V)) (p nx : Option Nat) (i : Nat) (rest : List Nat) :
    seg v p (i :: rest) nx ↔
    (v.getD i dn).prev = p ∧ (v.getD i dn).next = headOr rest nx ∧
      seg v (some i) rest nx := Iff.rfl

theorem seg_congr (v w : List (LruNode V)) :
    ∀ (xs : List Nat) (p nx : Option Nat),
      (∀ i ∈ xs, w.getD i dn = v.getD i dn) → seg v p xs nx → seg w p xs nx := by
  intro xs
  induction xs with
  | nil => intro p nx _ _; exact trivial
  | cons i rest ih =>
    intro p nx hagree hseg
    obtain ⟨h1, h2, h3⟩ := hseg
    have hi := hagree i (List.mem_cons_self _ _)
    exact ⟨by rw [hi]; exact h1, by rw [hi]; exact h2,
      ih _ _ (fun j hj => hagree j (List.mem_cons_of_mem _ hj)) h3⟩

theorem seg_append_iff (v : List (LruNode V)) :
    ∀ (xs ys : List Nat) (p nx : Option Nat),
      seg v p (xs ++ ys) nx ↔
      seg v p xs (headOr ys nx) ∧ seg v (endOr p xs) ys nx := by
  intro xs
  induction xs with
  | nil =>
    intro ys p nx
    simp only [List.nil_append, endOr_nil]
    exact ⟨fun h => ⟨trivial, h⟩, fun h => h.2⟩
  | cons x xs' ih =>
    intro ys p nx
    rw [List.cons_append, seg_cons_iff, seg_cons_iff, endOr_cons]
    have hho : headOr (xs' ++ ys) nx = headOr xs' (headOr ys nx) := by
      cases xs' with
      | nil => cases ys <;> rfl
      | cons a t => rfl
    rw [hho, ih ys (some x) nx]
    tauto

theorem seg_snoc_iff (v : List (LruNode V)) (ys : List Nat) (x : Nat)
    (p nx : Option Nat) :
    seg v p (ys ++ [x]) nx ↔
    seg v p ys (some x) ∧ (v.getD x dn).prev = endOr p ys ∧
      (v.getD x dn).next = nx := by
  rw [seg_append_iff]
  constructor
  · rintro ⟨h1, h2, h3, -⟩
    exact ⟨h1, h2, h3⟩
  · rintro ⟨h1, h2, h3⟩
    exact ⟨h1, h2, h3, trivial⟩

end SegLemmas

/-! ### Recency-list operations under the list invariant -/

theorem add_lruInv_under {V : Type} {l : lru_list V} {order : List Nat} (x : V)
    (inv : LruInv l order) (hlt : l.size_ < l.v_.length) :
    ∃ l1, lru_list.add l x = some (l1, l.size_, none) ∧
      LruInv l1 (l.size_ :: order) ∧
      l1.size_ = l.size_ + 1 ∧ l1.v_.length = l.v_.length ∧
      (l1.v_.getD l.size_ dn).payload = some x ∧
      (∀ i, i ≠ l.size_ → (l1.v_.getD i dn).payload = (l.v_.getD i dn).payload) := by
  obtain ⟨l1, hadd, hsz, hlen, hfst, hlst, hself, hfacts, hframe⟩ := add_under_spec l x hlt
  have hs_not_mem : l.size_ ∉ order := fun hm => by
    have := (inv.mem_iff _).mp hm
    omega
  have hfirst_ne : l.first_ ≠ some l.size_ := by
    rw [inv.first]
    cases horder : order with
    | nil => simp
    | cons f rest =>
      simp only [List.head?_cons]
      intro hh
      injection hh with hh
      refine hs_not_mem ?_
      rw [horder, hh]
      exact List.mem_cons_self _ _
  obtain ⟨hpayx, hprevx, hnextx⟩ := hself hfirst_ne
  refine ⟨l1, hadd, ?_, hsz, hlen, hpayx, ?_⟩
  · refine ⟨?_, ?_, ?_, ?_, ?_, ?_, ?_, ?_⟩
    · rw [hsz, inv.size_eq]
      rfl
    · rw [hsz, hlen]
      omega
    · intro i
      rw [hsz]
      constructor
      · intro hm
        rcases List.mem_cons.mp hm with rfl | hm
        · omega
        · have := (inv.mem_iff i).mp hm
          omega
      · intro hi
        by_cases his : i = l.size_
        · rw [his]; exact List.mem_cons_self _ _
        · exact List.mem_cons_of_mem _ ((inv.mem_iff i).mpr (by omega))
    · exact List.nodup_cons.mpr ⟨hs_not_mem, inv.nodup⟩
    · rw [hfst]
      rfl
    · rw [hlst]
      cases horder : order with
      | nil =>
        have : l.last_ = none := by rw [inv.last, horder]; rfl
        rw [this]
        rfl
      | cons f rest =>
        have hl2 : l.last_ = (f :: rest).getLast? := by rw [inv.last, horder]
        have : ∃ t, (f :: rest).getLast? = some t := by
          cases hgl : (f :: rest).getLast? with
          | none => exact absurd hgl (by simp)
          | some t => exact ⟨t, rfl⟩
        obtain ⟨t, ht⟩ := this
        rw [hl2, ht]
        show some t = ((l.size_ :: f :: rest).getLast?)
        rw [List.getLast?_cons_cons]
        exact ht.symm
    · refine ⟨hprevx, ?_, ?_⟩
      · rw [hnextx, inv.first]
        cases order <;> rfl
      · cases horder : order with
        | nil => exact seg_nil _ _ _
        | cons f rest =>
          have hchain := inv.chain
          rw [horder] at hchain
          obtain ⟨hfp, hfn, hrest⟩ := hchain
          have hf_mem : f ∈ order := by rw [horder]; exact List.mem_cons_self _ _
          have hf_lt_s : f < l.size_ := (inv.mem_iff f).mp hf_mem
          have hf_lt : f < l.v_.length := by omega
          have hf_ne : f ≠ l.size_ := by omega
          have hffst : l.first_ = some f := by rw [inv.first, horder]; rfl
          obtain ⟨hfprev, hfnext, _⟩ := hfacts f hffst hf_lt hf_ne
          refine ⟨hfprev, by rw [hfnext]; exact hfn, ?_⟩
          refine seg_congr l.v_ l1.v_ rest (some f) none ?_ hrest
          intro i hi
          have hi_mem : i ∈ order := by rw [horder]; exact List.mem_cons_of_mem _ hi
          have hi_lt : i < l.size_ := (inv.mem_iff i).mp hi_mem
          have hif : i ≠ f := by
            rw [horder] at inv
            intro hh
            subst hh
            exact (List.nodup_cons.mp inv.nodup).1 hi
          refine hframe i (by omega) ?_
          rw [hffst]
          intro hh
          injection hh with hh
          exact hif hh.symm
    · intro i hi
      rcases List.mem_cons.mp hi with rfl | hi
      · exact ⟨x, hpayx⟩
      · obtain ⟨kv, hkv⟩ := inv.payload i hi
        have hi_lt : i < l.size_ := (inv.mem_iff i).mp hi
        refine ⟨kv, ?_⟩
        by_cases hif : l.first_ = some i
        · obtain ⟨-, -, hpp⟩ := hfacts i hif (by omega) (by omega)
          rw [hpp]
          exact hkv
        · rw [hframe i (by omega) hif]
          exact hkv
  · intro i his
    by_cases hif : l.first_ = some i
    · have hfmem : i ∈ order := by
        cases horder : order with
        | nil =>
          rw [inv.first, horder] at hif
          exact absurd hif (by simp)
        | cons f rest =>
          rw [inv.first, horder] at hif
          simp only [List.head?_cons] at hif
          injection hif with hif
          rw [← hif]
          exact List.mem_cons_self _ _
      have hi_lt : i < l.size_ := (inv.mem_iff i).mp hfmem
      obtain ⟨-, -, hpp⟩ := hfacts i hif (by omega) his
      exact hpp
    · rw [hframe i his hif]

theorem getLast?_mem_of_some {α : Type _} {l : List α} {a : α}
    (h : l.getLast? = some a) : a ∈ l := by
  induction l with
  | nil => exact Option.noConfusion h
  | cons b t ih =>
    cases t with
    | nil =>
      simp only [List.getLast?_singleton] at h
      injection h with h
      rw [h]
      exact List.mem_singleton_self _
    | cons c t' =>
      rw [List.getLast?_cons_cons] at h
      exact List.mem_cons_of_mem _ (ih h)

theorem getLast?_cons_ex {α : Type _} (a : α) :
    ∀ l : List α, ∃ b, (a :: l).getLast? = some b := by
  intro l
  induction l generalizing a with
  | nil => exact ⟨a, rfl⟩
  | cons c t ih =>
    rw [List.getLast?_cons_cons]
    exact ih c

theorem add_lruInv_full {V : Type} {l : lru_list V} {order : List Nat} (x : V)
    (inv : LruInv l order) (hge : l.v_.length ≤ l.size_) (h2 : 2 ≤ order.length) :
    ∃ l1 A t oldpay, order = A ++ [t] ∧ A ≠ [] ∧
      (l.v_.getD t dn).payload = some oldpay ∧
      lru_list.add l x = some (l1, t, some oldpay) ∧
      LruInv l1 (t :: A) ∧
      l1.size_ = l.size_ ∧ l1.v_.length = l.v_.length ∧
      (l1.v_.getD t dn).payload = some x ∧
      (∀ i, i ≠ t → (l1.v_.getD i dn).payload = (l.v_.getD i dn).payload) := by
  -- decompose the order as A ++ [t]
  rcases List.eq_nil_or_concat order with horder0 | ⟨A, t, horder⟩
  · rw [horder0] at h2; simp at h2
  rw [List.concat_eq_append] at horder
  have hAne : A ≠ [] := by
    intro hh
    rw [horder, hh] at h2
    simp at h2
  obtain ⟨f, A', hA⟩ : ∃ f A', A = f :: A' := by
    cases A with
    | nil => exact absurd rfl hAne
    | cons f A' => exact ⟨f, A', rfl⟩
  obtain ⟨p, hpA'⟩ := getLast?_cons_ex f A'
  have hpA : A.getLast? = some p := by rw [hA]; exact hpA' 
  have hpmem : p ∈ A := getLast?_mem_of_some hpA
  have hfmem : f ∈ A := by rw [hA]; exact List.mem_cons_self _ _
  have htmem : t ∈ order := by rw [horder]; simp
  have hnodup := inv.nodup
  rw [horder] at hnodup
  have htnA : t ∉ A := by
    have hdis := (List.nodup_append.mp hnodup).2.2
    intro hmem
    exact hdis hmem (List.mem_singleton_self _)
  have hAnodup : A.Nodup := (List.nodup_append.mp hnodup).1
  have htf : t ≠ f := fun hh => htnA (hh ▸ hfmem)
  have htp : t ≠ p := fun hh => htnA (hh ▸ hpmem)
  have hmemlt : ∀ i ∈ order, i < l.v_.length := by
    intro i hi
    have := (inv.mem_iff i).mp hi
    have := inv.size_le
    omega
  have htlt : t < l.v_.length := hmemlt t htmem
  have hflt : f < l.v_.length := hmemlt f (by rw [horder]; exact List.mem_append_left _ hfmem)
  have hplt : p < l.v_.length := hmemlt p (by rw [horder]; exact List.mem_append_left _ hpmem)
  have hf : l.first_ = some f := by
    rw [inv.first, horder, hA]
    rfl
  have ht : l.last_ = some t := by
    rw [inv.last, horder, List.getLast?_concat]
  -- chain decomposition
  have hchain := inv.chain
  rw [horder] at hchain
  rw [seg_snoc_iff] at hchain
  obtain ⟨hsegA, htprev, htnext⟩ := hchain
  have hendA : endOr none A = some p := by
    unfold endOr
    rw [hpA]
  rw [hendA] at htprev
  obtain ⟨oldpay, hpayt⟩ := inv.payload t htmem
  obtain ⟨l1, hadd, hsz, hlen, hfst, hlst, hpayx, htprev1, htnext1, hpnext1, hppay1,
    hpprev1, hfprev1, hfpay1, hfnext1, hframe1⟩ :=
    add_full_spec l x hge hf ht hpayt htprev htf htp hflt hplt
  have hpayframe : ∀ i, i ≠ t → (l1.v_.getD i dn).payload = (l.v_.getD i dn).payload := by
    intro i hit
    by_cases hip : i = p
    · rw [hip]; exact hppay1
    · by_cases hif : i = f
      · rw [hif]; exact hfpay1
      · rw [hframe1 i hit hip hif]
  refine ⟨l1, A, t, oldpay, horder, hAne, hpayt, hadd, ?_, hsz, hlen, hpayx, hpayframe⟩
  have horderlen : order.length = A.length + 1 := by rw [horder]; simp
  refine ⟨?_, ?_, ?_, ?_, ?_, ?_, ?_, ?_⟩
  · rw [hsz, inv.size_eq, horderlen]
    rfl
  · rw [hsz, hlen]
    exact inv.size_le
  · intro i
    rw [hsz, ← inv.mem_iff i, horder]
    simp only [List.mem_cons, List.mem_append, List.mem_singleton]
    tauto
  · exact List.nodup_cons.mpr ⟨htnA, hAnodup⟩
  · rw [hfst]
    rfl
  · rw [hlst]
    rw [hA]
    cases A' with
    | nil =>
      rw [hA] at hpA
      simp only [List.getLast?_singleton] at hpA
      injection hpA with hpA
      show some p = (t :: [f]).getLast?
      rw [List.getLast?_cons_cons, hpA]
      rfl
    | cons a2 A'' =>
      show some p = (t :: f :: a2 :: A'').getLast?
      rw [List.getLast?_cons_cons]
      rw [hA] at hpA
      rw [← hpA]
  · -- the chain: t :: A
    rw [hA]
    refine ⟨htprev1, by rw [htnext1]; rfl, ?_⟩
    rw [hA] at hsegA
    obtain ⟨hfp, hfn, hsegA'⟩ := hsegA
    cases hA' : A' with
    | nil =>
      -- A = [f], p = f
      have hpf : p = f := by
        rw [hA, hA'] at hpA
        simp only [List.getLast?_singleton] at hpA
        injection hpA with hpA
        exact hpA.symm
      refine ⟨hfprev1, ?_, seg_nil _ _ _⟩
      rw [← hpf]
      exact hpnext1
    | cons a2 A'' =>
      -- A' is nonempty, so p is its last element and differs from f
      have hplastA' : (a2 :: A'').getLast? = some p := by
        rw [hA, hA'] at hpA
        rw [List.getLast?_cons_cons] at hpA
        exact hpA
      have hpmemA' : p ∈ a2 :: A'' := getLast?_mem_of_some hplastA'
      have hfnotA' : f ∉ a2 :: A'' := by
        rw [hA, hA'] at hAnodup
        exact (List.nodup_cons.mp hAnodup).1
      have hpfne : p ≠ f := fun hh => hfnotA' (hh ▸ hpmemA')
      rw [hA'] at hsegA' hfn
      refine ⟨hfprev1, ?_, ?_⟩
      · rw [hfnext1 (Ne.symm hpfne), hfn]
        rfl
      · -- rebuild the chain over A' = ys ++ [p]
        rcases List.eq_nil_or_concat (a2 :: A'') with hcon | ⟨ys, p2, hys⟩
        · exact absurd hcon (by simp)
        rw [List.concat_eq_append] at hys
        have hp2 : p2 = p := by
          rw [hys, List.getLast?_concat] at hplastA'
          exact Option.some.inj hplastA' 
        rw [hp2] at hys
        rw [hys]
        rw [hys] at hsegA'
        rw [seg_snoc_iff] at hsegA'
        obtain ⟨hsegys, hpprev_old, hpnext_old⟩ := hsegA'
        rw [seg_snoc_iff]
        have hysnodupA : (ys ++ [p]).Nodup := by
          rw [hA, hA', hys] at hAnodup
          exact (List.nodup_cons.mp hAnodup).2
        refine ⟨?_, ?_, hpnext1⟩
        · refine seg_congr l.v_ l1.v_ ys (some f) (some p) ?_ hsegys
          intro i hi
          have hiA : i ∈ A := by
            rw [hA, hA', hys]
            exact List.mem_cons_of_mem _ (List.mem_append_left _ hi)
          have hit : i ≠ t := fun hh => htnA (hh ▸ hiA)
          have hip : i ≠ p := by
            intro hh
            subst hh
            exact (List.disjoint_of_nodup_append hysnodupA) hi
              (List.mem_singleton_self _)
          have hif : i ≠ f := by
            intro hh
            subst hh
            exact hfnotA' (by rw [hys]; exact List.mem_append_left _ hi)
          rw [hframe1 i hit hip hif]
        · rw [hpprev1 (Ne.symm hpfne), hpprev_old]
  · intro i hi
    rcases List.mem_cons.mp hi with rfl | hiA
    · exact ⟨x, hpayx⟩
    · have hit : i ≠ t := fun hh => htnA (hh ▸ hiA)
      obtain ⟨kv, hkv⟩ := inv.payload i (by rw [horder]; exact List.mem_append_left _ hiA)
      exact ⟨kv, by rw [hpayframe i hit]; exact hkv⟩

theorem getLast?_append_right {α : Type _} (xs ys : List α) (hys : ys ≠ []) :
    (xs ++ ys).getLast? = ys.getLast? := by
  rcases List.eq_nil_or_concat ys with h | ⟨zs, z, h⟩
  · exact absurd h hys
  · rw [List.concat_eq_append] at h
    subst h
    rw [← List.append_assoc, List.getLast?_concat, List.getLast?_concat]

set_option maxHeartbeats 1600000 in
theorem touch_lruInv {V : Type} {l : lru_list V} {order : List Nat} {n : Nat}
    (inv : LruInv l order) (hmem : n ∈ order) :
    ∃ l1, lru_list.touch l n = some l1 ∧
      LruInv l1 (n :: order.erase n) ∧
      l1.size_ = l.size_ ∧ l1.v_.length = l.v_.length ∧
      ∀ i, (l1.v_.getD i dn).payload = (l.v_.getD i dn).payload := by
  obtain ⟨f0, tl0, horder0⟩ : ∃ f0 tl0, order = f0 :: tl0 := by
    cases horder0 : order with
    | nil => rw [horder0] at hmem; simp at hmem
    | cons f0 tl0 => exact ⟨f0, tl0, rfl⟩
  have hf0 : l.first_ = some f0 := by rw [inv.first, horder0]; rfl
  obtain ⟨t0, ht0⟩ := getLast?_cons_ex f0 tl0
  have ht : l.last_ = some t0 := by rw [inv.last, horder0]; exact ht0
  by_cases hfn0 : f0 = n
  · subst hfn0
    have htc : lru_list.touch l f0 = some l := by
      unfold lru_list.touch
      simp only [hf0, ht]
      rw [if_pos trivial]
    refine ⟨l, htc, ?_, rfl, rfl, fun i => rfl⟩
    have herase : order.erase f0 = tl0 := by
      rw [horder0]
      exact List.erase_cons_head ..
    rw [herase, ← horder0]
    exact inv
  · obtain ⟨A, B, horder⟩ := List.append_of_mem hmem
    have hAne : A ≠ [] := by
      intro hh
      rw [hh, List.nil_append] at horder
      rw [horder] at horder0
      injection horder0 with h1 h2
      exact hfn0 h1.symm
    obtain ⟨f, A', hA⟩ : ∃ f A', A = f :: A' := by
      cases A with
      | nil => exact absurd rfl hAne
      | cons f A' => exact ⟨f, A', rfl⟩
    have hf : l.first_ = some f := by
      rw [inv.first, horder, hA]
      rfl
    have hfn : f ≠ n := by
      have hff0 : f = f0 := Option.some.inj (hf.symm.trans hf0)
      rw [hff0]
      exact hfn0
    have hnodup := inv.nodup
    rw [horder] at hnodup
    have hnodA := (List.nodup_append.mp hnodup).1
    have hnodNB := (List.nodup_append.mp hnodup).2.1
    have hdisAB := (List.nodup_append.mp hnodup).2.2
    have hnA : n ∉ A := fun hh => hdisAB hh (List.mem_cons_self _ _)
    have hnB : n ∉ B := (List.nodup_cons.mp hnodNB).1
    have hchain := inv.chain
    rw [horder, seg_append_iff] at hchain
    obtain ⟨hsegA, hsegNB⟩ := hchain
    obtain ⟨p, hpA'⟩ := getLast?_cons_ex f A'
    have hpA : A.getLast? = some p := by rw [hA]; exact hpA'
    have hend : endOr none A = some p := by unfold endOr; rw [hpA]
    rw [hend, seg_cons_iff] at hsegNB
    obtain ⟨hprev_n, hnext_n, hsegB⟩ := hsegNB
    have hpmem : p ∈ A := getLast?_mem_of_some hpA
    have hfmem : f ∈ A := by rw [hA]; exact List.mem_cons_self _ _
    have hpn : p ≠ n := fun hh => hnA (hh ▸ hpmem)
    have hmemlt : ∀ i ∈ order, i < l.v_.length := by
      intro i hi
      have h1 := (inv.mem_iff i).mp hi
      have h2 := inv.size_le
      omega
    have hnlt : n < l.v_.length := hmemlt n hmem
    have hflt : f < l.v_.length := hmemlt f (by rw [horder]; exact List.mem_append_left _ hfmem)
    have hplt : p < l.v_.length := hmemlt p (by rw [horder]; exact List.mem_append_left _ hpmem)
    have herase : order.erase n = A ++ B := by
      rw [horder, List.erase_append_right _ hnA, List.erase_cons_head]
    have hsegA' : seg l.v_ none A (some n) := hsegA
    rw [hA, seg_cons_iff] at hsegA'
    obtain ⟨hfprev_old, hfnext_old, hsegA2⟩ := hsegA'
    cases B with
    | nil =>
      have hnext_n' : (l.v_.getD n dn).next = none := hnext_n
      have hlast_n : l.last_ = some n := by
        rw [inv.last, horder, List.getLast?_concat]
      have htc : lru_list.touch l n = some { first_ := some n, last_ := some p, size_ := l.size_, v_ := (((l.v_.set p { l.v_.getD p dn with next := none }).set n { (l.v_.set p { l.v_.getD p dn with next := none }).getD n dn with prev := none, next := some f }).set f { ((l.v_.set p { l.v_.getD p dn with next := none }).set n { (l.v_.set p { l.v_.getD p dn with next := none }).getD n dn with prev := none, next := some f }).getD f dn with prev := some n }) } := by
        unfold lru_list.touch
        simp only [hf, hlast_n, hnext_n', hprev_n]
        rw [if_neg hfn, if_pos trivial]
      obtain ⟨hsz, hlen, hpay⟩ := touch_payload htc
      refine ⟨_, htc, ?_, hsz, hlen, hpay⟩
      rw [herase, List.append_nil]
      have hW1len : ((l.v_.set p { l.v_.getD p dn with next := none }) : List (LruNode V)).length = l.v_.length := by simp
      have hW2len : (((l.v_.set p { l.v_.getD p dn with next := none }).set n { (l.v_.set p { l.v_.getD p dn with next := none }).getD n dn with prev := none, next := some f }) : List (LruNode V)).length = l.v_.length := by simp
      have hgn : (((((l.v_.set p { l.v_.getD p dn with next := none }).set n { (l.v_.set p { l.v_.getD p dn with next := none }).getD n dn with prev := none, next := some f }).set f { ((l.v_.set p { l.v_.getD p dn with next := none }).set n { (l.v_.set p { l.v_.getD p dn with next := none }).getD n dn with prev := none, next := some f }).getD f dn with prev := some n }) : List (LruNode V)).getD n dn).prev = none ∧
          ((((l.v_.set p { l.v_.getD p dn with next := none }).set n { (l.v_.set p { l.v_.getD p dn with next := none }).getD n dn with prev := none, next := some f }).set f { ((l.v_.set p { l.v_.getD p dn with next := none }).set n { (l.v_.set p { l.v_.getD p dn with next := none }).getD n dn with prev := none, next := some f }).getD f dn with prev := some n }).getD n dn).next = some f := by
        rw [getD_set_ne _ _ hfn, getD_set_self _ _ (by rw [hW1len]; exact hnlt)]
        exact ⟨rfl, rfl⟩
      have hgf : (((((l.v_.set p { l.v_.getD p dn with next := none }).set n { (l.v_.set p { l.v_.getD p dn with next := none }).getD n dn with prev := none, next := some f }).set f { ((l.v_.set p { l.v_.getD p dn with next := none }).set n { (l.v_.set p { l.v_.getD p dn with next := none }).getD n dn with prev := none, next := some f }).getD f dn with prev := some n }) : List (LruNode V)).getD f dn).prev = some n ∧
          ((((l.v_.set p { l.v_.getD p dn with next := none }).set n { (l.v_.set p { l.v_.getD p dn with next := none }).getD n dn with prev := none, next := some f }).set f { ((l.v_.set p { l.v_.getD p dn with next := none }).set n { (l.v_.set p { l.v_.getD p dn with next := none }).getD n dn with prev := none, next := some f }).getD f dn with prev := some n }).getD f dn).next = (((l.v_.set p { l.v_.getD p dn with next := none }).set n { (l.v_.set p { l.v_.getD p dn with next := none }).getD n dn with prev := none, next := some f }).getD f dn).next := by
        rw [getD_set_self _ _ (by rw [hW2len]; exact hflt)]
        exact ⟨rfl, rfl⟩
      have hgp_ne : p ≠ f → ((((l.v_.set p { l.v_.getD p dn with next := none }).set n { (l.v_.set p { l.v_.getD p dn with next := none }).getD n dn with prev := none, next := some f }).set f { ((l.v_.set p { l.v_.getD p dn with next := none }).set n { (l.v_.set p { l.v_.getD p dn with next := none }).getD n dn with prev := none, next := some f }).getD f dn with prev := some n }) : List (LruNode V)).getD p dn =
          { l.v_.getD p dn with next := none } := by
        intro hpf
        rw [getD_set_ne _ _ (fun hh => hpf hh.symm), getD_set_ne _ _ (Ne.symm hpn),
          getD_set_self _ _ hplt]
      have hframe : ∀ j, j ≠ n → j ≠ f → j ≠ p →
          ((((l.v_.set p { l.v_.getD p dn with next := none }).set n { (l.v_.set p { l.v_.getD p dn with next := none }).getD n dn with prev := none, next := some f }).set f { ((l.v_.set p { l.v_.getD p dn with next := none }).set n { (l.v_.set p { l.v_.getD p dn with next := none }).getD n dn with prev := none, next := some f }).getD f dn with prev := some n }) : List (LruNode V)).getD j dn = l.v_.getD j dn := by
        intro j hjn hjf hjp
        rw [getD_set_ne _ _ (Ne.symm hjf), getD_set_ne _ _ (Ne.symm hjn),
          getD_set_ne _ _ (Ne.symm hjp)]
      refine ⟨?_, ?_, ?_, ?_, rfl, ?_, ?_, ?_⟩
      · rw [hsz, inv.size_eq, horder]
        simp
      · rw [hsz, hlen]
        exact inv.size_le
      · intro i
        rw [hsz, ← inv.mem_iff i, horder]
        simp only [List.mem_cons, List.mem_append, List.mem_singleton, List.mem_nil_iff]
        tauto
      · exact List.nodup_cons.mpr ⟨hnA, hnodA⟩
      · show some p = (n :: A).getLast?
        rw [hA, List.getLast?_cons_cons, hpA']
      · dsimp only
        rw [hA, seg_cons_iff]
        refine ⟨hgn.1, by rw [hgn.2, headOr_cons], ?_⟩
        cases hA2 : A' with
        | nil =>
          rw [hA2] at hpA'
          have hpf : p = f := by
            simp only [List.getLast?_singleton] at hpA'
            exact (Option.some.inj hpA').symm
          subst hpf
          rw [seg_cons_iff]
          refine ⟨hgf.1, ?_, seg_nil _ _ _⟩
          rw [hgf.2, getD_set_ne _ _ (Ne.symm hfn), getD_set_self _ _ hplt, headOr_nil]
        | cons a2 A'' =>
          rw [hA2] at hpA' hfnext_old hsegA2
          have hnodA' := hnodA
          rw [hA, hA2] at hnodA'
          have hfnot' : f ∉ a2 :: A'' := (List.nodup_cons.mp hnodA').1
          have htail_nodup : (a2 :: A'').Nodup := (List.nodup_cons.mp hnodA').2
          rw [List.getLast?_cons_cons] at hpA'
          have hpmem' : p ∈ a2 :: A'' := getLast?_mem_of_some hpA'
          have hpf : p ≠ f := fun hh => hfnot' (hh ▸ hpmem')
          rw [seg_cons_iff]
          refine ⟨hgf.1, ?_, ?_⟩
          · rw [hgf.2, getD_set_ne _ _ (Ne.symm hfn), getD_set_ne _ _ hpf, hfnext_old]
            simp only [headOr_cons]
          · rcases List.eq_nil_or_concat (a2 :: A'') with hcon | ⟨ys, p2, hys⟩
            · exact absurd hcon (by simp)
            rw [List.concat_eq_append] at hys
            have hp2 : p2 = p := by
              rw [hys, List.getLast?_concat] at hpA'
              exact Option.some.inj hpA'
            rw [hp2] at hys
            rw [hys]
            rw [hys] at hsegA2 htail_nodup
            rw [seg_snoc_iff] at hsegA2 ⊢
            obtain ⟨hsegys, hpprev_old, hpnext_old⟩ := hsegA2
            refine ⟨?_, ?_, ?_⟩
            · refine seg_congr l.v_ _ ys (some f) (some p) ?_ hsegys
              intro i hi
              have hiA : i ∈ A := by
                rw [hA, hA2, hys]
                exact List.mem_cons_of_mem _ (List.mem_append_left _ hi)
              have hin : i ≠ n := fun hh => hnA (hh ▸ hiA)
              have hip : i ≠ p := fun hh =>
                (List.disjoint_of_nodup_append htail_nodup) (hh ▸ hi)
                  (List.mem_singleton_self _)
              have hif : i ≠ f := fun hh =>
                hfnot' (hh ▸ (by rw [hys]; exact List.mem_append_left _ hi : i ∈ a2 :: A''))
              exact hframe i hin hif hip
            · rw [hgp_ne hpf]
              exact hpprev_old
            · rw [hgp_ne hpf]
      · intro i hi
        have hio : i ∈ order := by
          rcases List.mem_cons.mp hi with rfl | hiA
          · exact hmem
          · rw [horder]
            exact List.mem_append_left _ hiA
        obtain ⟨kv, hkv⟩ := inv.payload i hio
        exact ⟨kv, by rw [hpay]; exact hkv⟩
    | cons b B' =>
      have hnext_n' : (l.v_.getD n dn).next = some b := hnext_n
      obtain ⟨tB, htB'⟩ := getLast?_cons_ex b B'
      have hlastB : l.last_ = some tB := by
        rw [inv.last, horder, getLast?_append_right A (n :: b :: B') (by simp),
          List.getLast?_cons_cons]
        exact htB'
      have htBmem : tB ∈ b :: B' := getLast?_mem_of_some htB'
      have htBn : tB ≠ n := by
        intro hh
        subst hh
        exact hnB htBmem
      have hlast_ne : ¬ (l.last_ = some n) := by
        rw [hlastB]
        intro hh
        exact htBn (Option.some.inj hh)
      have hbB : b ∈ b :: B' := List.mem_cons_self _ _
      have hbn : b ≠ n := fun hh => hnB (hh ▸ hbB)
      have hbA : b ∉ A := fun hh => hdisAB hh (List.mem_cons_of_mem _ hbB)
      have hbp : b ≠ p := fun hh => hbA (hh ▸ hpmem)
      have hbf : b ≠ f := fun hh => hbA (hh ▸ hfmem)
      have hblt : b < l.v_.length := hmemlt b (by
        rw [horder]
        exact List.mem_append_right _ (List.mem_cons_of_mem _ hbB))
      have hnodB : (b :: B').Nodup := (List.nodup_cons.mp hnodNB).2
      have hbB' : b ∉ B' := (List.nodup_cons.mp hnodB).1
      rw [seg_cons_iff] at hsegB
      obtain ⟨hbprev_old, hbnext_old, hsegB'⟩ := hsegB
      have hv1prev : (((l.v_.set b { l.v_.getD b dn with prev := some p }) : List (LruNode V)).getD n dn).prev = some p := by
        rw [getD_set_ne _ _ hbn]
        exact hprev_n
      have hv1next : (((l.v_.set b { l.v_.getD b dn with prev := some p }) : List (LruNode V)).getD n dn).next = some b := by
        rw [getD_set_ne _ _ hbn]
        exact hnext_n'
      have htc : lru_list.touch l n = some { first_ := some n, last_ := l.last_, size_ := l.size_, v_ := ((((l.v_.set b { l.v_.getD b dn with prev := some p }).set p { (l.v_.set b { l.v_.getD b dn with prev := some p }).getD p dn with next := some b }).set n { ((l.v_.set b { l.v_.getD b dn with prev := some p }).set p { (l.v_.set b { l.v_.getD b dn with prev := some p }).getD p dn with next := some b }).getD n dn with prev := none, next := some f }).set f { (((l.v_.set b { l.v_.getD b dn with prev := some p }).set p { (l.v_.set b { l.v_.getD b dn with prev := some p }).getD p dn with next := some b }).set n { ((l.v_.set b { l.v_.getD b dn with prev := some p }).set p { (l.v_.set b { l.v_.getD b dn with prev := some p }).getD p dn with next := some b }).getD n dn with prev := none, next := some f }).getD f dn with prev := some n }) } := by
        unfold lru_list.touch
        simp only [hf, hlastB, hnext_n', hprev_n, hv1prev, hv1next]
        rw [if_neg hfn, if_neg (by rw [← hlastB]; exact hlast_ne)]
      obtain ⟨hsz, hlen, hpay⟩ := touch_payload htc
      refine ⟨_, htc, ?_, hsz, hlen, hpay⟩
      rw [herase]
      have hW0len : ((l.v_.set b { l.v_.getD b dn with prev := some p }) : List (LruNode V)).length = l.v_.length := by simp
      have hW1len : (((l.v_.set b { l.v_.getD b dn with prev := some p }).set p { (l.v_.set b { l.v_.getD b dn with prev := some p }).getD p dn with next := some b }) : List (LruNode V)).length = l.v_.length := by simp
      have hW2len : ((((l.v_.set b { l.v_.getD b dn with prev := some p }).set p { (l.v_.set b { l.v_.getD b dn with prev := some p }).getD p dn with next := some b }).set n { ((l.v_.set b { l.v_.getD b dn with prev := some p }).set p { (l.v_.set b { l.v_.getD b dn with prev := some p }).getD p dn with next := some b }).getD n dn with prev := none, next := some f }) : List (LruNode V)).length = l.v_.length := by simp
      have hgn : ((((((l.v_.set b { l.v_.getD b dn with prev := some p }).set p { (l.v_.set b { l.v_.getD b dn with prev := some p }).getD p dn with next := some b }).set n { ((l.v_.set b { l.v_.getD b dn with prev := some p }).set p { (l.v_.set b { l.v_.getD b dn with prev := some p }).getD p dn with next := some b }).getD n dn with prev := none, next := some f }).set f { (((l.v_.set b { l.v_.getD b dn with prev := some p }).set p { (l.v_.set b { l.v_.getD b dn with prev := some p }).getD p dn with next := some b }).set n { ((l.v_.set b { l.v_.getD b dn with prev := some p }).set p { (l.v_.set b { l.v_.getD b dn with prev := some p }).getD p dn with next := some b }).getD n dn with prev := none, next := some f }).getD f dn with prev := some n }) : List (LruNode V)).getD n dn).prev = none ∧
          (((((l.v_.set b { l.v_.getD b dn with prev := some p }).set p { (l.v_.set b { l.v_.getD b dn with prev := some p }).getD p dn with next := some b }).set n { ((l.v_.set b { l.v_.getD b dn with prev := some p }).set p { (l.v_.set b { l.v_.getD b dn with prev := some p }).getD p dn with next := some b }).getD n dn with prev := none, next := some f }).set f { (((l.v_.set b { l.v_.getD b dn with prev := some p }).set p { (l.v_.set b { l.v_.getD b dn with prev := some p }).getD p dn with next := some b }).set n { ((l.v_.set b { l.v_.getD b dn with prev := some p }).set p { (l.v_.set b { l.v_.getD b dn with prev := some p }).getD p dn with next := some b }).getD n dn with prev := none, next := some f }).getD f dn with prev := some n }).getD n dn).next = some f := by
        rw [getD_set_ne _ _ hfn, getD_set_self _ _ (by rw [hW1len]; exact hnlt)]
        exact ⟨rfl, rfl⟩
      have hgf : ((((((l.v_.set b { l.v_.getD b dn with prev := some p }).set p { (l.v_.set b { l.v_.getD b dn with prev := some p }).getD p dn with next := some b }).set n { ((l.v_.set b { l.v_.getD b dn with prev := some p }).set p { (l.v_.set b { l.v_.getD b dn with prev := some p }).getD p dn with next := some b }).getD n dn with prev := none, next := some f }).set f { (((l.v_.set b { l.v_.getD b dn with prev := some p }).set p { (l.v_.set b { l.v_.getD b dn with prev := some p }).getD p dn with next := some b }).set n { ((l.v_.set b { l.v_.getD b dn with prev := some p }).set p { (l.v_.set b { l.v_.getD b dn with prev := some p }).getD p dn with next := some b }).getD n dn with prev := none, next := some f }).getD f dn with prev := some n }) : List (LruNode V)).getD f dn).prev = some n ∧
          (((((l.v_.set b { l.v_.getD b dn with prev := some p }).set p { (l.v_.set b { l.v_.getD b dn with prev := some p }).getD p dn with next := some b }).set n { ((l.v_.set b { l.v_.getD b dn with prev := some p }).set p { (l.v_.set b { l.v_.getD b dn with prev := some p }).getD p dn with next := some b }).getD n dn with prev := none, next := some f }).set f { (((l.v_.set b { l.v_.getD b dn with prev := some p }).set p { (l.v_.set b { l.v_.getD b dn with prev := some p }).getD p dn with next := some b }).set n { ((l.v_.set b { l.v_.getD b dn with prev := some p }).set p { (l.v_.set b { l.v_.getD b dn with prev := some p }).getD p dn with next := some b }).getD n dn with prev := none, next := some f }).getD f dn with prev := some n }).getD f dn).next = ((((l.v_.set b { l.v_.getD b dn with prev := some p }).set p { (l.v_.set b { l.v_.getD b dn with prev := some p }).getD p dn with next := some b }).set n { ((l.v_.set b { l.v_.getD b dn with prev := some p }).set p { (l.v_.set b { l.v_.getD b dn with prev := some p }).getD p dn with next := some b }).getD n dn with prev := none, next := some f }).getD f dn).next := by
        rw [getD_set_self _ _ (by rw [hW2len]; exact hflt)]
        exact ⟨rfl, rfl⟩
      have hgp_ne : p ≠ f → (((((l.v_.set b { l.v_.getD b dn with prev := some p }).set p { (l.v_.set b { l.v_.getD b dn with prev := some p }).getD p dn with next := some b }).set n { ((l.v_.set b { l.v_.getD b dn with prev := some p }).set p { (l.v_.set b { l.v_.getD b dn with prev := some p }).getD p dn with next := some b }).getD n dn with prev := none, next := some f }).set f { (((l.v_.set b { l.v_.getD b dn with prev := some p }).set p { (l.v_.set b { l.v_.getD b dn with prev := some p }).getD p dn with next := some b }).set n { ((l.v_.set b { l.v_.getD b dn with prev := some p }).set p { (l.v_.set b { l.v_.getD b dn with prev := some p }).getD p dn with next := some b }).getD n dn with prev := none, next := some f }).getD f dn with prev := some n }) : List (LruNode V)).getD p dn =
          { (l.v_.set b { l.v_.getD b dn with prev := some p }).getD p dn with next := some b } := by
        intro hpf
        rw [getD_set_ne _ _ (fun hh => hpf hh.symm), getD_set_ne _ _ (Ne.symm hpn),
          getD_set_self _ _ (by rw [hW0len]; exact hplt)]
      have hgb : (((((l.v_.set b { l.v_.getD b dn with prev := some p }).set p { (l.v_.set b { l.v_.getD b dn with prev := some p }).getD p dn with next := some b }).set n { ((l.v_.set b { l.v_.getD b dn with prev := some p }).set p { (l.v_.set b { l.v_.getD b dn with prev := some p }).getD p dn with next := some b }).getD n dn with prev := none, next := some f }).set f { (((l.v_.set b { l.v_.getD b dn with prev := some p }).set p { (l.v_.set b { l.v_.getD b dn with prev := some p }).getD p dn with next := some b }).set n { ((l.v_.set b { l.v_.getD b dn with prev := some p }).set p { (l.v_.set b { l.v_.getD b dn with prev := some p }).getD p dn with next := some b }).getD n dn with prev := none, next := some f }).getD f dn with prev := some n }) : List (LruNode V)).getD b dn =
          { l.v_.getD b dn with prev := some p } := by
        rw [getD_set_ne _ _ (fun hh => hbf hh.symm), getD_set_ne _ _ (Ne.symm hbn),
          getD_set_ne _ _ (fun hh => hbp hh.symm), getD_set_self _ _ hblt]
      have hframe : ∀ j, j ≠ n → j ≠ f → j ≠ p → j ≠ b →
          (((((l.v_.set b { l.v_.getD b dn with prev := some p }).set p { (l.v_.set b { l.v_.getD b dn with prev := some p }).getD p dn with next := some b }).set n { ((l.v_.set b { l.v_.getD b dn with prev := some p }).set p { (l.v_.set b { l.v_.getD b dn with prev := some p }).getD p dn with next := some b }).getD n dn with prev := none, next := some f }).set f { (((l.v_.set b { l.v_.getD b dn with prev := some p }).set p { (l.v_.set b { l.v_.getD b dn with prev := some p }).getD p dn with next := some b }).set n { ((l.v_.set b { l.v_.getD b dn with prev := some p }).set p { (l.v_.set b { l.v_.getD b dn with prev := some p }).getD p dn with next := some b }).getD n dn with prev := none, next := some f }).getD f dn with prev := some n }) : List (LruNode V)).getD j dn = l.v_.getD j dn := by
        intro j hjn hjf hjp hjb
        rw [getD_set_ne _ _ (Ne.symm hjf), getD_set_ne _ _ (Ne.symm hjn),
          getD_set_ne _ _ (Ne.symm hjp), getD_set_ne _ _ (Ne.symm hjb)]
      refine ⟨?_, ?_, ?_, ?_, rfl, ?_, ?_, ?_⟩
      · rw [hsz, inv.size_eq, horder]
        simp only [List.length_append, List.length_cons]
        omega
      · rw [hsz, hlen]
        exact inv.size_le
      · intro i
        rw [hsz, ← inv.mem_iff i, horder]
        simp only [List.mem_cons, List.mem_append]
        tauto
      · refine List.nodup_cons.mpr ⟨?_, ?_⟩
        · intro hh
          rcases List.mem_append.mp hh with hh | hh
          · exact hnA hh
          · exact hnB hh
        · refine List.Nodup.append hnodA hnodB ?_
          intro a haA haB
          exact hdisAB haA (List.mem_cons_of_mem _ haB)
      · show l.last_ = (n :: (A ++ b :: B')).getLast?
        rw [hlastB, ← List.cons_append, getLast?_append_right _ _ (by simp), htB']
      · dsimp only
        rw [seg_cons_iff]
        refine ⟨hgn.1, by rw [hgn.2, hA]; rfl, ?_⟩
        rw [seg_append_iff, headOr_cons]
        have hend2 : endOr (some n) A = some p := by unfold endOr; rw [hpA]
        rw [hend2]
        constructor
        · rw [hA]
          cases hA2 : A' with
          | nil =>
            rw [hA2] at hpA'
            have hpf : p = f := by
              simp only [List.getLast?_singleton] at hpA'
              exact (Option.some.inj hpA').symm
            subst hpf
            rw [seg_cons_iff]
            refine ⟨hgf.1, ?_, seg_nil _ _ _⟩
            rw [hgf.2, getD_set_ne _ _ (Ne.symm hfn),
              getD_set_self _ _ (by rw [hW0len]; exact hplt), headOr_nil]
          | cons a2 A'' =>
            rw [hA2] at hpA' hfnext_old hsegA2
            have hnodA' := hnodA
            rw [hA, hA2] at hnodA'
            have hfnot' : f ∉ a2 :: A'' := (List.nodup_cons.mp hnodA').1
            have htail_nodup : (a2 :: A'').Nodup := (List.nodup_cons.mp hnodA').2
            rw [List.getLast?_cons_cons] at hpA'
            have hpmem' : p ∈ a2 :: A'' := getLast?_mem_of_some hpA'
            have hpf : p ≠ f := fun hh => hfnot' (hh ▸ hpmem')
            rw [seg_cons_iff]
            refine ⟨hgf.1, ?_, ?_⟩
            · rw [hgf.2, getD_set_ne _ _ (Ne.symm hfn), getD_set_ne _ _ hpf,
                getD_set_ne _ _ hbf, hfnext_old]
              simp only [headOr_cons]
            · rcases List.eq_nil_or_concat (a2 :: A'') with hcon | ⟨ys, p2, hys⟩
              · exact absurd hcon (by simp)
              rw [List.concat_eq_append] at hys
              have hp2 : p2 = p := by
                rw [hys, List.getLast?_concat] at hpA'
                exact Option.some.inj hpA'
              rw [hp2] at hys
              rw [hys]
              rw [hys] at hsegA2 htail_nodup
              rw [seg_snoc_iff] at hsegA2 ⊢
              obtain ⟨hsegys, hpprev_old, hpnext_old⟩ := hsegA2
              refine ⟨?_, ?_, ?_⟩
              · refine seg_congr l.v_ _ ys (some f) (some p) ?_ hsegys
                intro i hi
                have hiA : i ∈ A := by
                  rw [hA, hA2, hys]
                  exact List.mem_cons_of_mem _ (List.mem_append_left _ hi)
                have hin : i ≠ n := fun hh => hnA (hh ▸ hiA)
                have hip : i ≠ p := fun hh =>
                  (List.disjoint_of_nodup_append htail_nodup) (hh ▸ hi)
                    (List.mem_singleton_self _)
                have hif : i ≠ f := fun hh =>
                  hfnot' (hh ▸ (by rw [hys]; exact List.mem_append_left _ hi : i ∈ a2 :: A''))
                have hib : i ≠ b := fun hh => hbA (hh ▸ hiA)
                exact hframe i hin hif hip hib
              · rw [hgp_ne hpf, getD_set_ne _ _ hbp]
                exact hpprev_old
              · rw [hgp_ne hpf]
        · rw [seg_cons_iff]
          refine ⟨by rw [hgb], by rw [hgb]; exact hbnext_old, ?_⟩
          refine seg_congr l.v_ _ B' (some b) none ?_ hsegB'
          intro i hi
          have hiNB : i ∈ n :: b :: B' :=
            List.mem_cons_of_mem _ (List.mem_cons_of_mem _ hi)
          have hin : i ≠ n := fun hh => hnB (hh ▸ List.mem_cons_of_mem _ hi)
          have hib : i ≠ b := fun hh => hbB' (hh ▸ hi)
          have hif : i ≠ f := fun hh => hdisAB hfmem (hh ▸ hiNB)
          have hip : i ≠ p := fun hh => hdisAB hpmem (hh ▸ hiNB)
          exact hframe i hin hif hip hib
      · intro i hi
        have hio : i ∈ order := by
          rcases List.mem_cons.mp hi with rfl | hiAB
          · exact hmem
          · rw [horder]
            rcases List.mem_append.mp hiAB with h | h
            · exact List.mem_append_left _ h
            · exact List.mem_append_right _ (List.mem_cons_of_mem _ h)
        obtain ⟨kv, hkv⟩ := inv.payload i hio
        exact ⟨kv, by rw [hpay]; exact hkv⟩

/-! ### Lookup-value characterization and erase shape -/

section FindValLemmas

variable {K M : Type} [DecidableEq K]

theorem findVal_some_iff (hash : K → Nat) (m : iumap K M) (key : K) (w : M) :
    iumap.findVal hash m key = some w ↔
    ∃ i, iumap.find hash m key = some i ∧ m.v_.getD i .unused = .occupied key w := by
  constructor
  · intro h
    unfold iumap.findVal at h
    cases hf : iumap.find hash m key with
    | none => rw [hf] at h; exact Option.noConfusion h
    | some i =>
      simp only [hf] at h
      obtain ⟨w2, hocc⟩ := find_some_occ hash m key i hf
      simp only [hocc] at h
      injection h with h
      subst h
      exact ⟨i, rfl, hocc⟩
  · rintro ⟨i, hf, hocc⟩
    unfold iumap.findVal
    simp only [hf, hocc]

theorem findVal_none_iff (hash : K → Nat) (m : iumap K M) (key : K) :
    iumap.findVal hash m key = none ↔ iumap.find hash m key = none := by
  constructor
  · intro h
    cases hf : iumap.find hash m key with
    | none => rfl
    | some i =>
      obtain ⟨w2, hocc⟩ := find_some_occ hash m key i hf
      have : iumap.findVal hash m key = some w2 :=
        (findVal_some_iff hash m key w2).mpr ⟨i, hf, hocc⟩
      rw [this] at h
      exact Option.noConfusion h
  · intro h
    unfold iumap.findVal
    simp only [h]

theorem erase_v_noclear (m : iumap K M) (i : Nat) (k : K) (w : M)
    (hocc : m.v_.getD i .unused = .occupied k w) (hnz : m.size_ - 1 ≠ 0) :
    iumap.erase m i =
      ⟨m.size_ - 1, m.tombstones_ + 1, m.v_.set i .tombstone⟩ := by
  unfold iumap.erase
  simp only [hocc]
  rw [if_neg hnz]

end FindValLemmas

/-! ### Failure of `add` on a full single-element list -/

theorem add_full_singleton {V : Type} {l : lru_list V} {t : Nat}
    (inv : LruInv l [t]) (hge : l.v_.length ≤ l.size_) (x : V) :
    lru_list.add l x = none := by
  have hf : l.first_ = some t := by rw [inv.first]; rfl
  have hl : l.last_ = some t := by rw [inv.last]; rfl
  have hchain := inv.chain
  rw [seg_cons_iff] at hchain
  obtain ⟨hprev, -, -⟩ := hchain
  obtain ⟨w, hpay⟩ := inv.payload t (List.mem_singleton_self t)
  have hsz : l.size_ = 1 := by rw [inv.size_eq]; rfl
  have hlen : l.v_.length = 1 := by
    have := inv.size_le
    omega
  have htlt : t < l.v_.length := by
    have := (inv.mem_iff t).mp (List.mem_singleton_self t)
    omega
  have hprev1 : ((l.v_.set t { l.v_.getD t dn with payload := some x }).getD t dn).prev
      = none := by
    rw [getD_set_self _ _ htlt]
    exact hprev
  unfold lru_list.add
  rw [if_neg (Nat.not_lt.mpr hge)]
  simp only [hf, hl, hpay, hprev1]

/-! ### Abstract association-list lemmas -/

section AbsLemmas

variable {K V : Type} [DecidableEq K] [DecidableEq V]

theorem absLookup_cons (p : K × V) (rest : List (K × V)) (k : K) :
    absLookup (p :: rest) k = if p.1 = k then some p.2 else absLookup rest k := rfl

theorem absLookup_eraseKey_ne (l : List (K × V)) (k k2 : K) (h : k2 ≠ k) :
    absLookup (absEraseKey l k) k2 = absLookup l k2 := by
  induction l with
  | nil => rfl
  | cons p rest ih =>
    unfold absEraseKey
    by_cases hp : p.1 = k
    · rw [if_pos hp, absLookup_cons, if_neg (by rw [hp]; exact fun hh => h hh.symm)]
    · rw [if_neg hp, absLookup_cons, absLookup_cons]
      by_cases hp2 : p.1 = k2
      · rw [if_pos hp2, if_pos hp2]
      · rw [if_neg hp2, if_neg hp2, ih]

theorem absLookup_append_left (l1 l2 : List (K × V)) (k : K) (v : V)
    (h : absLookup l1 k = some v) : absLookup (l1 ++ l2) k = some v := by
  induction l1 with
  | nil => exact Option.noConfusion h
  | cons p rest ih =>
    rw [absLookup_cons] at h
    rw [List.cons_append, absLookup_cons]
    by_cases hp : p.1 = k
    · rw [if_pos hp] at h ⊢
      exact h
    · rw [if_neg hp] at h ⊢
      exact ih h

theorem absLookup_append_right (l1 l2 : List (K × V)) (k : K)
    (h : absLookup l1 k = none) : absLookup (l1 ++ l2) k = absLookup l2 k := by
  induction l1 with
  | nil => rfl
  | cons p rest ih =>
    rw [absLookup_cons] at h
    rw [List.cons_append, absLookup_cons]
    by_cases hp : p.1 = k
    · rw [if_pos hp] at h
      exact Option.noConfusion h
    · rw [if_neg hp] at h ⊢
      exact ih h

theorem absLookup_eq_none_iff (l : List (K × V)) (k : K) :
    absLookup l k = none ↔ ∀ p ∈ l, p.1 ≠ k := by
  induction l with
  | nil => simp [absLookup]
  | cons p rest ih =>
    rw [absLookup_cons]
    by_cases hp : p.1 = k
    · rw [if_pos hp]
      simp only [List.mem_cons]
      constructor
      · intro hh
        exact Option.noConfusion hh
      · intro hh
        exact absurd hp (hh p (Or.inl rfl))
    · rw [if_neg hp]
      simp only [List.mem_cons]
      rw [ih]
      constructor
      · intro hh q hq
        rcases hq with rfl | hq
        · exact hp
        · exact hh q hq
      · intro hh q hq
        exact hh q (Or.inr hq)

theorem absEraseKey_append_of_not_mem (l1 l2 : List (K × V)) (k : K) (v : V)
    (h : ∀ p ∈ l1, p.1 ≠ k) :
    absEraseKey (l1 ++ (k, v) :: l2) k = l1 ++ l2 := by
  induction l1 with
  | nil =>
    show absEraseKey ((k, v) :: l2) k = l2
    unfold absEraseKey
    rw [if_pos rfl]
  | cons p rest ih =>
    rw [List.cons_append]
    unfold absEraseKey
    rw [if_neg (h p (List.mem_cons_self _ _)), List.cons_append,
      ih fun q hq => h q (List.mem_cons_of_mem _ hq)]

/-- Distinctness of keys along a node list, given that every node stores a
key that looks the node back up. -/
theorem keys_nodup_of_spec (pay : Nat → Option (K × V)) (fv : K → Option Nat) :
    ∀ order : List Nat, order.Nodup →
      (∀ i ∈ order, ∃ k v, pay i = some (k, v) ∧ fv k = some i) →
      ((order.filterMap pay).map Prod.fst).Nodup := by
  intro order
  induction order with
  | nil => intro _ _; simp
  | cons i rest ih =>
    intro hnod hspec
    obtain ⟨k, v, hpi, hfi⟩ := hspec i (List.mem_cons_self _ _)
    rw [List.filterMap_cons, hpi, List.map_cons]
    refine List.nodup_cons.mpr ⟨?_, ih (List.nodup_cons.mp hnod).2
      fun j hj => hspec j (List.mem_cons_of_mem _ hj)⟩
    intro hmem
    obtain ⟨q, hq, hqk⟩ := List.mem_map.mp hmem
    obtain ⟨j, hj, hpj⟩ := List.mem_filterMap.mp hq
    obtain ⟨k2, v2, hpj2, hfj2⟩ := hspec j (List.mem_cons_of_mem _ hj)
    rw [hpj2] at hpj
    injection hpj with hpj
    subst hpj
    dsimp only at hqk
    rw [hqk] at hfj2
    rw [hfi] at hfj2
    injection hfj2 with hfj2
    subst hfj2
    exact (List.nodup_cons.mp hnod).1 hj

end AbsLemmas

/-! ### Reading the abstract association list off a cache -/

section AbsOfLemmas

variable {K V : Type} [DecidableEq K] [DecidableEq V]

theorem filterMap_eq_of_eq_on {α β : Type _} (f g : α → Option β) :
    ∀ l : List α, (∀ a ∈ l, f a = g a) → l.filterMap f = l.filterMap g := by
  intro l
  induction l with
  | nil => intro _; rfl
  | cons a rest ih =>
    intro h
    rw [List.filterMap_cons, List.filterMap_cons, h a (List.mem_cons_self _ _),
      ih fun b hb => h b (List.mem_cons_of_mem _ hb)]

theorem absOf_congr (c1 c : cache K V) (order : List Nat)
    (h : ∀ i ∈ order, (c1.lru.v_.getD i dn).payload = (c.lru.v_.getD i dn).payload) :
    absOf c1 order = absOf c order := by
  unfold absOf
  exact filterMap_eq_of_eq_on _ _ order fun i hi => h i hi

theorem absOf_cons_some (c : cache K V) {i : Nat} {kv : K × V} (order : List Nat)
    (h : (c.lru.v_.getD i dn).payload = some kv) :
    absOf c (i :: order) = kv :: absOf c order := by
  unfold absOf
  simp only [List.filterMap_cons, h]

theorem absOf_length (c : cache K V) (order : List Nat)
    (h : ∀ i ∈ order, ∃ kv, (c.lru.v_.getD i dn).payload = some kv) :
    (absOf c order).length = order.length := by
  induction order with
  | nil => rfl
  | cons i rest ih =>
    obtain ⟨kv, hkv⟩ := h i (List.mem_cons_self _ _)
    rw [absOf_cons_some c rest hkv, List.length_cons, List.length_cons,
      ih fun j hj => h j (List.mem_cons_of_mem _ hj)]

theorem cacheInv_keys_nodup {hash : K → Nat} {n : Nat} {c : cache K V}
    {order : List Nat} (inv : CacheInv hash n c order) :
    ((absOf c order).map Prod.fst).Nodup := by
  unfold absOf
  exact keys_nodup_of_spec (fun i => (c.lru.v_.getD i dn).payload)
    (fun k => iumap.findVal hash c.h k) order inv.linv.nodup
    fun i hi => inv.node_slot i hi

theorem cachedVal_eq_absLookup {hash : K → Nat} {n : Nat} {c : cache K V}
    {order : List Nat} (inv : CacheInv hash n c order) (k : K) :
    absLookup (absOf c order) k = cachedVal hash c k := by
  cases hfv : iumap.findVal hash c.h k with
  | none =>
    have hnone : ∀ p ∈ absOf c order, p.1 ≠ k := by
      intro p hp
      obtain ⟨i, hi, hpayi⟩ := List.mem_filterMap.mp hp
      obtain ⟨k2, v2, hpay2, hfv2⟩ := inv.node_slot i hi
      rw [hpay2] at hpayi
      injection hpayi with hpayi
      subst hpayi
      dsimp only
      intro hh
      rw [hh, hfv] at hfv2
      exact Option.noConfusion hfv2
    rw [(absLookup_eq_none_iff _ _).mpr hnone]
    unfold cachedVal
    rw [hfv]
  | some nd =>
    obtain ⟨i, hfind, hocc⟩ := (findVal_some_iff hash c.h k nd).mp hfv
    obtain ⟨hmem, v0, hpay⟩ := inv.slot_node i k nd hocc
    have hcv : cachedVal hash c k = some v0 := by
      unfold cachedVal
      simp only [hfv, hpay]
    rw [hcv]
    obtain ⟨L1, L2, hsplit⟩ := List.append_of_mem hmem
    have hnod := inv.linv.nodup
    rw [hsplit] at hnod
    have hnd1 : nd ∉ L1 := fun hh =>
      (List.disjoint_of_nodup_append hnod) hh (List.mem_cons_self _ _)
    have hkeys : ∀ p ∈ List.filterMap
        (fun i => (c.lru.v_.getD i dn).payload) L1, p.1 ≠ k := by
      intro p hp
      obtain ⟨j, hj, hpayj⟩ := List.mem_filterMap.mp hp
      obtain ⟨k2, v2, hpay2, hfv2⟩ := inv.node_slot j
        (by rw [hsplit]; exact List.mem_append_left _ hj)
      rw [hpay2] at hpayj
      injection hpayj with hpayj
      subst hpayj
      dsimp only
      intro hh
      rw [hh, hfv] at hfv2
      injection hfv2 with hfv2
      exact hnd1 (hfv2 ▸ hj)
    rw [hsplit]
    unfold absOf
    simp only [List.filterMap_append, List.filterMap_cons, hpay]
    rw [absLookup_append_right _ _ _ ((absLookup_eq_none_iff _ _).mpr hkeys),
      absLookup_cons, if_pos rfl]

theorem absOf_erase_eq {hash : K → Nat} {n : Nat} {c : cache K V}
    {order : List Nat} (inv : CacheInv hash n c order) {nd : Nat} {k : K} {v0 : V}
    (hmem : nd ∈ order) (hpay : (c.lru.v_.getD nd dn).payload = some (k, v0)) :
    absOf c (order.erase nd) = absEraseKey (absOf c order) k := by
  obtain ⟨L1, L2, hsplit⟩ := List.append_of_mem hmem
  have hnod := inv.linv.nodup
  rw [hsplit] at hnod
  have hnd1 : nd ∉ L1 := fun hh =>
    (List.disjoint_of_nodup_append hnod) hh (List.mem_cons_self _ _)
  have herase : order.erase nd = L1 ++ L2 := by
    rw [hsplit, List.erase_append_right _ hnd1, List.erase_cons_head]
  obtain ⟨k3, v3, hpay3, hfv3⟩ := inv.node_slot nd hmem
  rw [hpay] at hpay3
  injection hpay3 with hpay3
  injection hpay3 with hk3 hv3
  subst hk3
  have hkeys : ∀ p ∈ List.filterMap
      (fun i => (c.lru.v_.getD i dn).payload) L1, p.1 ≠ k := by
    intro p hp
    obtain ⟨j, hj, hpayj⟩ := List.mem_filterMap.mp hp
    obtain ⟨k2, v2, hpay2, hfv2⟩ := inv.node_slot j
      (by rw [hsplit]; exact List.mem_append_left _ hj)
    rw [hpay2] at hpayj
    injection hpayj with hpayj
    subst hpayj
    dsimp only
    intro hh
    rw [hh, hfv3] at hfv2
    injection hfv2 with hfv2
    exact hnd1 (hfv2 ▸ hj)
  rw [herase, hsplit]
  unfold absOf
  simp only [List.filterMap_append, List.filterMap_cons, hpay]
  rw [absEraseKey_append_of_not_mem _ _ _ _ hkeys]

end AbsOfLemmas

/-! ### The empty cache satisfies the cross-structure invariant -/

theorem cacheInv_empty {K V : Type} [DecidableEq K] [DecidableEq V]
    (hash : K → Nat) {n : Nat} (e : Nat) (he : n = 2 ^ e) :
    CacheInv hash n (emptyCache K V n) [] := by
  refine ⟨by simp [emptyCache, iumap.empty], by simp [emptyCache], ?_, ?_, rfl, ?_, ?_⟩
  · refine ⟨⟨e, by simp [emptyCache, iumap.empty, he]⟩, ?_, ?_⟩
    · show 0 = countOccupied (List.replicate n .unused)
      rw [countOccupied_replicate]
    · intro i k nd h
      rw [show (emptyCache K V n).h.v_ = List.replicate n .unused from rfl,
        getD_replicate] at h
      split at h <;> exact Slot.noConfusion h
  · refine ⟨rfl, by simp [emptyCache], ?_, List.nodup_nil, rfl, rfl, trivial, ?_⟩
    · intro i
      show i ∈ ([] : List Nat) ↔ i < 0
      simp
    · intro i hi
      simp at hi
  · intro i k nd h
    rw [show (emptyCache K V n).h.v_ = List.replicate n .unused from rfl,
      getD_replicate] at h
    split at h <;> exact Slot.noConfusion h
  · intro nd hnd
    simp at hnd

/-! ### `cache::find` under the cross-structure invariant -/

theorem find_pres {K V : Type} [DecidableEq K] [DecidableEq V]
    (hash : K → Nat) {n : Nat} {c : cache K V} {order : List Nat}
    (inv : CacheInv hash n c order) (k : K) {ov : Option V} {c1 : cache K V}
    (h : cache.find hash c k = some (ov, c1)) :
    ∃ order1, CacheInv hash n c1 order1 ∧
      ov = cachedVal hash c k ∧
      c1.h = c.h ∧
      (∀ k2, cachedVal hash c1 k2 = cachedVal hash c k2) ∧
      absOf c1 order1 = (absFind (absOf c order) k).2 := by
  unfold cache.find at h
  cases hfv : iumap.findVal hash c.h k with
  | none =>
    simp only [hfv] at h
    injection h with h
    injection h with hov hc1
    subst hc1
    have hcv : cachedVal hash c k = none := by
      unfold cachedVal
      rw [hfv]
    refine ⟨order, inv, by rw [← hov, hcv], rfl, fun k2 => rfl, ?_⟩
    have habs : absLookup (absOf c order) k = none := by
      rw [cachedVal_eq_absLookup inv, hcv]
    unfold absFind
    rw [habs]
  | some nd =>
    obtain ⟨i, hfind, hocc⟩ := (findVal_some_iff hash c.h k nd).mp hfv
    obtain ⟨hmem, v0, hpay⟩ := inv.slot_node i k nd hocc
    obtain ⟨lru1, htc, linv1, htsz, htlen, hpays⟩ := touch_lruInv inv.linv hmem
    have hpay1 : (lru1.v_.getD nd dn).payload = some (k, v0) := by
      rw [hpays nd]
      exact hpay
    simp only [hfv, htc, hpay1] at h
    injection h with h
    injection h with hov hc1
    subst hc1
    have hcv : cachedVal hash c k = some v0 := by
      unfold cachedVal
      simp only [hfv, hpay]
    have hperm : order.Perm (nd :: order.erase nd) := List.perm_cons_erase hmem
    refine ⟨nd :: order.erase nd, ?_, by rw [← hov, hcv], rfl, ?_, ?_⟩
    · refine ⟨inv.hlen, htlen.trans inv.llen, inv.tinv, linv1,
        inv.sizes.trans htsz.symm, ?_, ?_⟩
      · intro j k2 nd2 hocc2
        obtain ⟨hm2, v2, hp2⟩ := inv.slot_node j k2 nd2 hocc2
        refine ⟨hperm.mem_iff.mp hm2, v2, ?_⟩
        rw [hpays nd2]
        exact hp2
      · intro nd2 hnd2
        obtain ⟨k2, v2, hp2, hfv2⟩ := inv.node_slot nd2 (hperm.mem_iff.mpr hnd2)
        refine ⟨k2, v2, ?_, hfv2⟩
        rw [hpays nd2]
        exact hp2
    · intro k2
      unfold cachedVal
      cases hfv2 : iumap.findVal hash c.h k2 with
      | none => rfl
      | some nd2 =>
        simp only [hpays nd2]
    · have habs : absLookup (absOf c order) k = some v0 := by
        rw [cachedVal_eq_absLookup inv]
        exact hcv
      unfold absFind
      rw [habs]
      show absOf { lru := lru1, h := c.h } (nd :: order.erase nd) = _
      rw [absOf_cons_some ⟨lru1, c.h⟩ (order.erase nd) hpay1,
        absOf_congr ⟨lru1, c.h⟩ c (order.erase nd) (fun j hj => hpays j),
        absOf_erase_eq inv hmem hpay]

theorem find_succ {K V : Type} [DecidableEq K] [DecidableEq V]
    (hash : K → Nat) {n : Nat} {c : cache K V} {order : List Nat}
    (inv : CacheInv hash n c order) (k : K) :
    ∃ ov c1, cache.find hash c k = some (ov, c1) := by
  unfold cache.find
  cases hfv : iumap.findVal hash c.h k with
  | none => exact ⟨none, c, rfl⟩
  | some nd =>
    obtain ⟨i, hfind, hocc⟩ := (findVal_some_iff hash c.h k nd).mp hfv
    obtain ⟨hmem, v0, hpay⟩ := inv.slot_node i k nd hocc
    obtain ⟨lru1, htc, linv1, htsz, htlen, hpays⟩ := touch_lruInv inv.linv hmem
    have hpay1 : (lru1.v_.getD nd dn).payload = some (k, v0) := by
      rw [hpays nd]
      exact hpay
    refine ⟨some v0, ⟨lru1, c.h⟩, ?_⟩
    simp only [htc, hpay1]

/-! ### Payload-only updates preserve the list invariant -/

theorem seg_congr_links {V : Type} (v w : List (LruNode V)) :
    ∀ (xs : List Nat) (p nx : Option Nat),
      (∀ i ∈ xs, (w.getD i dn).prev = (v.getD i dn).prev ∧
        (w.getD i dn).next = (v.getD i dn).next) →
      seg v p xs nx → seg w p xs nx := by
  intro xs
  induction xs with
  | nil => intro p nx _ _; exact trivial
  | cons i rest ih =>
    intro p nx hagree hseg
    obtain ⟨h1, h2, h3⟩ := hseg
    obtain ⟨hp, hn⟩ := hagree i (List.mem_cons_self _ _)
    exact ⟨by rw [hp]; exact h1, by rw [hn]; exact h2,
      ih _ _ (fun j hj => hagree j (List.mem_cons_of_mem _ hj)) h3⟩

theorem lruInv_set_payload {V : Type} {l : lru_list V} {order : List Nat}
    (inv : LruInv l order) (i : Nat) (kv : V) (hmem : i ∈ order) :
    LruInv { l with v_ := l.v_.set i { l.v_.getD i dn with payload := some kv } }
      order := by
  have hilt : i < l.v_.length := by
    have h1 := (inv.mem_iff i).mp hmem
    have h2 := inv.size_le
    omega
  refine ⟨inv.size_eq, by rw [List.length_set]; exact inv.size_le, inv.mem_iff,
    inv.nodup, inv.first, inv.last, ?_, ?_⟩
  · refine seg_congr_links l.v_ _ order none none ?_ inv.chain
    intro j hj
    by_cases hji : j = i
    · subst hji
      rw [getD_set_self _ _ hilt]
      exact ⟨rfl, rfl⟩
    · rw [getD_set_ne _ _ fun hh => hji hh.symm]
      exact ⟨rfl, rfl⟩
  · intro j hj
    by_cases hji : j = i
    · subst hji
      rw [getD_set_self _ _ hilt]
      exact ⟨kv, rfl⟩
    · rw [getD_set_ne _ _ fun hh => hji hh.symm]
      exact inv.payload j hj

/-! ### `cache::set` under the cross-structure invariant: hit -/

set_option maxHeartbeats 800000 in
theorem setTr_pres_hit {K V : Type} [DecidableEq K] [DecidableEq V]
    (hash : K → Nat) {n : Nat} {c : cache K V} {order : List Nat}
    (inv : CacheInv hash n c order) (k : K) (v : V)
    {b : Bool} {c1 : cache K V} {ev : Option K} {nd : Nat}
    (hfv : iumap.findVal hash c.h k = some nd)
    (h : cache.setTr hash c k v = some (b, c1, ev)) :
    ∃ order1, CacheInv hash n c1 order1 ∧
      absSet n (absOf c order) k v = (b, absOf c1 order1, ev) := by
  obtain ⟨i, hfind, hocc⟩ := (findVal_some_iff hash c.h k nd).mp hfv
  obtain ⟨hmem, v0, hpay⟩ := inv.slot_node i k nd hocc
  obtain ⟨lru1, htc, linv1, htsz, htlen, hpays⟩ := touch_lruInv inv.linv hmem
  have hpay1 : (lru1.v_.getD nd dn).payload = some (k, v0) := by
    rw [hpays nd]
    exact hpay
  unfold cache.setTr at h
  simp only [hfv, htc, hpay1] at h
  have habsL : absLookup (absOf c order) k = some v0 := by
    rw [cachedVal_eq_absLookup inv]
    unfold cachedVal
    simp only [hfv, hpay]
  have hperm : order.Perm (nd :: order.erase nd) := List.perm_cons_erase hmem
  by_cases hv : v = v0
  · rw [if_pos hv] at h
    injection h with h
    injection h with hb h
    injection h with hc1 hev
    subst hb
    subst hc1
    subst hev
    refine ⟨nd :: order.erase nd, ?_, ?_⟩
    · refine ⟨inv.hlen, htlen.trans inv.llen, inv.tinv, linv1,
        inv.sizes.trans htsz.symm, ?_, ?_⟩
      · intro j k2 nd2 hocc2
        obtain ⟨hm2, v2, hp2⟩ := inv.slot_node j k2 nd2 hocc2
        refine ⟨hperm.mem_iff.mp hm2, v2, ?_⟩
        show (lru1.v_.getD nd2 dn).payload = some (k2, v2)
        rw [hpays nd2]
        exact hp2
      · intro nd2 hnd2
        rcases List.mem_cons.mp hnd2 with rfl | hnd2e
        · exact ⟨k, v0, hpay1, hfv⟩
        · obtain ⟨k2, v2, hp2, hfv2⟩ := inv.node_slot nd2 (List.mem_of_mem_erase hnd2e)
          refine ⟨k2, v2, ?_, hfv2⟩
          show (lru1.v_.getD nd2 dn).payload = some (k2, v2)
          rw [hpays nd2]
          exact hp2
    · unfold absSet
      simp only [habsL]
      rw [if_pos hv]
      have habs2 : absOf (⟨lru1, c.h⟩ : cache K V) (nd :: order.erase nd)
          = (k, v0) :: absEraseKey (absOf c order) k := by
        rw [absOf_cons_some ⟨lru1, c.h⟩ (order.erase nd) hpay1,
          absOf_congr ⟨lru1, c.h⟩ c (order.erase nd) (fun j hj => hpays j),
          absOf_erase_eq inv hmem hpay]
      rw [habs2]
  · rw [if_neg hv] at h
    injection h with h
    injection h with hb h
    injection h with hc1 hev
    subst hb
    subst hc1
    subst hev
    have hndlt : nd < lru1.v_.length := by
      have h1 := (linv1.mem_iff nd).mp (List.mem_cons_self _ _)
      have h2 := linv1.size_le
      omega
    have hpay2new : ((⟨{ lru1 with v_ := lru1.v_.set nd { lru1.v_.getD nd dn with payload := some (k, v) } }, c.h⟩ : cache K V).lru.v_.getD nd dn).payload = some (k, v) := by
      show ((lru1.v_.set nd { lru1.v_.getD nd dn with payload := some (k, v) }).getD
        nd dn).payload = some (k, v)
      rw [getD_set_self _ _ hndlt]
    have hpay2old : ∀ j, j ≠ nd →
        ((⟨{ lru1 with v_ := lru1.v_.set nd { lru1.v_.getD nd dn with payload := some (k, v) } }, c.h⟩ : cache K V).lru.v_.getD j dn).payload = (c.lru.v_.getD j dn).payload := by
      intro j hj
      show ((lru1.v_.set nd { lru1.v_.getD nd dn with payload := some (k, v) }).getD
        j dn).payload = _
      rw [getD_set_ne _ _ fun hh => hj hh.symm]
      exact hpays j
    have linv2 : LruInv (⟨{ lru1 with v_ := lru1.v_.set nd { lru1.v_.getD nd dn with payload := some (k, v) } }, c.h⟩ : cache K V).lru (nd :: order.erase nd) :=
      lruInv_set_payload linv1 nd (k, v) (List.mem_cons_self _ _)
    refine ⟨nd :: order.erase nd, ?_, ?_⟩
    · refine ⟨inv.hlen, ?_, inv.tinv, linv2, inv.sizes.trans htsz.symm, ?_, ?_⟩
      · show (lru1.v_.set nd { lru1.v_.getD nd dn with payload := some (k, v) }).length = n
        rw [List.length_set, htlen]
        exact inv.llen
      · intro j k2 nd2 hocc2
        obtain ⟨hm2, v2, hp2⟩ := inv.slot_node j k2 nd2 hocc2
        refine ⟨hperm.mem_iff.mp hm2, ?_⟩
        by_cases hnd2 : nd2 = nd
        · subst hnd2
          rw [hp2] at hpay
          injection hpay with hpay
          injection hpay with hk2 hv2
          subst hk2
          exact ⟨v, hpay2new⟩
        · exact ⟨v2, by rw [hpay2old nd2 hnd2]; exact hp2⟩
      · intro nd2 hnd2
        rcases List.mem_cons.mp hnd2 with rfl | hnd2e
        · exact ⟨k, v, hpay2new, hfv⟩
        · have hne : nd2 ≠ nd := (inv.linv.nodup.mem_erase_iff.mp hnd2e).1
          obtain ⟨k2, v2, hp2, hfv2⟩ := inv.node_slot nd2
            (inv.linv.nodup.mem_erase_iff.mp hnd2e).2
          exact ⟨k2, v2, by rw [hpay2old nd2 hne]; exact hp2, hfv2⟩
    · unfold absSet
      simp only [habsL]
      rw [if_neg hv]
      have hcongr : absOf (⟨{ lru1 with v_ := lru1.v_.set nd { lru1.v_.getD nd dn with payload := some (k, v) } }, c.h⟩ : cache K V) (order.erase nd) = absOf c (order.erase nd) :=
        absOf_congr (⟨{ lru1 with v_ := lru1.v_.set nd { lru1.v_.getD nd dn with payload := some (k, v) } }, c.h⟩ : cache K V) c (order.erase nd)
          fun j hj => hpay2old j (inv.linv.nodup.mem_erase_iff.mp hj).1
      have habs2 : absOf (⟨{ lru1 with v_ := lru1.v_.set nd { lru1.v_.getD nd dn with payload := some (k, v) } }, c.h⟩ : cache K V) (nd :: order.erase nd)
          = (k, v) :: absEraseKey (absOf c order) k := by
        rw [absOf_cons_some (⟨{ lru1 with v_ := lru1.v_.set nd { lru1.v_.getD nd dn with payload := some (k, v) } }, c.h⟩ : cache K V) (order.erase nd) hpay2new, hcongr,
          absOf_erase_eq inv hmem hpay]
      rw [habs2]

/-! ### `cache::set` under the cross-structure invariant: miss below capacity -/

set_option maxHeartbeats 800000 in
theorem setTr_pres_miss_under {K V : Type} [DecidableEq K] [DecidableEq V]
    (hash : K → Nat) {n : Nat} {c : cache K V} {order : List Nat}
    (inv : CacheInv hash n c order) (k : K) (v : V)
    {b : Bool} {c1 : cache K V} {ev : Option K}
    (hfv : iumap.findVal hash c.h k = none)
    (hroom : c.lru.size_ < c.lru.v_.length)
    (h : cache.setTr hash c k v = some (b, c1, ev)) :
    ∃ order1, CacheInv hash n c1 order1 ∧
      absSet n (absOf c order) k v = (b, absOf c1 order1, ev) := by
  have hfindnone : iumap.find hash c.h k = none := (findVal_none_iff hash c.h k).mp hfv
  obtain ⟨l1, hadd2, linv1, hlsz, hllen, hpaynew, hpayold⟩ :=
    add_lruInv_under (k, v) inv.linv hroom
  unfold cache.setTr at h
  simp only [hfv, hadd2, Option.map_none'] at h
  have hroomT : countOccupied c.h.v_ < c.h.v_.length := by
    rw [← inv.tinv.size, inv.sizes, inv.hlen, ← inv.llen]
    exact hroom
  obtain ⟨i, m1, hte, tinv1, hm1len, hm1sz, hm1v, hfindnew, hfindpres⟩ :=
    tryEmplace_insert_spec hash c.h k c.lru.size_ inv.tinv hfindnone hroomT
  have hins : (iumap.insert hash c.h (k, c.lru.size_)).2 = m1 := by
    unfold iumap.insert
    rw [hte]
  rw [hins] at h
  injection h with h
  injection h with hb h
  injection h with hc1 hev
  subst hb
  subst hc1
  subst hev
  have hndmem : ∀ nd2 ∈ order, nd2 ≠ c.lru.size_ := by
    intro nd2 hm2 hh
    have := (inv.linv.mem_iff nd2).mp hm2
    omega
  have hilt : i < c.h.v_.length := by
    obtain ⟨w, hocc1⟩ := find_some_occ hash m1 k i hfindnew
    have hl := getD_lt_length hocc1
    rw [hm1len] at hl
    exact hl
  have hslotI : m1.v_.getD i .unused = .occupied k c.lru.size_ := by
    rw [hm1v, getD_set_self _ _ hilt]
  refine ⟨c.lru.size_ :: order, ?_, ?_⟩
  · refine ⟨hm1len.trans inv.hlen, hllen.trans inv.llen, tinv1, linv1, ?_, ?_, ?_⟩
    · show m1.size_ = l1.size_
      rw [hm1sz, hlsz, inv.sizes]
    · intro j k2 nd2 hocc2
      have hocc2' : (c.h.v_.set i (.occupied k c.lru.size_)).getD j .unused
          = .occupied k2 nd2 := by
        rw [← hm1v]
        exact hocc2
      by_cases hji : j = i
      · subst hji
        rw [getD_set_self _ _ hilt] at hocc2'
        injection hocc2' with hk2 hnd2
        subst hk2
        subst hnd2
        refine ⟨List.mem_cons_self _ _, v, ?_⟩
        show (l1.v_.getD c.lru.size_ dn).payload = some (k, v)
        exact hpaynew
      · rw [getD_set_ne _ _ fun hh => hji hh.symm] at hocc2'
        obtain ⟨hm2, v2, hp2⟩ := inv.slot_node j k2 nd2 hocc2'
        refine ⟨List.mem_cons_of_mem _ hm2, v2, ?_⟩
        show (l1.v_.getD nd2 dn).payload = some (k2, v2)
        rw [hpayold nd2 (hndmem nd2 hm2)]
        exact hp2
    · intro nd2 hnd2
      rcases List.mem_cons.mp hnd2 with rfl | hm2
      · exact ⟨k, v, hpaynew,
          (findVal_some_iff hash m1 k c.lru.size_).mpr ⟨i, hfindnew, hslotI⟩⟩
      · obtain ⟨k2, v2, hp2, hfv2⟩ := inv.node_slot nd2 hm2
        have hk2ne : k2 ≠ k := by
          intro hh
          rw [hh, hfv] at hfv2
          exact Option.noConfusion hfv2
        obtain ⟨j2, hfind2, hocc2⟩ := (findVal_some_iff hash c.h k2 nd2).mp hfv2
        have hfind2' : iumap.find hash m1 k2 = some j2 := by
          rw [hfindpres k2 hk2ne]
          exact hfind2
        have hj2i : j2 ≠ i := by
          intro hh
          subst hh
          obtain ⟨w2, hocc3⟩ := find_some_occ hash m1 k2 j2 hfind2'
          rw [hslotI] at hocc3
          injection hocc3 with hk hw
          exact hk2ne hk.symm
        refine ⟨k2, v2, ?_, ?_⟩
        · show (l1.v_.getD nd2 dn).payload = some (k2, v2)
          rw [hpayold nd2 (hndmem nd2 hm2)]
          exact hp2
        · refine (findVal_some_iff hash m1 k2 nd2).mpr ⟨j2, hfind2', ?_⟩
          rw [hm1v, getD_set_ne _ _ fun hh => hj2i hh.symm]
          exact hocc2
  · have habsL : absLookup (absOf c order) k = none := by
      rw [cachedVal_eq_absLookup inv]
      unfold cachedVal
      rw [hfv]
    have hlenabs : (absOf c order).length = order.length :=
      absOf_length c order fun j hj => by
        obtain ⟨k2, v2, hp2, -⟩ := inv.node_slot j hj
        exact ⟨(k2, v2), hp2⟩
    have hlt : (absOf c order).length < n := by
      rw [hlenabs, ← inv.linv.size_eq, ← inv.llen]
      exact hroom
    unfold absSet
    simp only [habsL]
    rw [if_pos hlt]
    have habs2 : absOf (⟨l1, m1⟩ : cache K V) (c.lru.size_ :: order)
        = (k, v) :: absOf c order := by
      rw [absOf_cons_some ⟨l1, m1⟩ order hpaynew,
        absOf_congr ⟨l1, m1⟩ c order fun j hj => hpayold j (hndmem j hj)]
    rw [habs2]

/-! ### `cache::set` under the cross-structure invariant: miss at capacity -/

set_option maxHeartbeats 1600000 in
theorem setTr_pres_miss_full {K V : Type} [DecidableEq K] [DecidableEq V]
    (hash : K → Nat) {n : Nat} {c : cache K V} {order : List Nat}
    (inv : CacheInv hash n c order) (k : K) (v : V)
    {b : Bool} {c1 : cache K V} {ev : Option K}
    (hfv : iumap.findVal hash c.h k = none)
    (hfull : ¬ c.lru.size_ < c.lru.v_.length)
    (h : cache.setTr hash c k v = some (b, c1, ev)) :
    ∃ order1, CacheInv hash n c1 order1 ∧
      absSet n (absOf c order) k v = (b, absOf c1 order1, ev) := by
  have hfindnone : iumap.find hash c.h k = none := (findVal_none_iff hash c.h k).mp hfv
  have hge : c.lru.v_.length ≤ c.lru.size_ := Nat.le_of_not_lt hfull
  unfold cache.setTr at h
  simp only [hfv] at h
  have h2 : 2 ≤ order.length := by
    by_contra h2n
    cases horder2 : order with
    | nil =>
      have hl0 := inv.linv
      rw [horder2] at hl0
      have hf : c.lru.first_ = none := by rw [hl0.first]; rfl
      have haddn : lru_list.add c.lru (k, v) = none := by
        unfold lru_list.add
        rw [if_neg hfull]
        simp only [hf]
      rw [haddn] at h
      exact Option.noConfusion h
    | cons t rest =>
      cases hrest : rest with
      | nil =>
        have hl1 := inv.linv
        rw [horder2, hrest] at hl1
        have haddn := add_full_singleton hl1 hge (k, v)
        rw [haddn] at h
        exact Option.noConfusion h
      | cons t2 rest2 =>
        rw [horder2, hrest] at h2n
        simp only [List.length_cons] at h2n
        omega
  obtain ⟨l1, A, t, oldpay, horderAt, hAne, holdpay, hadd2, linv1, hlsz, hllen,
    hpaynew, hpayold⟩ := add_lruInv_full (k, v) inv.linv hge h2
  simp only [hadd2] at h
  have htmem : t ∈ order := by
    rw [horderAt]
    exact List.mem_append_right _ (List.mem_singleton_self _)
  obtain ⟨kold, vold, hpt, hfvt⟩ := inv.node_slot t htmem
  have holdeq : oldpay = (kold, vold) := by
    rw [holdpay] at hpt
    exact Option.some.inj hpt
  subst holdeq
  obtain ⟨pos, hfindold, hoccold⟩ := (findVal_some_iff hash c.h kold t).mp hfvt
  simp only [hfindold, Option.map_some'] at h
  obtain ⟨tinvE, hElen, hEsz, hEnone, hEpres⟩ :=
    erase_found_spec hash c.h kold pos inv.tinv hfindold
  have hkne : k ≠ kold := by
    intro hh
    rw [hh, hfvt] at hfv
    exact Option.noConfusion hfv
  have hfindk1 : iumap.find hash (iumap.erase c.h pos) k = none := by
    rw [hEpres k hkne]
    exact hfindnone
  have hlen_n : c.lru.v_.length = n := inv.llen
  have hsize_n : c.lru.size_ = n :=
    le_antisymm (by rw [← hlen_n]; exact inv.linv.size_le) (by rw [← hlen_n]; exact hge)
  have hhsize : c.h.size_ = n := by rw [inv.sizes, hsize_n]
  have hn2 : 2 ≤ n := by
    rw [← hsize_n, inv.linv.size_eq]
    exact h2
  have hroomE : countOccupied (iumap.erase c.h pos).v_
      < (iumap.erase c.h pos).v_.length := by
    rw [← tinvE.size, hEsz, hElen, inv.hlen, hhsize]
    omega
  obtain ⟨i, m1, hte, tinv1, hm1len, hm1sz, hm1v, hfindnew, hfindpres⟩ :=
    tryEmplace_insert_spec hash (iumap.erase c.h pos) k t tinvE hfindk1 hroomE
  have hins : (iumap.insert hash (iumap.erase c.h pos) (k, t)).2 = m1 := by
    unfold iumap.insert
    rw [hte]
  rw [hins] at h
  injection h with h
  injection h with hb h
  injection h with hc1 hev
  subst hb
  subst hc1
  subst hev
  have hEnz : c.h.size_ - 1 ≠ 0 := by omega
  have hEshape : (iumap.erase c.h pos).v_ = c.h.v_.set pos .tombstone := by
    rw [erase_v_noclear c.h pos kold t hoccold hEnz]
  have hnodupA := inv.linv.nodup
  rw [horderAt] at hnodupA
  have htA : t ∉ A := fun hh =>
    (List.disjoint_of_nodup_append hnodupA) hh (List.mem_singleton_self _)
  have hperm : order.Perm (t :: A) := by
    rw [horderAt]
    exact List.perm_append_singleton _ _
  have hilt : i < (iumap.erase c.h pos).v_.length := by
    obtain ⟨w, hocc1⟩ := find_some_occ hash m1 k i hfindnew
    have hl := getD_lt_length hocc1
    rw [hm1len] at hl
    exact hl
  have hslotI : m1.v_.getD i .unused = .occupied k t := by
    rw [hm1v, getD_set_self _ _ hilt]
  refine ⟨t :: A, ?_, ?_⟩
  · refine ⟨hm1len.trans (hElen.trans inv.hlen), hllen.trans inv.llen, tinv1,
      linv1, ?_, ?_, ?_⟩
    · show m1.size_ = l1.size_
      rw [hm1sz, hEsz, hlsz, hhsize, hsize_n]
      omega
    · intro j k2 nd2 hocc2
      have hocc2' : ((iumap.erase c.h pos).v_.set i (.occupied k t)).getD j .unused
          = .occupied k2 nd2 := by
        rw [← hm1v]
        exact hocc2
      by_cases hji : j = i
      · subst hji
        rw [getD_set_self _ _ hilt] at hocc2'
        injection hocc2' with hk2 hnd2
        subst hk2
        subst hnd2
        exact ⟨List.mem_cons_self _ _, v, hpaynew⟩
      · rw [getD_set_ne _ _ fun hh => hji hh.symm, hEshape] at hocc2'
        by_cases hjp : j = pos
        · subst hjp
          rw [getD_set_self _ _ (getD_lt_length hoccold)] at hocc2'
          exact Slot.noConfusion hocc2'
        · rw [getD_set_ne _ _ fun hh => hjp hh.symm] at hocc2'
          obtain ⟨hm2, v2, hp2⟩ := inv.slot_node j k2 nd2 hocc2'
          have hnd2t : nd2 ≠ t := by
            intro hh
            subst hh
            rw [hp2] at hpt
            injection hpt with hpt2
            injection hpt2 with hk2 hv2
            have hfj : iumap.find hash c.h k2 = some j :=
              inv.tinv.findable j k2 nd2 hocc2'
            rw [hk2, hfindold] at hfj
            injection hfj with hfj
            exact hjp hfj.symm
          refine ⟨hperm.mem_iff.mp hm2, v2, ?_⟩
          show (l1.v_.getD nd2 dn).payload = some (k2, v2)
          rw [hpayold nd2 hnd2t]
          exact hp2
    · intro nd2 hnd2
      rcases List.mem_cons.mp hnd2 with rfl | hm2A
      · exact ⟨k, v, hpaynew, (findVal_some_iff hash m1 k nd2).mpr ⟨i, hfindnew, hslotI⟩⟩
      · have hm2 : nd2 ∈ order := by
          rw [horderAt]
          exact List.mem_append_left _ hm2A
        have hnd2t : nd2 ≠ t := fun hh => htA (hh ▸ hm2A)
        obtain ⟨k2, v2, hp2, hfv2⟩ := inv.node_slot nd2 hm2
        have hk2ne : k2 ≠ k := by
          intro hh
          rw [hh, hfv] at hfv2
          exact Option.noConfusion hfv2
        have hk2old : k2 ≠ kold := by
          intro hh
          rw [hh, hfvt] at hfv2
          injection hfv2 with hfv2
          exact hnd2t hfv2.symm
        obtain ⟨j2, hfind2, hocc2⟩ := (findVal_some_iff hash c.h k2 nd2).mp hfv2
        have hfind2' : iumap.find hash m1 k2 = some j2 := by
          rw [hfindpres k2 hk2ne, hEpres k2 hk2old]
          exact hfind2
        have hj2i : j2 ≠ i := by
          intro hh
          subst hh
          obtain ⟨w2, hocc3⟩ := find_some_occ hash m1 k2 j2 hfind2'
          rw [hslotI] at hocc3
          injection hocc3 with hk hw
          exact hk2ne hk.symm
        have hj2pos : j2 ≠ pos := by
          intro hh
          subst hh
          obtain ⟨w2, hocc3⟩ := find_some_occ hash m1 k2 j2 hfind2'
          rw [hm1v, getD_set_ne _ _ fun hh2 => hj2i hh2.symm, hEshape,
            getD_set_self _ _ (getD_lt_length hoccold)] at hocc3
          exact Slot.noConfusion hocc3
        refine ⟨k2, v2, ?_, ?_⟩
        · show (l1.v_.getD nd2 dn).payload = some (k2, v2)
          rw [hpayold nd2 hnd2t]
          exact hp2
        · refine (findVal_some_iff hash m1 k2 nd2).mpr ⟨j2, hfind2', ?_⟩
          rw [hm1v, getD_set_ne _ _ fun hh => hj2i hh.symm, hEshape,
            getD_set_ne _ _ fun hh => hj2pos hh.symm]
          exact hocc2
  · have habsL : absLookup (absOf c order) k = none := by
      rw [cachedVal_eq_absLookup inv]
      unfold cachedVal
      rw [hfv]
    have hlenabs : (absOf c order).length = order.length :=
      absOf_length c order fun j hj => by
        obtain ⟨k2, v2, hp2, -⟩ := inv.node_slot j hj
        exact ⟨(k2, v2), hp2⟩
    have hnotlt : ¬ (absOf c order).length < n := by
      rw [hlenabs, ← inv.linv.size_eq, hsize_n]
      omega
    unfold absSet
    simp only [habsL]
    rw [if_neg hnotlt]
    have hpayA : absOf c order = absOf c A ++ [(kold, vold)] := by
      rw [horderAt]
      unfold absOf
      rw [List.filterMap_append]
      congr 1
      simp only [List.filterMap_cons, List.filterMap_nil, hpt]
    rw [hpayA, List.dropLast_concat, List.getLast?_concat, Option.map_some']
    have habs2 : absOf (⟨l1, m1⟩ : cache K V) (t :: A) = (k, v) :: absOf c A := by
      rw [absOf_cons_some ⟨l1, m1⟩ A hpaynew,
        absOf_congr ⟨l1, m1⟩ c A fun j hj => hpayold j fun hh => htA (hh ▸ hj)]
    rw [habs2]

/-! ### `cache::set`: dispatch and success -/

theorem setTr_pres {K V : Type} [DecidableEq K] [DecidableEq V]
    (hash : K → Nat) {n : Nat} {c : cache K V} {order : List Nat}
    (inv : CacheInv hash n c order) (k : K) (v : V)
    {b : Bool} {c1 : cache K V} {ev : Option K}
    (h : cache.setTr hash c k v = some (b, c1, ev)) :
    ∃ order1, CacheInv hash n c1 order1 ∧
      absSet n (absOf c order) k v = (b, absOf c1 order1, ev) := by
  cases hfv : iumap.findVal hash c.h k with
  | some nd => exact setTr_pres_hit hash inv k v hfv h
  | none =>
    by_cases hroom : c.lru.size_ < c.lru.v_.length
    · exact setTr_pres_miss_under hash inv k v hfv hroom h
    · exact setTr_pres_miss_full hash inv k v hfv hroom h

theorem setTr_succ {K V : Type} [DecidableEq K] [DecidableEq V]
    (hash : K → Nat) {n : Nat} {c : cache K V} {order : List Nat}
    (inv : CacheInv hash n c order) (k : K) (v : V) (hn2 : 2 ≤ n) :
    ∃ r, cache.setTr hash c k v = some r := by
  cases hfv : iumap.findVal hash c.h k with
  | some nd =>
    obtain ⟨i, hfind, hocc⟩ := (findVal_some_iff hash c.h k nd).mp hfv
    obtain ⟨hmem, v0, hpay⟩ := inv.slot_node i k nd hocc
    obtain ⟨lru1, htc, linv1, htsz, htlen, hpays⟩ := touch_lruInv inv.linv hmem
    have hpay1 : (lru1.v_.getD nd dn).payload = some (k, v0) := by
      rw [hpays nd]
      exact hpay
    unfold cache.setTr
    simp only [hfv, htc, hpay1]
    by_cases hv : v = v0
    · rw [if_pos hv]
      exact ⟨_, rfl⟩
    · rw [if_neg hv]
      exact ⟨_, rfl⟩
  | none =>
    unfold cache.setTr
    simp only [hfv]
    by_cases hroom : c.lru.size_ < c.lru.v_.length
    · obtain ⟨l1, hadd2, -, -, -, -, -⟩ := add_lruInv_under (k, v) inv.linv hroom
      simp only [hadd2]
      exact ⟨_, rfl⟩
    · have hge : c.lru.v_.length ≤ c.lru.size_ := Nat.le_of_not_lt hroom
      have h2 : 2 ≤ order.length := by
        have h3 := inv.linv.size_le
        have h4 := inv.linv.size_eq
        have h5 := inv.llen
        omega
      obtain ⟨l1, A, t, oldpay, horderAt, hAne, holdpay, hadd2, -, -, -, -, -⟩ :=
        add_lruInv_full (k, v) inv.linv hge h2
      simp only [hadd2]
      have htmem : t ∈ order := by
        rw [horderAt]
        exact List.mem_append_right _ (List.mem_singleton_self _)
      obtain ⟨kold, vold, hpt, hfvt⟩ := inv.node_slot t htmem
      have holdeq : oldpay = (kold, vold) := by
        rw [holdpay] at hpt
        exact Option.some.inj hpt
      subst holdeq
      obtain ⟨pos, hfindold, hoccold⟩ := (findVal_some_iff hash c.h kold t).mp hfvt
      simp only [hfindold]
      exact ⟨_, rfl⟩

/-! ### Cached-value bookkeeping across a `set` call -/

set_option maxHeartbeats 800000 in
theorem absSet_cachedVal {K V : Type} [DecidableEq K] [DecidableEq V]
    (hash : K → Nat) {n : Nat} {c c1 : cache K V} {order order1 : List Nat}
    (inv : CacheInv hash n c order) (inv1 : CacheInv hash n c1 order1)
    {k : K} {v : V} {b : Bool} {ev : Option K}
    (habs : absSet n (absOf c order) k v = (b, absOf c1 order1, ev)) :
    cachedVal hash c1 k = some v ∧
    (∀ k2, k2 ≠ k → ev ≠ some k2 → cachedVal hash c1 k2 = cachedVal hash c k2) ∧
    (∀ ke, ev = some ke → cachedVal hash c1 ke = none ∧ ke ≠ k ∧
      cachedVal hash c ke ≠ none) := by
  have hcv1 : ∀ k2, cachedVal hash c1 k2 = absLookup (absOf c1 order1) k2 :=
    fun k2 => (cachedVal_eq_absLookup inv1 k2).symm
  have hcv : ∀ k2, cachedVal hash c k2 = absLookup (absOf c order) k2 :=
    fun k2 => (cachedVal_eq_absLookup inv k2).symm
  unfold absSet at habs
  cases hL : absLookup (absOf c order) k with
  | none =>
    simp only [hL] at habs
    by_cases hlen : (absOf c order).length < n
    · rw [if_pos hlen] at habs
      injection habs with hb habs2
      injection habs2 with hnew hev
      refine ⟨?_, ?_, ?_⟩
      · rw [hcv1 k, ← hnew, absLookup_cons, if_pos rfl]
      · intro k2 hk2 _
        rw [hcv1 k2, ← hnew, absLookup_cons, if_neg fun hh => hk2 hh.symm, hcv k2]
      · intro ke hke
        rw [← hev] at hke
        exact Option.noConfusion hke
    · rw [if_neg hlen] at habs
      injection habs with hb habs2
      injection habs2 with hnew hev
      rcases List.eq_nil_or_concat (absOf c order) with hnil | ⟨L2, p, hcon⟩
      · rw [hnil] at hnew hev
        simp only [List.dropLast_nil] at hnew
        simp only [List.getLast?_nil, Option.map_none'] at hev
        refine ⟨?_, ?_, ?_⟩
        · rw [hcv1 k, ← hnew, absLookup_cons, if_pos rfl]
        · intro k2 hk2 _
          rw [hcv1 k2, ← hnew, absLookup_cons, if_neg fun hh => hk2 hh.symm,
            hcv k2, hnil]
        · intro ke hke
          rw [← hev] at hke
          exact Option.noConfusion hke
      · rw [List.concat_eq_append] at hcon
        rw [hcon] at hnew hev hL
        simp only [List.dropLast_concat] at hnew
        simp only [List.getLast?_concat, Option.map_some'] at hev
        have hkeysnd := cacheInv_keys_nodup inv
        rw [hcon, List.map_append] at hkeysnd
        have hp1k : p.1 ≠ k := by
          intro hh
          rw [absLookup_eq_none_iff] at hL
          exact hL p (List.mem_append_right _ (List.mem_singleton_self _)) hh
        have hpL2 : ∀ q ∈ L2, q.1 ≠ p.1 := by
          intro q hq hh
          exact (List.disjoint_of_nodup_append hkeysnd)
            (List.mem_map.mpr ⟨q, hq, hh⟩) (by simp)
        refine ⟨?_, ?_, ?_⟩
        · rw [hcv1 k, ← hnew, absLookup_cons, if_pos rfl]
        · intro k2 hk2 hev2
          have hk2p : k2 ≠ p.1 := fun hh => hev2 (by rw [← hev, hh])
          rw [hcv1 k2, ← hnew, absLookup_cons, if_neg fun hh => hk2 hh.symm,
            hcv k2, hcon]
          cases hL2 : absLookup L2 k2 with
          | some w => rw [absLookup_append_left _ _ _ _ hL2]
          | none =>
            rw [absLookup_append_right _ _ _ hL2, absLookup_cons,
              if_neg fun hh => hk2p hh.symm]
            rfl
        · intro ke hke
          rw [← hev] at hke
          injection hke with hke
          subst hke
          refine ⟨?_, hp1k, ?_⟩
          · rw [hcv1 p.1, ← hnew, absLookup_cons, if_neg fun hh => hp1k hh.symm]
            rw [absLookup_eq_none_iff]
            exact hpL2
          · rw [hcv p.1, hcon]
            intro hh
            rw [absLookup_eq_none_iff] at hh
            exact hh p (List.mem_append_right _ (List.mem_singleton_self _)) rfl
  | some w =>
    simp only [hL] at habs
    by_cases hv : v = w
    · rw [if_pos hv] at habs
      injection habs with hb habs2
      injection habs2 with hnew hev
      refine ⟨?_, ?_, ?_⟩
      · rw [hcv1 k, ← hnew, absLookup_cons, if_pos rfl, hv]
      · intro k2 hk2 _
        rw [hcv1 k2, ← hnew, absLookup_cons, if_neg fun hh => hk2 hh.symm,
          absLookup_eraseKey_ne _ _ _ hk2, hcv k2]
      · intro ke hke
        rw [← hev] at hke
        exact Option.noConfusion hke
    · rw [if_neg hv] at habs
      injection habs with hb habs2
      injection habs2 with hnew hev
      refine ⟨?_, ?_, ?_⟩
      · rw [hcv1 k, ← hnew, absLookup_cons, if_pos rfl]
      · intro k2 hk2 _
        rw [hcv1 k2, ← hnew, absLookup_cons, if_neg fun hh => hk2 hh.symm,
          absLookup_eraseKey_ne _ _ _ hk2, hcv k2]
      · intro ke hke
        rw [← hev] at hke
        exact Option.noConfusion hke

/-! ### Single cache calls and call sequences -/

theorem stepTr_facts {K V : Type} [DecidableEq K] [DecidableEq V]
    (hash : K → Nat) {n : Nat} {c : cache K V} {order : List Nat}
    (inv : CacheInv hash n c order) (op : cacheOp K V) {c1 : cache K V}
    {ev : Option K} (h : cache.stepTr hash c op = some (c1, ev)) :
    ∃ order1, CacheInv hash n c1 order1 ∧
      (∀ k2, (∀ v2, op ≠ cacheOp.set k2 v2) → ev ≠ some k2 →
        cachedVal hash c1 k2 = cachedVal hash c k2) ∧
      (∀ ke, ev = some ke → cachedVal hash c ke ≠ none) ∧
      (∀ ke, ev = some ke → cachedVal hash c1 ke = none) := by
  cases op with
  | find k =>
    have h2 : (cache.find hash c k).map (fun r => (r.2, (none : Option K)))
        = some (c1, ev) := h
    cases hf : cache.find hash c k with
    | none => rw [hf] at h2; exact Option.noConfusion h2
    | some r =>
      obtain ⟨ov, cf⟩ := r
      rw [hf] at h2
      simp only [Option.map_some'] at h2
      replace h := h2
      injection h with h
      injection h with hc1 hev
      subst hc1
      subst hev
      obtain ⟨order1, inv1, hov, hch, hpres, habs⟩ := find_pres hash inv k hf
      exact ⟨order1, inv1, fun k2 _ _ => hpres k2, fun ke hke => Option.noConfusion hke,
        fun ke hke => Option.noConfusion hke⟩
  | set k v =>
    have h2 : (cache.setTr hash c k v).map (fun r => (r.2.1, r.2.2))
        = some (c1, ev) := h
    cases hs : cache.setTr hash c k v with
    | none => rw [hs] at h2; exact Option.noConfusion h2
    | some r =>
      obtain ⟨b2, c2, ev2⟩ := r
      rw [hs] at h2
      simp only [Option.map_some'] at h2
      replace h := h2
      injection h with h
      injection h with hc1 hev
      subst hc1
      subst hev
      obtain ⟨order1, inv1, habs⟩ := setTr_pres hash inv k v hs
      obtain ⟨hsetk, hpres, hevict⟩ := absSet_cachedVal hash inv inv1 habs
      refine ⟨order1, inv1, ?_, ?_, ?_⟩
      · intro k2 hop hne
        have hk2k : k2 ≠ k := by
          intro hh
          exact hop v (by rw [hh])
        exact hpres k2 hk2k hne
      · intro ke hke
        exact (hevict ke hke).2.2
      · intro ke hke
        exact (hevict ke hke).1

theorem stepTr_succ {K V : Type} [DecidableEq K] [DecidableEq V]
    (hash : K → Nat) {n : Nat} {c : cache K V} {order : List Nat}
    (inv : CacheInv hash n c order) (op : cacheOp K V) (hn2 : 2 ≤ n) :
    ∃ c1 ev, cache.stepTr hash c op = some (c1, ev) := by
  cases op with
  | set k v =>
    obtain ⟨⟨b, c2, ev2⟩, hs⟩ := setTr_succ hash inv k v hn2
    refine ⟨c2, ev2, ?_⟩
    show (cache.setTr hash c k v).map (fun r => (r.2.1, r.2.2)) = some (c2, ev2)
    rw [hs]
    rfl
  | find k =>
    obtain ⟨ov, c2, hf⟩ := find_succ hash inv k
    refine ⟨c2, none, ?_⟩
    show (cache.find hash c k).map (fun r => (r.2, (none : Option K))) = some (c2, none)
    rw [hf]
    rfl

theorem runTr_append {K V : Type} [DecidableEq K] [DecidableEq V]
    (hash : K → Nat) :
    ∀ (l1 l2 : List (cacheOp K V)) {c c2 : cache K V} {evs : List K},
      runTr hash c (l1 ++ l2) = some (c2, evs) →
      ∃ c1 evs1 evs2, runTr hash c l1 = some (c1, evs1) ∧
        runTr hash c1 l2 = some (c2, evs2) ∧ evs = evs1 ++ evs2 := by
  intro l1
  induction l1 with
  | nil =>
    intro l2 c c2 evs h
    exact ⟨c, [], evs, rfl, h, rfl⟩
  | cons op rest ih =>
    intro l2 c c2 evs h
    rw [List.cons_append] at h
    unfold runTr at h
    cases hs : cache.stepTr hash c op with
    | none => rw [hs] at h; exact Option.noConfusion h
    | some r =>
      obtain ⟨c1', ev⟩ := r
      simp only [hs] at h
      cases hrun : runTr hash c1' (rest ++ l2) with
      | none => rw [hrun] at h; exact Option.noConfusion h
      | some r2 =>
        obtain ⟨c3, evs3⟩ := r2
        simp only [hrun] at h
        injection h with h
        injection h with hc hevs
        subst hc
        subst hevs
        obtain ⟨c1m, evs1', evs2', hr1, hr2, hevs'⟩ := ih l2 hrun
        refine ⟨c1m, ev.toList ++ evs1', evs2', ?_, hr2, ?_⟩
        · unfold runTr
          simp only [hs, hr1]
        · rw [hevs', List.append_assoc]

theorem runTr_facts {K V : Type} [DecidableEq K] [DecidableEq V]
    (hash : K → Nat) {n : Nat} :
    ∀ (ops : List (cacheOp K V)) {c : cache K V} {order : List Nat}
      {c2 : cache K V} {evs : List K},
      CacheInv hash n c order →
      runTr hash c ops = some (c2, evs) →
      ∃ order2, CacheInv hash n c2 order2 ∧
        ∀ k2, (∀ v2, cacheOp.set k2 v2 ∉ ops) → k2 ∉ evs →
          cachedVal hash c2 k2 = cachedVal hash c k2 := by
  intro ops
  induction ops with
  | nil =>
    intro c order c2 evs inv h
    injection h with h
    injection h with hc hevs
    subst hc
    subst hevs
    exact ⟨order, inv, fun k2 _ _ => rfl⟩
  | cons op rest ih =>
    intro c order c2 evs inv h
    unfold runTr at h
    cases hs : cache.stepTr hash c op with
    | none => rw [hs] at h; exact Option.noConfusion h
    | some r =>
      obtain ⟨c1, ev⟩ := r
      simp only [hs] at h
      cases hrun : runTr hash c1 rest with
      | none => rw [hrun] at h; exact Option.noConfusion h
      | some r2 =>
        obtain ⟨c3, evs2⟩ := r2
        simp only [hrun] at h
        injection h with h
        injection h with hc hevs
        subst hc
        subst hevs
        obtain ⟨order1, inv1, hpres, hevict, hnew⟩ := stepTr_facts hash inv op hs
        obtain ⟨order2, inv2, hpres2⟩ := ih inv1 hrun
        refine ⟨order2, inv2, ?_⟩
        intro k2 hnset hnev
        have hnev1 : ev ≠ some k2 := by
          intro hh
          apply hnev
          rw [hh]
          exact List.mem_append_left _ (List.mem_singleton_self _)
        have hnev2 : k2 ∉ evs2 := fun hh => hnev (List.mem_append_right _ hh)
        rw [hpres2 k2 (fun v2 hh => hnset v2 (List.mem_cons_of_mem _ hh)) hnev2,
          hpres k2 (fun v2 hh => hnset v2 (hh ▸ List.mem_cons_self _ _)) hnev1]

theorem runTr_none_pres {K V : Type} [DecidableEq K] [DecidableEq V]
    (hash : K → Nat) {n : Nat} {k2 : K} :
    ∀ (ops : List (cacheOp K V)) {c : cache K V} {order : List Nat}
      {c2 : cache K V} {evs : List K},
      CacheInv hash n c order →
      runTr hash c ops = some (c2, evs) →
      cachedVal hash c k2 = none →
      (∀ v2, cacheOp.set k2 v2 ∉ ops) →
      cachedVal hash c2 k2 = none := by
  intro ops
  induction ops with
  | nil =>
    intro c order c2 evs inv h hnone hnset
    injection h with h
    injection h with hc hevs
    subst hc
    exact hnone
  | cons op rest ih =>
    intro c order c2 evs inv h hnone hnset
    unfold runTr at h
    cases hs : cache.stepTr hash c op with
    | none => rw [hs] at h; exact Option.noConfusion h
    | some r =>
      obtain ⟨c1, ev⟩ := r
      simp only [hs] at h
      cases hrun : runTr hash c1 rest with
      | none => rw [hrun] at h; exact Option.noConfusion h
      | some r2 =>
        obtain ⟨c3, evs2⟩ := r2
        simp only [hrun] at h
        injection h with h
        injection h with hc hevs
        subst hc
        obtain ⟨order1, inv1, hpres, hevict, hnew⟩ := stepTr_facts hash inv op hs
        have hnev1 : ev ≠ some k2 := by
          intro hh
          exact hevict k2 hh hnone
        have hnone1 : cachedVal hash c1 k2 = none := by
          rw [hpres k2 (fun v2 hh => hnset v2 (hh ▸ List.mem_cons_self _ _)) hnev1]
          exact hnone
        exact ih inv1 hrun hnone1 fun v2 hh => hnset v2 (List.mem_cons_of_mem _ hh)

theorem runTr_succ {K V : Type} [DecidableEq K] [DecidableEq V]
    (hash : K → Nat) {n : Nat} (hn2 : 2 ≤ n) :
    ∀ (ops : List (cacheOp K V)) {c : cache K V} {order : List Nat},
      CacheInv hash n c order →
      ∃ c2 evs, runTr hash c ops = some (c2, evs) := by
  intro ops
  induction ops with
  | nil => intro c order inv; exact ⟨c, [], rfl⟩
  | cons op rest ih =>
    intro c order inv
    obtain ⟨c1, ev, hs⟩ := stepTr_succ hash inv op hn2
    obtain ⟨order1, inv1, -, -, -⟩ := stepTr_facts hash inv op hs
    obtain ⟨c2, evs, hrun⟩ := ih inv1
    refine ⟨c2, ev.toList ++ evs, ?_⟩
    unfold runTr
    simp only [hs, hrun]

/-! ### `find` outcomes determined by the cached value -/

theorem find_of_cachedVal_none {K V : Type} [DecidableEq K] [DecidableEq V]
    (hash : K → Nat) {n : Nat} {c : cache K V} {order : List Nat}
    (inv : CacheInv hash n c order) (k : K)
    (hnone : cachedVal hash c k = none) :
    cache.find hash c k = some (none, c) := by
  have hfvnone : iumap.findVal hash c.h k = none := by
    cases hfv : iumap.findVal hash c.h k with
    | none => rfl
    | some nd =>
      obtain ⟨i, hfind, hocc⟩ := (findVal_some_iff hash c.h k nd).mp hfv
      obtain ⟨hmem, v0, hpay⟩ := inv.slot_node i k nd hocc
      have hcv : cachedVal hash c k = some v0 := by
        unfold cachedVal
        simp only [hfv, hpay]
      rw [hnone] at hcv
      exact Option.noConfusion hcv
  unfold cache.find
  simp only [hfvnone]

theorem find_of_cachedVal_some {K V : Type} [DecidableEq K] [DecidableEq V]
    (hash : K → Nat) {n : Nat} {c : cache K V} {order : List Nat}
    (inv : CacheInv hash n c order) (k : K) {v : V}
    (hsome : cachedVal hash c k = some v) :
    ∃ c2, cache.find hash c k = some (some v, c2) := by
  obtain ⟨ov, c2, hf⟩ := find_succ hash inv k
  obtain ⟨order1, inv1, hov, -, -, -⟩ := find_pres hash inv k hf
  refine ⟨c2, ?_⟩
  rw [hf, hov, hsome]

/-! ### Lookups in constant-valued pair lists -/

theorem map_fst_pairs {K V : Type} (l : List K) (w : V) :
    ((l.map fun k0 => (k0, w)).map Prod.fst) = l := by
  induction l with
  | nil => rfl
  | cons k0 rest ih => simp only [List.map_cons, ih]

theorem absLookup_mem_const {K V : Type} [DecidableEq K] [DecidableEq V] {l : List (K × V)} {w : V}
    (hall : ∀ p ∈ l, p.2 = w) {k : K} (hk : k ∈ l.map Prod.fst) :
    absLookup l k = some w := by
  induction l with
  | nil => simp at hk
  | cons p rest ih =>
    rw [absLookup_cons]
    by_cases hp : p.1 = k
    · rw [if_pos hp, hall p (List.mem_cons_self _ _)]
    · rw [if_neg hp]
      rcases List.mem_map.mp hk with ⟨q, hq, hqk⟩
      rcases List.mem_cons.mp hq with rfl | hq2
      · exact absurd hqk hp
      · exact ih (fun q2 hq2 => hall q2 (List.mem_cons_of_mem _ hq2))
          (List.mem_map.mpr ⟨q, hq2, hqk⟩)

theorem runTr_single {K V : Type} [DecidableEq K] [DecidableEq V]
    (hash : K → Nat) {c c2 : cache K V} {op : cacheOp K V} {evs : List K}
    (h : runTr hash c [op] = some (c2, evs)) :
    ∃ ev, cache.stepTr hash c op = some (c2, ev) ∧ evs = ev.toList := by
  cases hs : cache.stepTr hash c op with
  | none =>
    have hnone : runTr hash c [op] = none := by
      unfold runTr
      rw [hs]
    rw [hnone] at h
    exact Option.noConfusion h
  | some r =>
    obtain ⟨c1, ev⟩ := r
    have hsome : runTr hash c [op] = some (c1, ev.toList ++ []) := by
      unfold runTr
      rw [hs]
      rfl
    rw [hsome] at h
    injection h with h
    injection h with hc hevs
    subst hc
    subst hevs
    exact ⟨ev, rfl, List.append_nil _⟩

/-! ### Filling a cache with distinct fresh keys -/

theorem runSets_abs {K V : Type} [DecidableEq K] [DecidableEq V]
    (hash : K → Nat) {n : Nat} (hn2 : 2 ≤ n) (w : V) :
    ∀ (ks : List K) {c : cache K V} {order : List Nat},
      CacheInv hash n c order →
      (absOf c order).length + ks.length ≤ n →
      ks.Nodup →
      (∀ k0 ∈ ks, absLookup (absOf c order) k0 = none) →
      ∃ c1 order1,
        runTr hash c (ks.map fun k0 => cacheOp.set k0 w) = some (c1, []) ∧
        CacheInv hash n c1 order1 ∧
        absOf c1 order1 = (ks.reverse.map fun k0 => (k0, w)) ++ absOf c order := by
  intro ks
  induction ks with
  | nil =>
    intro c order inv hlen hnod habs
    exact ⟨c, order, rfl, inv, by simp⟩
  | cons k0 rest ih =>
    intro c order inv hlen hnod habs
    obtain ⟨⟨b, c1, ev⟩, hs⟩ := setTr_succ hash inv k0 w hn2
    obtain ⟨order1, inv1, habs1⟩ := setTr_pres hash inv k0 w hs
    have hlk : absLookup (absOf c order) k0 = none := habs k0 (List.mem_cons_self _ _)
    have hlt : (absOf c order).length < n := by
      simp only [List.length_cons] at hlen
      omega
    unfold absSet at habs1
    simp only [hlk] at habs1
    rw [if_pos hlt] at habs1
    injection habs1 with hb habs2
    injection habs2 with hnew hev
    have hstep : cache.stepTr hash c (cacheOp.set k0 w) = some (c1, ev) := by
      show (cache.setTr hash c k0 w).map (fun r => (r.2.1, r.2.2)) = some (c1, ev)
      rw [hs]
      rfl
    have habs1' : absOf c1 order1 = (k0, w) :: absOf c order := hnew.symm
    have hlen1 : (absOf c1 order1).length + rest.length ≤ n := by
      rw [habs1', List.length_cons]
      simp only [List.length_cons] at hlen
      omega
    have hnod1 := (List.nodup_cons.mp hnod).2
    have hk0rest := (List.nodup_cons.mp hnod).1
    have habsrest : ∀ kr ∈ rest, absLookup (absOf c1 order1) kr = none := by
      intro kr hkr
      rw [habs1', absLookup_cons, if_neg (show ¬((k0, w).1 = kr) from
        fun hh => hk0rest (by rw [show k0 = kr from hh]; exact hkr))]
      exact habs kr (List.mem_cons_of_mem _ hkr)
    obtain ⟨c2, order2, hrun, inv2, habs2'⟩ := ih inv1 hlen1 hnod1 habsrest
    refine ⟨c2, order2, ?_, inv2, ?_⟩
    · show runTr hash c (cacheOp.set k0 w :: rest.map fun kk => cacheOp.set kk w)
        = some (c2, [])
      unfold runTr
      simp only [hstep, hrun]
      rw [← hev]
      rfl
    · rw [habs2', habs1', List.reverse_cons, List.map_append]
      simp

/-! ### An overflowing `set` in one step -/

theorem setTr_full_step {K V : Type} [DecidableEq K] [DecidableEq V]
    (hash : K → Nat) {n : Nat} {c : cache K V} {order : List Nat}
    (inv : CacheInv hash n c order) (hn2 : 2 ≤ n) (k : K) (v : V)
    {L2 : List (K × V)} {p : K × V}
    (habs : absOf c order = L2 ++ [p])
    (hlkk : absLookup (absOf c order) k = none)
    (hlen : (absOf c order).length = n) :
    ∃ c2 order2, cache.setTr hash c k v = some (false, c2, some p.1) ∧
      CacheInv hash n c2 order2 ∧
      absOf c2 order2 = (k, v) :: L2 := by
  obtain ⟨⟨b, c2, ev⟩, hset⟩ := setTr_succ hash inv k v hn2
  obtain ⟨order2, inv2, habsS⟩ := setTr_pres hash inv k v hset
  unfold absSet at habsS
  simp only [hlkk] at habsS
  rw [if_neg (by rw [hlen]; omega)] at habsS
  injection habsS with hb habsS2
  injection habsS2 with hnew hev
  rw [habs, List.dropLast_concat] at hnew
  rw [habs, List.getLast?_concat, Option.map_some'] at hev
  subst hb
  refine ⟨c2, order2, ?_, inv2, hnew.symm⟩
  rw [hset, ← hev]

/-- C2: in every interleaving of `find` and `set` calls run from an empty
cache of power-of-two capacity, the table's live count equals the recency
list's live count, and every occupied table slot maps its key to a node
handle whose node currently stores a pair with that same key. -/
theorem c2_cross_structure_consistency {K V : Type} [DecidableEq K] [DecidableEq V]
    (hash : K → Nat) {n : Nat} (e : Nat) (he : n = 2 ^ e)
    (ops : List (cacheOp K V)) {c : cache K V} {evs : List K}
    (hrun : runTr hash (emptyCache K V n) ops = some (c, evs)) :
    c.h.size_ = c.lru.size_ ∧
    ∀ i k nd, c.h.v_.getD i .unused = .occupied k nd →
      ∃ v, (c.lru.v_.getD nd dn).payload = some (k, v) := by
  obtain ⟨order2, inv2, -⟩ := runTr_facts hash ops (cacheInv_empty hash e he) hrun
  exact ⟨inv2.sizes, fun i k nd hocc => (inv2.slot_node i k nd hocc).2⟩

set_option maxHeartbeats 1600000 in
theorem c2_cross_structure_consistency_witness :
    ∃ (c : cache Nat Nat) (evs : List Nat),
      runTr idHash (emptyCache Nat Nat 4)
        [cacheOp.set 1 11, cacheOp.set 2 22, cacheOp.find 1, cacheOp.set 3 33,
         cacheOp.set 4 44, cacheOp.set 5 55, cacheOp.find 3] = some (c, evs) ∧
      (c.h.size_ = c.lru.size_ ∧
       ∀ i k nd, c.h.v_.getD i .unused = .occupied k nd →
         ∃ v, (c.lru.v_.getD nd dn).payload = some (k, v)) := by
  cases hrun : runTr idHash (emptyCache Nat Nat 4)
      [cacheOp.set 1 11, cacheOp.set 2 22, cacheOp.find 1, cacheOp.set 3 33,
       cacheOp.set 4 44, cacheOp.set 5 55, cacheOp.find 3] with
  | none => exact absurd hrun (by decide)
  | some r =>
    refine ⟨r.1, r.2, rfl, ?_⟩
    exact c2_cross_structure_consistency (n := 4) idHash 2 rfl
      [cacheOp.set 1 11, cacheOp.set 2 22, cacheOp.find 1, cacheOp.set 3 33,
       cacheOp.set 4 44, cacheOp.set 5 55, cacheOp.find 3] (by rw [hrun])

/-- C3: (round trip) after `set(k, v)` followed by any operations that
neither set `k` again nor evict `k`, `find(k)` yields the value `v` set
most recently; (miss) for a key never set, `find` returns null and the
cache unchanged; (evicted) for a key evicted and not re-set, `find`
returns null and the cache unchanged. -/
theorem c3_find_round_trip {K V : Type} [DecidableEq K] [DecidableEq V]
    (hash : K → Nat) {n : Nat} (e : Nat) (he : n = 2 ^ e) :
    (∀ (pre post : List (cacheOp K V)) (k : K) (v : V)
       (cmid cf : cache K V) (evs1 evs2 : List K),
       runTr hash (emptyCache K V n) (pre ++ [cacheOp.set k v]) = some (cmid, evs1) →
       runTr hash cmid post = some (cf, evs2) →
       (∀ v2, cacheOp.set k v2 ∉ post) → k ∉ evs2 →
       ∃ cf2, cache.find hash cf k = some (some v, cf2)) ∧
    (∀ (ops : List (cacheOp K V)) (k : K) (cf : cache K V) (evs : List K),
       runTr hash (emptyCache K V n) ops = some (cf, evs) →
       (∀ v2, cacheOp.set k v2 ∉ ops) →
       cache.find hash cf k = some (none, cf)) ∧
    (∀ (pre post : List (cacheOp K V)) (op : cacheOp K V) (k : K)
       (c0 c1 cf : cache K V) (evs0 evs2 : List K),
       runTr hash (emptyCache K V n) pre = some (c0, evs0) →
       cache.stepTr hash c0 op = some (c1, some k) →
       runTr hash c1 post = some (cf, evs2) →
       (∀ v2, cacheOp.set k v2 ∉ post) →
       cache.find hash cf k = some (none, cf)) := by
  refine ⟨?_, ?_, ?_⟩
  · intro pre post k v cmid cf evs1 evs2 hrun1 hrun2 hnset hnev
    obtain ⟨cpre, evsa, evsb, hrpre, hrlast, -⟩ :=
      runTr_append hash pre [cacheOp.set k v] hrun1
    obtain ⟨orderp, invp, -⟩ := runTr_facts hash pre (cacheInv_empty hash e he) hrpre
    obtain ⟨ev, hstep, -⟩ := runTr_single hash hrlast
    have hstep2 : (cache.setTr hash cpre k v).map (fun r => (r.2.1, r.2.2))
        = some (cmid, ev) := hstep
    cases hset : cache.setTr hash cpre k v with
    | none => rw [hset] at hstep2; exact Option.noConfusion hstep2
    | some r =>
      obtain ⟨b2, c2, ev2⟩ := r
      rw [hset] at hstep2
      simp only [Option.map_some'] at hstep2
      injection hstep2 with hstep2
      injection hstep2 with hcm hev2
      subst hcm
      obtain ⟨ordm, invm, habs⟩ := setTr_pres hash invp k v hset
      obtain ⟨hsetk, -, -⟩ := absSet_cachedVal hash invp invm habs
      obtain ⟨ordf, invf, hpres⟩ := runTr_facts hash post invm hrun2
      have hcvf : cachedVal hash cf k = some v := by
        rw [hpres k hnset hnev]
        exact hsetk
      exact find_of_cachedVal_some hash invf k hcvf
  · intro ops k cf evs hrun hnset
    have hempty : cachedVal hash (emptyCache K V n) k = none :=
      (cachedVal_eq_absLookup (cacheInv_empty hash e he) k).symm
    have hnonef : cachedVal hash cf k = none :=
      runTr_none_pres hash ops (cacheInv_empty hash e he) hrun hempty hnset
    obtain ⟨ordf, invf, -⟩ := runTr_facts hash ops (cacheInv_empty hash e he) hrun
    exact find_of_cachedVal_none hash invf k hnonef
  · intro pre post op k c0 c1 cf evs0 evs2 hrpre hstep hrun2 hnset
    obtain ⟨ord0, inv0, -⟩ := runTr_facts hash pre (cacheInv_empty hash e he) hrpre
    obtain ⟨ord1, inv1, -, -, hnew⟩ := stepTr_facts hash inv0 op hstep
    have hnone1 : cachedVal hash c1 k = none := hnew k rfl
    have hnonef : cachedVal hash cf k = none :=
      runTr_none_pres hash post inv1 hrun2 hnone1 hnset
    obtain ⟨ordf, invf, -⟩ := runTr_facts hash post inv1 hrun2
    exact find_of_cachedVal_none hash invf k hnonef

set_option maxHeartbeats 1600000 in
theorem c3_find_round_trip_witness :
    (∃ (cmid cf : cache Nat Nat) (evs1 evs2 : List Nat) (cf2 : cache Nat Nat),
       runTr idHash (emptyCache Nat Nat 4)
         ([cacheOp.set 2 22] ++ [cacheOp.set 1 11]) = some (cmid, evs1) ∧
       runTr idHash cmid [cacheOp.set 3 33, cacheOp.find 2] = some (cf, evs2) ∧
       cache.find idHash cf 1 = some (some 11, cf2)) ∧
    (∃ (cf : cache Nat Nat) (evs : List Nat),
       runTr idHash (emptyCache Nat Nat 4) [cacheOp.set 2 22] = some (cf, evs) ∧
       cache.find idHash cf 9 = some (none, cf)) ∧
    (∃ (c0 c1 : cache Nat Nat) (evs0 : List Nat),
       runTr idHash (emptyCache Nat Nat 4)
         [cacheOp.set 1 11, cacheOp.set 2 22, cacheOp.set 3 33, cacheOp.set 4 44]
         = some (c0, evs0) ∧
       cache.stepTr idHash c0 (cacheOp.set 5 55) = some (c1, some 1) ∧
       cache.find idHash c1 1 = some (none, c1)) := by
  refine ⟨?_, ?_, ?_⟩
  · cases hrun : runTr idHash (emptyCache Nat Nat 4)
        (([cacheOp.set 2 22] ++ [cacheOp.set 1 11]) ++
          [cacheOp.set 3 33, cacheOp.find 2]) with
    | none => exact absurd hrun (by decide)
    | some r =>
      have hevs : r.2 = [] := by
        have hd : (runTr idHash (emptyCache Nat Nat 4)
            (([cacheOp.set 2 22] ++ [cacheOp.set 1 11]) ++
              [cacheOp.set 3 33, cacheOp.find 2])).map Prod.snd = some [] := by decide
        rw [hrun] at hd
        simp only [Option.map_some'] at hd
        exact Option.some.inj hd
      obtain ⟨cmid, evs1, evs2, h1, h2, hsplit⟩ :=
        runTr_append idHash ([cacheOp.set 2 22] ++ [cacheOp.set 1 11])
          [cacheOp.set 3 33, cacheOp.find 2]
          (show runTr idHash (emptyCache Nat Nat 4)
            (([cacheOp.set 2 22] ++ [cacheOp.set 1 11]) ++
              [cacheOp.set 3 33, cacheOp.find 2]) = some (r.1, r.2) by rw [hrun])
      have hevs2 : evs2 = [] := by
        rw [hevs] at hsplit
        exact (List.append_eq_nil.mp hsplit.symm).2
      obtain ⟨cf2, hfind⟩ := (c3_find_round_trip (n := 4) idHash 2 rfl).1
        [cacheOp.set 2 22] [cacheOp.set 3 33, cacheOp.find 2] 1 11 cmid r.1 evs1 evs2
        h1 h2 (by intro v2 h; simp at h) (by rw [hevs2]; exact List.not_mem_nil _)
      exact ⟨cmid, r.1, evs1, evs2, cf2, h1, h2, hfind⟩
  · cases hrun : runTr idHash (emptyCache Nat Nat 4) [cacheOp.set 2 22] with
    | none => exact absurd hrun (by decide)
    | some r =>
      have h9 := (c3_find_round_trip (n := 4) idHash 2 rfl).2.1
        [cacheOp.set 2 22] 9 r.1 r.2 (by rw [hrun]) (by intro v2 h; simp at h)
      exact ⟨r.1, r.2, rfl, h9⟩
  · cases hrun : runTr idHash (emptyCache Nat Nat 4)
        ([cacheOp.set 1 11, cacheOp.set 2 22, cacheOp.set 3 33, cacheOp.set 4 44] ++
          [cacheOp.set 5 55]) with
    | none => exact absurd hrun (by decide)
    | some r =>
      have hevs : r.2 = [1] := by
        have hd : (runTr idHash (emptyCache Nat Nat 4)
            ([cacheOp.set 1 11, cacheOp.set 2 22, cacheOp.set 3 33,
              cacheOp.set 4 44] ++ [cacheOp.set 5 55])).map Prod.snd
            = some [1] := by decide
        rw [hrun] at hd
        simp only [Option.map_some'] at hd
        exact Option.some.inj hd
      obtain ⟨c0, evs0, evsmid, h1, h2, hsplit⟩ :=
        runTr_append idHash
          [cacheOp.set 1 11, cacheOp.set 2 22, cacheOp.set 3 33, cacheOp.set 4 44]
          [cacheOp.set 5 55]
          (show runTr idHash (emptyCache Nat Nat 4)
            ([cacheOp.set 1 11, cacheOp.set 2 22, cacheOp.set 3 33,
              cacheOp.set 4 44] ++ [cacheOp.set 5 55]) = some (r.1, r.2) by rw [hrun])
      have hevs0 : evs0 = [] := by
        have hd0 : (runTr idHash (emptyCache Nat Nat 4)
            [cacheOp.set 1 11, cacheOp.set 2 22, cacheOp.set 3 33,
             cacheOp.set 4 44]).map Prod.snd = some [] := by decide
        rw [h1] at hd0
        simp only [Option.map_some'] at hd0
        exact Option.some.inj hd0
      obtain ⟨ev, hstep, hevlist⟩ := runTr_single idHash h2
      have hev1 : ev = some 1 := by
        rw [hevs, hevs0] at hsplit
        simp only [List.nil_append] at hsplit
        rw [hevlist] at hsplit
        cases ev with
        | none => exact absurd hsplit (by simp)
        | some x =>
          simp only [Option.toList] at hsplit
          injection hsplit with hx hnil
          rw [← hx]
      rw [hev1] at hstep
      have hfind := (c3_find_round_trip (n := 4) idHash 2 rfl).2.2
        [cacheOp.set 1 11, cacheOp.set 2 22, cacheOp.set 3 33, cacheOp.set 4 44]
        [] (cacheOp.set 5 55) 1 c0 r.1 r.1 evs0 [] h1 hstep rfl
        (by intro v2 h; simp at h)
      exact ⟨c0, r.1, evs0, h1, hstep, hfind⟩

set_option maxHeartbeats 1600000 in
/-- C4: filling a capacity-`N` cache with `N` distinct keys and then
setting one further fresh key evicts exactly the least-recently-used key
`k0` (the first one set): `k0` is no longer found while the other keys and
the new key are; and `find`-touching `k0` before the overflowing set
promotes it, so the next-least-recently-used key `k1` is evicted instead. -/
theorem c4_eviction_order {K V : Type} [DecidableEq K] [DecidableEq V]
    (hash : K → Nat) {n : Nat} (e : Nat) (he : n = 2 ^ e) (hn2 : 2 ≤ n)
    (k0 k1 : K) (rest : List K) (hnod : (k0 :: k1 :: rest).Nodup)
    (hlen : (k0 :: k1 :: rest).length = n)
    (knew : K) (hknew : knew ∉ k0 :: k1 :: rest) (w : V) :
    ∃ c1, runTr hash (emptyCache K V n)
        ((k0 :: k1 :: rest).map fun kk => cacheOp.set kk w) = some (c1, []) ∧
      (∃ c2, cache.setTr hash c1 knew w = some (false, c2, some k0) ∧
        cache.find hash c2 k0 = some (none, c2) ∧
        (∀ kr ∈ k1 :: rest, ∃ c3, cache.find hash c2 kr = some (some w, c3)) ∧
        (∃ c3, cache.find hash c2 knew = some (some w, c3))) ∧
      (∃ c1t, cache.find hash c1 k0 = some (some w, c1t) ∧
        ∃ c2, cache.setTr hash c1t knew w = some (false, c2, some k1) ∧
          cache.find hash c2 k1 = some (none, c2) ∧
          (∃ c3, cache.find hash c2 k0 = some (some w, c3)) ∧
          (∀ kr ∈ rest, ∃ c3, cache.find hash c2 kr = some (some w, c3)) ∧
          (∃ c3, cache.find hash c2 knew = some (some w, c3))) := by
  -- membership and distinctness bookkeeping
  have hnodtail : (k1 :: rest).Nodup := (List.nodup_cons.mp hnod).2
  have hk0tail : k0 ∉ k1 :: rest := (List.nodup_cons.mp hnod).1
  have hk1rest : k1 ∉ rest := (List.nodup_cons.mp hnodtail).1
  have hknew0 : knew ≠ k0 := fun hh => hknew (hh ▸ List.mem_cons_self _ _)
  have hknewt : knew ∉ k1 :: rest := fun hh => hknew (List.mem_cons_of_mem _ hh)
  have hknew1 : knew ≠ k1 := fun hh => hknewt (hh ▸ List.mem_cons_self _ _)
  have hknewrest : knew ∉ rest := fun hh => hknewt (List.mem_cons_of_mem _ hh)
  have hk01 : k0 ≠ k1 := fun hh => hk0tail (hh ▸ List.mem_cons_self _ _)
  have hk0rest : k0 ∉ rest := fun hh => hk0tail (List.mem_cons_of_mem _ hh)
  -- key-absence and constant-value helpers for mapped pair lists
  have hlknone : ∀ (l : List K) (kk : K), kk ∉ l →
      absLookup (l.map fun k2 => (k2, w)) kk = none := by
    intro l kk hk
    rw [absLookup_eq_none_iff]
    intro p hp
    obtain ⟨q, hq, hqe⟩ := List.mem_map.mp hp
    subst hqe
    dsimp only
    intro hh
    exact hk (hh ▸ hq)
  have hallw : ∀ (l : List K) (p : K × V), p ∈ l.map (fun k2 => (k2, w)) →
      p.2 = w := by
    intro l p hp
    obtain ⟨q, hq, hqe⟩ := List.mem_map.mp hp
    rw [← hqe]
  -- fill the cache
  obtain ⟨c1, order1, hrun, inv1, habs1⟩ := runSets_abs hash hn2 w (k0 :: k1 :: rest)
    (cacheInv_empty hash e he : CacheInv hash n (emptyCache K V n) [])
    (by rw [show (absOf (emptyCache K V n) ([] : List Nat)).length = 0 from rfl, hlen]
        omega)
    hnod (fun kk hk => rfl)
  rw [show absOf (emptyCache K V n) ([] : List Nat) = [] from rfl,
    List.append_nil] at habs1
  have hrev : (k0 :: k1 :: rest).reverse = (k1 :: rest).reverse ++ [k0] :=
    List.reverse_cons _ _
  have hL : absOf c1 order1
      = ((k1 :: rest).reverse.map fun kk => (kk, w)) ++ [(k0, w)] := by
    rw [habs1, hrev, List.map_append]
    rfl
  refine ⟨c1, hrun, ?_, ?_⟩
  · -- Scenario A: overflow evicts k0
    obtain ⟨c2, order2, hsetA, inv2, habsA⟩ := setTr_full_step hash inv1 hn2 knew w hL
      (by rw [habs1]
          exact hlknone _ knew (by rw [List.mem_reverse]; exact hknew))
      (by rw [habs1, List.length_map, List.length_reverse, hlen])
    refine ⟨c2, hsetA, ?_, ?_, ?_⟩
    · have hcv0 : cachedVal hash c2 k0 = none := by
        rw [← cachedVal_eq_absLookup inv2, habsA, absLookup_cons,
          if_neg (show ¬((knew, w).1 = k0) from fun hh => hknew0 hh)]
        exact hlknone _ k0 (by rw [List.mem_reverse]; exact hk0tail)
      exact find_of_cachedVal_none hash inv2 k0 hcv0
    · intro kr hkr
      have hcv : cachedVal hash c2 kr = some w := by
        rw [← cachedVal_eq_absLookup inv2, habsA]
        apply absLookup_mem_const
        · intro p hp
          rcases List.mem_cons.mp hp with rfl | hp2
          · rfl
          · exact hallw _ p hp2
        · rw [List.map_cons, map_fst_pairs]
          exact List.mem_cons_of_mem _ (List.mem_reverse.mpr hkr)
      exact find_of_cachedVal_some hash inv2 kr hcv
    · have hcv : cachedVal hash c2 knew = some w := by
        rw [← cachedVal_eq_absLookup inv2, habsA, absLookup_cons, if_pos rfl]
      exact find_of_cachedVal_some hash inv2 knew hcv
  · -- Scenario B: touch k0 first, then the overflow evicts k1
    have hcvk0 : cachedVal hash c1 k0 = some w := by
      rw [← cachedVal_eq_absLookup inv1, habs1]
      apply absLookup_mem_const (hallw _)
      rw [map_fst_pairs, List.mem_reverse]
      exact List.mem_cons_self _ _
    obtain ⟨c1t, hfind0⟩ := find_of_cachedVal_some hash inv1 k0 hcvk0
    obtain ⟨order1t, inv1t, hov, -, -, habsF⟩ := find_pres hash inv1 k0 hfind0
    have habsLk0 : absLookup (absOf c1 order1) k0 = some w := by
      rw [cachedVal_eq_absLookup inv1]
      exact hcvk0
    have hkeysL2 : ∀ p ∈ (k1 :: rest).reverse.map fun kk => (kk, w), p.1 ≠ k0 := by
      intro p hp
      obtain ⟨q, hq, hqe⟩ := List.mem_map.mp hp
      subst hqe
      dsimp only
      intro hh
      exact hk0tail (hh ▸ List.mem_reverse.mp hq)
    have habsT : absOf c1t order1t
        = (k0, w) :: ((k1 :: rest).reverse.map fun kk => (kk, w)) := by
      rw [habsF]
      unfold absFind
      simp only [habsLk0]
      rw [hL, absEraseKey_append_of_not_mem _ _ _ _ hkeysL2, List.append_nil]
    have hrev2 : (k1 :: rest).reverse = rest.reverse ++ [k1] := List.reverse_cons _ _
    have hLB : absOf c1t order1t
        = ((k0, w) :: rest.reverse.map fun kk => (kk, w)) ++ [(k1, w)] := by
      rw [habsT, hrev2, List.map_append]
      rfl
    obtain ⟨c2, order2, hsetB, inv2, habsB⟩ := setTr_full_step hash inv1t hn2 knew w hLB
      (by rw [habsT, absLookup_cons,
            if_neg (show ¬((k0, w).1 = knew) from fun hh => hknew0 hh.symm)]
          exact hlknone _ knew (by rw [List.mem_reverse]; exact hknewt))
      (by rw [habsT, List.length_cons, List.length_map, List.length_reverse]
          simp only [List.length_cons] at hlen ⊢
          omega)
    refine ⟨c1t, hfind0, c2, hsetB, ?_, ?_, ?_, ?_⟩
    · have hcv1 : cachedVal hash c2 k1 = none := by
        rw [← cachedVal_eq_absLookup inv2, habsB, absLookup_cons,
          if_neg (show ¬((knew, w).1 = k1) from fun hh => hknew1 hh),
          absLookup_cons,
          if_neg (show ¬((k0, w).1 = k1) from fun hh => hk01 hh)]
        exact hlknone _ k1 (by rw [List.mem_reverse]; exact hk1rest)
      exact find_of_cachedVal_none hash inv2 k1 hcv1
    · have hcv : cachedVal hash c2 k0 = some w := by
        rw [← cachedVal_eq_absLookup inv2, habsB, absLookup_cons,
          if_neg (show ¬((knew, w).1 = k0) from fun hh => hknew0 hh),
          absLookup_cons, if_pos rfl]
      exact find_of_cachedVal_some hash inv2 k0 hcv
    · intro kr hkr
      have hcv : cachedVal hash c2 kr = some w := by
        rw [← cachedVal_eq_absLookup inv2, habsB]
        apply absLookup_mem_const
        · intro p hp
          rcases List.mem_cons.mp hp with rfl | hp2
          · rfl
          · rcases List.mem_cons.mp hp2 with rfl | hp3
            · rfl
            · exact hallw _ p hp3
        · rw [List.map_cons, List.map_cons, map_fst_pairs]
          exact List.mem_cons_of_mem _
            (List.mem_cons_of_mem _ (List.mem_reverse.mpr hkr))
      exact find_of_cachedVal_some hash inv2 kr hcv
    · have hcv : cachedVal hash c2 knew = some w := by
        rw [← cachedVal_eq_absLookup inv2, habsB, absLookup_cons, if_pos rfl]
      exact find_of_cachedVal_some hash inv2 knew hcv

set_option maxHeartbeats 1600000 in
theorem c4_eviction_order_witness :
    (4 : Nat) = 2 ^ 2 ∧ 2 ≤ 4 ∧ ([0, 1, 2, 3] : List Nat).Nodup ∧
    ([0, 1, 2, 3] : List Nat).length = 4 ∧ (7 : Nat) ∉ ([0, 1, 2, 3] : List Nat) ∧
    ∃ c1, runTr idHash (emptyCache Nat Nat 4)
        (([0, 1, 2, 3] : List Nat).map fun kk => cacheOp.set kk 99) = some (c1, []) ∧
      (∃ c2, cache.setTr idHash c1 7 99 = some (false, c2, some 0) ∧
        cache.find idHash c2 0 = some (none, c2) ∧
        (∀ kr ∈ ([1, 2, 3] : List Nat), ∃ c3,
          cache.find idHash c2 kr = some (some 99, c3)) ∧
        (∃ c3, cache.find idHash c2 7 = some (some 99, c3))) ∧
      (∃ c1t, cache.find idHash c1 0 = some (some 99, c1t) ∧
        ∃ c2, cache.setTr idHash c1t 7 99 = some (false, c2, some 1) ∧
          cache.find idHash c2 1 = some (none, c2) ∧
          (∃ c3, cache.find idHash c2 0 = some (some 99, c3)) ∧
          (∀ kr ∈ ([2, 3] : List Nat), ∃ c3,
            cache.find idHash c2 kr = some (some 99, c3)) ∧
          (∃ c3, cache.find idHash c2 7 = some (some 99, c3))) :=
  ⟨rfl, by omega, by decide, rfl, by decide,
    c4_eviction_order (n := 4) idHash 2 rfl (by omega) 0 1 [2, 3]
      (by decide) rfl 7 (by decide) 99⟩
